import Mathlib

/-!
# The shortcuts tab of darktable's preferences dialog

A shallow embedding of the accelerator code of `src/gui/preferences.c`:
the shortcut tree (`tree_insert_accel`, `tree_insert_rec`, `path_to_accel`,
`update_accels_model`), the remap state (`tree_row_activated_accels`,
`tree_selection_changed`), the key handler with its conflict scan
(`tree_key_press`, `delete_matching_accels`), the search (`accel_search`,
`accel_search_children`), the sort function `compare_rows_accels`,
`restore_defaults`, the presets tree with its bucketed columns
(`tree_insert_presets`), and the options of `dt_gui_preferences_enum`.

Conventions of the embedding.

* A C string is the list of its characters before the terminating NUL.
* A pointer into `darktable.control->accelerator_list` is the position of the
  element in the list, so `a != accel_current` compares positions.
* A `GtkTreeIter` and a `GtkTreePath` are both the list of child indices that
  leads from the top level to the row. The pair `(model, parent)` handed to a
  recursive tree function is represented by the rows below `parent`.
* GTK's accelerator map is a path-keyed store of `(accel_key, accel_mods)`.
* Functions of GLib, GDK, GTK and of other darktable files that the code calls
  but does not define are collected in `Externals`; `strcoll` is an argument of
  the sort function.
* A finite C `float` is the dyadic rational it denotes; a conversion whose
  result C leaves undefined has no result.
* The presets store carries its sort function: it has none at the call of
  `tree_insert_presets` in `init_tab_presets` and `compare_rows_presets` at the
  calls after `gtk_tree_store_clear`, and GTK places an inserted row by it.
-/

namespace Preferences

/-- A C string: the characters before the terminating NUL. -/
abbrev CStr := List Char

/-! ## GLib string helpers -/

/-- Models `g_strlcpy(dest, src, dest_size)` for `dest_size > 0`: `dest`
receives at most `dest_size - 1` characters of `src`. -/
def g_strlcpy (src : CStr) (dest_size : Nat) : CStr :=
  src.take (dest_size - 1)

/-- Models `g_strlcat(dest, src, dest_size)`: appends `src` to `dest` while the result
keeps fewer than `dest_size` characters; a `dest` that already fills the
buffer is left alone. -/
def g_strlcat (dest src : CStr) (dest_size : Nat) : CStr :=
  if dest_size ≤ dest.length then dest else (dest ++ src).take (dest_size - 1)

/-- Models `strchr(s, c)` as the offset of the first `c` in `s`, `none` for NULL. -/
def strchr : CStr → Char → Option Nat
  | [], _ => none
  | x :: s, c => if x = c then some 0 else (strchr s c).map (· + 1)

/-- The backquote, which stands for a slash inside a translated segment. -/
def backquote : Char := Char.ofNat 96

/-- Models `g_strdelimit(s, backquote, '/')`: every backquote becomes a slash. -/
def g_strdelimit (s : CStr) : CStr :=
  s.map (fun c => if c = backquote then '/' else c)

/-- The literal `"<Darktable>"`. -/
def darktable_base : CStr := "<Darktable>".toList

/-! ## The accelerator registry -/

/-- Models `GtkAccelKey`, without the flags the file never reads. -/
structure GtkAccelKey where
  accel_key : Nat
  accel_mods : Nat
deriving DecidableEq, Repr

/-- Models `dt_accel_t` (declared in `gui/accelerators.h`): the fields this file uses.
`local_` is the field `local`, `views` the bit set `dt_view_type_flags_t`. -/
structure dt_accel_t where
  path : CStr
  translated_path : CStr
  module : CStr
  local_ : Bool
  views : Nat
deriving DecidableEq, Repr

/-- GTK's global accelerator map: the known paths with their current binding. -/
abbrev AccelMap := List (CStr × GtkAccelKey)

/-- Models `gtk_accel_map_lookup_entry(accel_path, &key)`: `some key` when the path is
known (the call returns TRUE and fills `key`), `none` when it is not (the call
returns FALSE and leaves `key` as it was). -/
def gtk_accel_map_lookup_entry : AccelMap → CStr → Option GtkAccelKey
  | [], _ => none
  | (p, k) :: rest, accel_path =>
    if p = accel_path then some k else gtk_accel_map_lookup_entry rest accel_path

/-- Overwrites the binding stored for a known path. -/
def accel_map_set : AccelMap → CStr → GtkAccelKey → AccelMap
  | [], _, _ => []
  | (p, k0) :: rest, accel_path, k =>
    if p = accel_path then (p, k) :: rest else (p, k0) :: accel_map_set rest accel_path k

/-- Models `gtk_accel_map_change_entry(accel_path, accel_key, accel_mods, replace)` on
a map without locked paths: an unknown path is added with the binding, a path
that already has the binding is left alone and the call reports FALSE, any
other path takes the new binding. The result is the new map and the returned
flag. -/
def gtk_accel_map_change_entry (map : AccelMap) (accel_path : CStr)
    (accel_key accel_mods : Nat) (_replace : Bool) : AccelMap × Bool :=
  match gtk_accel_map_lookup_entry map accel_path with
  | none => (map ++ [(accel_path, ⟨accel_key, accel_mods⟩)], true)
  | some k =>
    if k.accel_key = accel_key ∧ k.accel_mods = accel_mods then (map, false)
    else (accel_map_set map accel_path ⟨accel_key, accel_mods⟩, true)

/-- Models `GdkEventKey`: the fields of a key event. -/
structure GdkEventKey where
  keyval : Nat
  state : Nat
  hardware_keycode : Nat
  group : Nat
  is_modifier : Bool
deriving DecidableEq, Repr

/-- What the file calls but does not define. -/
structure Externals where
  /-- Stands for `gdk_keyval_to_lower`. -/
  gdk_keyval_to_lower : Nat → Nat
  /-- Stands for `dt_gui_translated_key_state` of `gui/gtk.c`. -/
  dt_gui_translated_key_state : GdkEventKey → Nat
  /-- Stands for `gtk_accelerator_get_label`. -/
  gtk_accelerator_get_label : Nat → Nat → CStr
  /-- Stands for `g_dpgettext2("gtk30", "keyboard label", name)`. -/
  keyboard_label : CStr → CStr
  /-- The message `_("press key combination to remap...")`. -/
  remap_prompt : CStr
  /-- Stands for `sizeof(query.path)`, the size of the `path` buffer of `dt_accel_t`. -/
  sizeof_path : Nat
  /-- What a `GtkAccelKey` local holds when no lookup has filled it in. -/
  indeterminate : GtkAccelKey

/-- The value of a local `GtkAccelKey key` after
`gtk_accel_map_lookup_entry(accel_path, &key)` when the returned flag is not
looked at. -/
def lookup_key (ext : Externals) (map : AccelMap) (accel_path : CStr) : GtkAccelKey :=
  (gtk_accel_map_lookup_entry map accel_path).getD ext.indeterminate

/-- The response id `GTK_RESPONSE_YES`. -/
def GTK_RESPONSE_YES : Int := -8

/-- The key value `GDK_KEY_BackSpace`. -/
def GDK_KEY_BackSpace : Nat := 0xff08

/-! ## The tree store of the shortcuts tab -/

/-- The three string columns of a row. -/
structure Row where
  /-- Column `A_ACCEL_COLUMN`. -/
  accel : CStr
  /-- Column `A_BINDING_COLUMN`. -/
  binding : CStr
  /-- Column `A_TRANS_COLUMN`. -/
  trans : CStr
deriving DecidableEq, Repr

/-- A row of the `GtkTreeStore` with the rows below it, in model order. -/
inductive Node where
  | mk (row : Row) (children : List Node)

/-- The columns of a row. -/
def Node.row : Node → Row
  | .mk r _ => r

/-- The rows directly below a row. -/
def Node.children : Node → List Node
  | .mk _ ch => ch

/-- The store: its top-level rows. -/
abbrev GtkTreeStore := List Node

/-- A tree path: the child indices from the top level down to a row. -/
abbrev GtkTreePath := List Nat

/-- Models `gtk_tree_model_get_iter(model, &iter, path)`: the row a path leads to. -/
def gtk_tree_model_get_iter : List Node → GtkTreePath → Option Node
  | _, [] => none
  | rows, [i] => rows[i]?
  | rows, i :: j :: rest =>
    match rows[i]? with
    | none => none
    | some n => gtk_tree_model_get_iter n.children (j :: rest)

/-- Models `gtk_tree_model_iter_has_child(model, &iter)`. -/
def gtk_tree_model_iter_has_child (n : Node) : Bool :=
  !n.children.isEmpty

/-- Replaces the row at position `i` of a list of rows. -/
def modify_nth (f : Node → Node) : List Node → Nat → List Node
  | [], _ => []
  | n :: rows, 0 => f n :: rows
  | n :: rows, i + 1 => n :: modify_nth f rows i

/-- Models `gtk_tree_store_set(model, &iter, A_BINDING_COLUMN, value, -1)` for the
iter of `path`; an iter that is not valid changes nothing. -/
def gtk_tree_store_set_binding (value : CStr) : List Node → GtkTreePath → List Node
  | rows, [] => rows
  | rows, [i] => modify_nth (fun n => .mk { n.row with binding := value } n.children) rows i
  | rows, i :: j :: rest =>
    modify_nth (fun n => .mk n.row (gtk_tree_store_set_binding value n.children (j :: rest))) rows i

/-! ## Building the tree -/

/-- The loop `while((trans_scan = strchr(trans_scan, backquote)))` of
`tree_insert_rec`: every backquote of `trans_node` becomes a slash and, for
each one, `end` (an offset into `accel_path`, `none` for NULL) moves to the
next slash of `accel_path`. Returns the rewritten `trans_node` and `end`. -/
def trans_scan_loop (accel_path : CStr) : CStr → Option Nat → CStr × Option Nat
  | [], e => ([], e)
  | c :: s, e =>
    if c = backquote then
      let e1 := e.bind (fun o => (strchr (accel_path.drop (o + 1)) '/').map (· + (o + 1)))
      let r := trans_scan_loop accel_path s e1
      ('/' :: r.1, r.2)
    else
      let r := trans_scan_loop accel_path s e
      (c :: r.1, r.2)

/-- The sibling search of `tree_insert_rec`: the first row among the children
of `parent`, from position `i` on, whose `A_ACCEL_COLUMN` equals `node`. -/
def find_sibling (node : CStr) : List Node → Nat → Option (Nat × Node)
  | [], _ => none
  | n :: rows, i => if n.row.accel = node then some (i, n) else find_sibling node rows (i + 1)

/-- The body of `tree_insert_rec`, by recursion on a bound for the length of
`accel_path`. `rows` are the rows below `parent`; the result is these rows
after the call, with the position (relative to `parent`) of the leaf row the
call inserted, if it inserted one. -/
def tree_insert_rec_fuel (ext : Externals) :
    Nat → List Node → CStr → CStr → Nat → Nat → List Node × Option GtkTreePath
  | 0, rows, _, _, _, _ => (rows, none)
  | fuel + 1, rows, accel_path, translated_path, accel_key, accel_mods =>
    if accel_path = [] then (rows, none)
    else
      match strchr accel_path '/', strchr translated_path '/' with
      | some e, some trans_end =>
        let scan := trans_scan_loop accel_path (translated_path.take trans_end) (some e)
        let trans_node := scan.1
        match scan.2 with
        | none => (rows, none)
        | some e1 =>
          let node := accel_path.take e1
          match find_sibling node rows 0 with
          | some (i, n) =>
            let r := tree_insert_rec_fuel ext fuel n.children (accel_path.drop (e1 + 1))
              (translated_path.drop (trans_end + 1)) accel_key accel_mods
            (rows.set i (.mk n.row r.1), r.2.map (i :: ·))
          | none =>
            let r := tree_insert_rec_fuel ext fuel [] (accel_path.drop (e1 + 1))
              (translated_path.drop (trans_end + 1)) accel_key accel_mods
            (rows ++ [.mk ⟨node, [], trans_node⟩ r.1], r.2.map (rows.length :: ·))
      | _, _ =>
        (rows ++ [.mk ⟨accel_path,
            ext.keyboard_label (ext.gtk_accelerator_get_label accel_key accel_mods),
            g_strdelimit translated_path⟩ []],
          some [rows.length])

/-- Models `tree_insert_rec(model, parent, accel_path, translated_path, accel_key,
accel_mods)` on the rows below `parent`. Every recursive call passes a
strictly shorter `accel_path`, so its length bounds the recursion. -/
def tree_insert_rec (ext : Externals) (rows : List Node) (accel_path translated_path : CStr)
    (accel_key accel_mods : Nat) : List Node × Option GtkTreePath :=
  tree_insert_rec_fuel ext accel_path.length rows accel_path translated_path accel_key accel_mods

/-- Models `tree_insert_accel(accel_struct, model_link)`: the store after the
call and the tree path of the leaf row it inserted, if any. Moving a pointer
twelve characters forward in a string of fewer characters yields the empty
string here. -/
def tree_insert_accel (ext : Externals) (map : AccelMap) (model : GtkTreeStore)
    (accel : dt_accel_t) : GtkTreeStore × Option GtkTreePath :=
  let prefixed := accel.path.take darktable_base.length = darktable_base
  let accel_path := if prefixed then accel.path.drop (darktable_base.length + 1) else accel.path
  let translated_path :=
    if prefixed then accel.translated_path.drop (darktable_base.length + 1)
    else accel.translated_path
  let key := lookup_key ext map accel.path
  tree_insert_rec ext model accel_path translated_path key.accel_key key.accel_mods

/-- The loop of `path_to_accel`: for each index of the tree path a slash and
the `A_ACCEL_COLUMN` of the child it selects are appended to `str`. A path
that selects no row has no result. -/
def path_to_accel_loop : List Node → List Nat → CStr → Nat → Option CStr
  | _, [], str, _ => some str
  | rows, i :: indices, str, str_len =>
    match rows[i]? with
    | none => none
    | some child =>
      path_to_accel_loop child.children indices
        (g_strlcat (g_strlcat str ['/'] str_len) child.row.accel str_len) str_len

/-- Models `path_to_accel(model, path, str, str_len)`: the contents of `str`
after the call. -/
def path_to_accel (model : GtkTreeStore) (path : GtkTreePath) (str_len : Nat) : Option CStr :=
  path_to_accel_loop model path (g_strlcpy darktable_base str_len) str_len

mutual
/-- Models `update_accels_model_rec(model, parent, path, path_len)` on the row
`parent` itself: the row after the call. -/
def update_accels_model_rec (ext : Externals) (map : AccelMap) (path : CStr) (path_len : Nat) :
    Node → Node
  | .mk row [] =>
    let key := lookup_key ext map (g_strlcat (g_strlcat path ['/'] path_len) row.accel path_len)
    .mk { row with binding := ext.gtk_accelerator_get_label key.accel_key key.accel_mods } []
  | .mk row (c :: cs) =>
    .mk row (update_accels_model_loop ext map
      (g_strlcat (g_strlcat path ['/'] path_len) row.accel path_len) path_len (c :: cs))
/-- The loop over the children, each started from the same `path`. -/
def update_accels_model_loop (ext : Externals) (map : AccelMap) (path : CStr) (path_len : Nat) :
    List Node → List Node
  | [] => []
  | n :: rows =>
    update_accels_model_rec ext map path path_len n ::
      update_accels_model_loop ext map path path_len rows
end

/-- Models `update_accels_model(widget, data)`: the store after the call. -/
def update_accels_model (ext : Externals) (map : AccelMap) (model : GtkTreeStore) :
    GtkTreeStore :=
  update_accels_model_loop ext map (g_strlcpy darktable_base 256) 256 model

/-- Models the line `g_list_foreach(darktable.control->accelerator_list,
tree_insert_accel, (gpointer)model)` of `init_tab_accels`: the store after the
accelerators of the list have been inserted one after the other. -/
def build_accel_tree (ext : Externals) (map : AccelMap) :
    List dt_accel_t → GtkTreeStore → GtkTreeStore
  | [], model => model
  | accel :: l, model => build_accel_tree ext map l (tree_insert_accel ext map model accel).1

/-- What a call of `tree_insert_rec` writes to `stderr`, by recursion on the same
bound as `tree_insert_rec_fuel`: the two strings of the message
`error: translation mismatch`, which are `accel_path` and `trans_node` of the
call that met the mismatch, or nothing. The rows of the store have no part in
it. -/
def tree_insert_rec_stderr_fuel : Nat → CStr → CStr → Option (CStr × CStr)
  | 0, _, _ => none
  | fuel + 1, accel_path, translated_path =>
    if accel_path = [] then none
    else
      match strchr accel_path '/', strchr translated_path '/' with
      | some e, some trans_end =>
        let scan := trans_scan_loop accel_path (translated_path.take trans_end) (some e)
        match scan.2 with
        | none => some (accel_path, scan.1)
        | some e1 =>
          tree_insert_rec_stderr_fuel fuel (accel_path.drop (e1 + 1))
            (translated_path.drop (trans_end + 1))
      | _, _ => none

/-- The message of `tree_insert_rec(model, parent, accel_path, translated_path, ...)`
on `stderr`, if it writes one. -/
def tree_insert_rec_stderr (accel_path translated_path : CStr) : Option (CStr × CStr) :=
  tree_insert_rec_stderr_fuel accel_path.length accel_path translated_path

mutual
/-- The number of rows of a row and the rows below it. -/
def Node.count : Node → Nat
  | .mk _ children => 1 + rows_count children
/-- The number of rows of a list of rows with all the rows below them. -/
def rows_count : List Node → Nat
  | [] => 0
  | n :: rows => n.count + rows_count rows
end

mutual
/-- The invariant of the spec below one row: see `unique_sibling_keys`. -/
def Node.unique_keys : Node → Bool
  | .mk _ children => unique_sibling_keys children
/-- The invariant of the spec: among the rows of the list, and among the
children of every row below them, no two rows have the same `A_ACCEL_COLUMN`. -/
def unique_sibling_keys : List Node → Bool
  | [] => true
  | n :: rows =>
    rows.all (fun r => decide (r.row.accel ≠ n.row.accel)) && n.unique_keys &&
      unique_sibling_keys rows
end

/-- Whether the row at the tree path `path` has an `A_ACCEL_COLUMN` that none of
its siblings has. -/
def leaf_is_fresh : List Node → GtkTreePath → Bool
  | _, [] => true
  | rows, [i] =>
    match rows[i]? with
    | none => true
    | some leaf => (rows.eraseIdx i).all (fun r => decide (r.row.accel ≠ leaf.row.accel))
  | rows, i :: j :: rest =>
    match rows[i]? with
    | none => true
    | some n => leaf_is_fresh n.children (j :: rest)

/-- The number of segments of a canonical path in the words of the spec: the
pieces between its slashes. -/
def canonical_segments (accel_path : CStr) : Nat :=
  accel_path.count '/' + 1

/-- The number of canonical segments a localized path stands for in the words of
the spec: the pieces between its slashes, each backquote inside a piece
standing for one more canonical slash. -/
def localized_segments (translated_path : CStr) : Nat :=
  translated_path.count '/' + translated_path.count backquote + 1

/-! ## Remapping -/

/-- The fields of `darktable.control` the shortcuts tab uses. -/
structure dt_control_t where
  accel_remap_str : Option CStr
  accel_remap_path : Option GtkTreePath
  accelerator_list : List dt_accel_t

/-- Everything the handlers of the shortcuts tab read or write: the control
record, the accelerator map of GTK, the tree store of the tab, and what
`gtk_accel_map_save` last wrote to the `keyboardrc` of the user. -/
structure State where
  control : dt_control_t
  accel_map : AccelMap
  model : GtkTreeStore
  keyboardrc : Option AccelMap

/-- The comparison `_accelcmp` used through `g_list_find_custom`: position and
element of the first entry of the list, from position `i` on, whose path equals
the path of the query. -/
def g_list_find_custom (query_path : CStr) : List dt_accel_t → Nat → Option (Nat × dt_accel_t)
  | [], _ => none
  | a :: l, i => if a.path = query_path then some (i, a) else g_list_find_custom query_path l (i + 1)

/-- The condition under the pointer test in the conflict loop of
`tree_key_press`, for the list entry `a`. -/
def conflict_test (map : AccelMap) (keyval_lower event_mods : Nat) (accel_current a : dt_accel_t) :
    Bool :=
  match gtk_accel_map_lookup_entry map a.path with
  | none => false
  | some key =>
    decide (key.accel_key = keyval_lower) && decide (key.accel_mods = event_mods) &&
      !(a.local_ && accel_current.local_ && decide (a.module ≠ accel_current.module)) &&
      decide (a.views &&& accel_current.views ≠ 0)

/-- The conflict loop of `tree_key_press`: `accel_conflict` after the loop, as
the position and the entry, `none` for NULL. `current_pos` is the position of
`accel_current` and `i` the position of the head of the remaining list. -/
def conflict_scan (map : AccelMap) (keyval_lower event_mods : Nat) (accel_current : dt_accel_t)
    (current_pos : Nat) : List dt_accel_t → Nat → Option (Nat × dt_accel_t)
  | [], _ => none
  | a :: l, i =>
    if i ≠ current_pos ∧ conflict_test map keyval_lower event_mods accel_current a = true then
      some (i, a)
    else conflict_scan map keyval_lower event_mods accel_current current_pos l (i + 1)

/-- The condition of the `if` that ends `delete_matching_accels`: the two
entries have the same key and modifiers in the map, are not both local with
different modules, and share a view. -/
def delete_test (ext : Externals) (map : AccelMap) (current_accel mapped_accel : dt_accel_t) :
    Bool :=
  let current_key := lookup_key ext map current_accel.path
  let mapped_key := lookup_key ext map mapped_accel.path
  decide (current_key.accel_key = mapped_key.accel_key) &&
    decide (current_key.accel_mods = mapped_key.accel_mods) &&
    !(current_accel.local_ && mapped_accel.local_ &&
      decide (current_accel.module ≠ mapped_accel.module)) &&
    decide (current_accel.views &&& mapped_accel.views ≠ 0)

/-- Models `delete_matching_accels(current, mapped)`: the accelerator map after
the call. -/
def delete_matching_accels (ext : Externals) (map : AccelMap)
    (current_accel mapped_accel : dt_accel_t) : AccelMap :=
  if current_accel.path = mapped_accel.path then map
  else if delete_test ext map current_accel mapped_accel = true then
    (gtk_accel_map_change_entry map current_accel.path 0 0 true).1
  else map

/-- The call `g_list_foreach(accelerator_list, delete_matching_accels,
accel_current)`. -/
def delete_all_matching (ext : Externals) (mapped_accel : dt_accel_t) :
    List dt_accel_t → AccelMap → AccelMap
  | [], map => map
  | a :: l, map => delete_all_matching ext mapped_accel l (delete_matching_accels ext map a mapped_accel)

/-- The accelerator map after the remap branch of `tree_key_press` has settled
the candidate: applied at once without a conflict, applied with the colliding
entries removed after the answer yes, untouched after any other answer. -/
def remap_resolve (ext : Externals) (map : AccelMap) (accelerator_list : List dt_accel_t)
    (accel_remap_str : CStr) (keyval_lower event_mods : Nat) (accel_current : dt_accel_t)
    (accel_conflict : Option (Nat × dt_accel_t)) (res : Int) : AccelMap :=
  match accel_conflict with
  | none => (gtk_accel_map_change_entry map accel_remap_str keyval_lower event_mods true).1
  | some _ =>
    if res = GTK_RESPONSE_YES then
      let changed := gtk_accel_map_change_entry map accel_remap_str keyval_lower event_mods true
      if changed.2 = true then delete_all_matching ext accel_current accelerator_list changed.1
      else changed.1
    else map

/-- Models `tree_key_press(widget, event, data)`. `selection` is the selected row
of the tree view, `res` what `gtk_dialog_run` returns if the confirmation
dialog is shown. The result is the returned flag and the state after the
call; there is none when the code dereferences a NULL list node
(`remapped->data`) or reads a row that does not exist. -/
def tree_key_press (ext : Externals) (selection : Option GtkTreePath) (event : GdkEventKey)
    (res : Int) (s : State) : Option (Bool × State) :=
  if event.is_modifier then some (false, s)
  else
    match s.control.accel_remap_str with
    | some accel_remap_str =>
      let event_mods := ext.dt_gui_translated_key_state event
      let keyval_lower := ext.gdk_keyval_to_lower event.keyval
      match g_list_find_custom (g_strlcpy accel_remap_str ext.sizeof_path)
          s.control.accelerator_list 0 with
      | none => none
      | some (current_pos, accel_current) =>
        let accel_conflict := conflict_scan s.accel_map keyval_lower event_mods accel_current
          current_pos s.control.accelerator_list 0
        let map := remap_resolve ext s.accel_map s.control.accelerator_list accel_remap_str
          keyval_lower event_mods accel_current accel_conflict res
        some (true,
          { control := { s.control with accel_remap_str := none, accel_remap_path := none }
            accel_map := map
            model := update_accels_model ext map s.model
            keyboardrc := some map })
    | none =>
      if event.keyval = GDK_KEY_BackSpace then
        match selection with
        | none => some (false, s)
        | some path =>
          match gtk_tree_model_get_iter s.model path with
          | none => none
          | some iter =>
            if gtk_tree_model_iter_has_child iter then some (false, s)
            else
              match path_to_accel s.model path 256 with
              | none => none
              | some accel =>
                let map := (gtk_accel_map_change_entry s.accel_map accel 0 0 true).1
                some (true,
                  { s with accel_map := map
                           model := update_accels_model ext map s.model
                           keyboardrc := some map })
      else some (false, s)

/-- Models `tree_row_activated_accels(tree, path, column, data)`; expanding and
collapsing a row of the view is not part of the state. There is no result when
`path` leads to no row. -/
def tree_row_activated_accels (ext : Externals) (path : GtkTreePath) (s : State) : Option State :=
  match gtk_tree_model_get_iter s.model path with
  | none => none
  | some iter =>
    if gtk_tree_model_iter_has_child iter then some s
    else
      match path_to_accel s.model path 256 with
      | none => none
      | some accel_path =>
        some { s with
          model := gtk_tree_store_set_binding ext.remap_prompt s.model path
          control := { s.control with accel_remap_str := some accel_path
                                      accel_remap_path := some path } }

/-- Models `tree_selection_changed(selection, data)`. -/
def tree_selection_changed (ext : Externals) (s : State) : State :=
  match s.control.accel_remap_str with
  | none => s
  | some accel_remap_str =>
    let key := lookup_key ext s.accel_map accel_remap_str
    let name := ext.gtk_accelerator_get_label key.accel_key key.accel_mods
    { s with
      model :=
        match s.control.accel_remap_path with
        | none => s.model
        | some path => gtk_tree_store_set_binding name s.model path
      control := { s.control with accel_remap_str := none, accel_remap_path := none } }

/-! ## Searching the tree -/

/-- Models `strstr(haystack, needle) != NULL`: some suffix of `haystack` starts
with `needle`. -/
def strstr : CStr → CStr → Bool
  | [], needle => needle.isEmpty
  | c :: haystack, needle => needle.isPrefixOf (c :: haystack) || strstr haystack needle

/-- Models `dt_gui_accel_search_t` without its two widget pointers; the counts
are C `int`s. -/
structure dt_gui_accel_search_t where
  last_search_term : Option CStr
  last_found_count : Int
  curr_found_count : Int
deriving DecidableEq, Repr

/-- What the search changes of the `GtkTreeView`: the row all of whose ancestors
`gtk_tree_view_expand_to_path` has expanded since the last
`gtk_tree_view_collapse_all`, and the row of the cursor. -/
structure GtkTreeView where
  expanded_to : Option GtkTreePath
  cursor : Option GtkTreePath
deriving DecidableEq, Repr

mutual
/-- Models `accel_search_children(search_data, parent)` on the row `parent`
itself, with `childpath` its tree path and `search_term` the text of the search
box: the returned flag, the search data and the view after the call. -/
def accel_search_children (search_term : CStr) :
    Node → GtkTreePath → dt_gui_accel_search_t → GtkTreeView →
      Bool × dt_gui_accel_search_t × GtkTreeView
  | .mk row children, childpath, search_data, tv =>
    let is_match := strstr row.trans search_term
    let search_data1 :=
      if is_match = true then
        { search_data with curr_found_count := search_data.curr_found_count + 1 }
      else search_data
    if is_match = true ∧ search_data1.curr_found_count > search_data1.last_found_count then
      (true, { search_data1 with last_found_count := search_data1.last_found_count + 1 },
        { expanded_to := some childpath, cursor := some childpath })
    else accel_search_loop search_term children childpath 0 search_data1 tv
/-- The loop `for(int i = 0; i < siblings; i++)` over the rows below the row of
tree path `parentpath`, from child `i` on; it leaves at the first call that
returns TRUE. -/
def accel_search_loop (search_term : CStr) :
    List Node → GtkTreePath → Nat → dt_gui_accel_search_t → GtkTreeView →
      Bool × dt_gui_accel_search_t × GtkTreeView
  | [], _, _, search_data, tv => (false, search_data, tv)
  | n :: rows, parentpath, i, search_data, tv =>
    let r := accel_search_children search_term n (parentpath ++ [i]) search_data tv
    if r.1 = true then r
    else accel_search_loop search_term rows parentpath (i + 1) r.2.1 r.2.2
end

/-- Models `accel_search(widget, data)`, with `search_term` the text of the search
box and `tvmodel` the model of the view: the returned flag, the search data and
the view after the call. -/
def accel_search (search_term : CStr) (tvmodel : GtkTreeStore)
    (search_data : dt_gui_accel_search_t) (tv : GtkTreeView) :
    Bool × dt_gui_accel_search_t × GtkTreeView :=
  let search_data1 : dt_gui_accel_search_t :=
    if search_data.last_search_term = none ∨ search_data.last_search_term ≠ some search_term then
      { search_data with last_search_term := some search_term, last_found_count := 0 }
    else search_data
  let search_data2 := { search_data1 with curr_found_count := 0 }
  let r := accel_search_loop search_term tvmodel [] 0 search_data2 { tv with expanded_to := none }
  if r.1 = true then r
  else (false, { r.2.1 with last_found_count := 0 }, r.2.2)

/-- The search data and the view after `n` consecutive invocations of
`accel_search` with the same text in the search box. -/
def accel_search_times (search_term : CStr) (tvmodel : GtkTreeStore) :
    Nat → dt_gui_accel_search_t × GtkTreeView → dt_gui_accel_search_t × GtkTreeView
  | 0, st => st
  | n + 1, st =>
    let st1 := accel_search_times search_term tvmodel n st
    (accel_search search_term tvmodel st1.1 st1.2).2

mutual
/-- Pre-order of the spec, for one row: the row with its tree path, then the
rows below it. -/
def preorder_node : Node → GtkTreePath → List (GtkTreePath × Row)
  | .mk row children, path => (path, row) :: preorder_rows children path 0
/-- Pre-order of the spec, for the rows below the row of tree path `parentpath`
from child `i` on: each row before its children, children in model order. -/
def preorder_rows : List Node → GtkTreePath → Nat → List (GtkTreePath × Row)
  | [], _, _ => []
  | n :: rows, parentpath, i =>
    preorder_node n (parentpath ++ [i]) ++ preorder_rows rows parentpath (i + 1)
end

/-- The tree paths of those rows of a list whose localized label contains the
query as a contiguous run of characters, case-sensitive. -/
def matching_paths (query : CStr) (rows : List (GtkTreePath × Row)) : List GtkTreePath :=
  (rows.filter (fun x => decide (query <:+: x.2.trans))).map (·.1)

/-- The matches of the spec: the tree paths, in pre-order, of the rows of the
model whose localized label contains the query. -/
def search_matches (query : CStr) (tvmodel : GtkTreeStore) : List GtkTreePath :=
  matching_paths query (preorder_rows tvmodel [] 0)

/-- The number of matches of the query `search_term` that the search has shown
so far: `last_found_count` when `last_search_term` is the query, 0 when the
query is new. -/
def shown_count (search_term : CStr) (search_data : dt_gui_accel_search_t) : Int :=
  if search_data.last_search_term = some search_term then search_data.last_found_count else 0

/-! ## Sorting the rows -/

/-- Models `compare_rows_accels(model, a, b, data)` on the two rows, with `strcoll`
the collation of the current locale. There is no result when a label is empty:
the code then reads the character before the label. -/
def compare_rows_accels (strcoll : CStr → CStr → Int) (a b : Node) : Option Int :=
  let res0 : Int := 0
  let res1 := if gtk_tree_model_iter_has_child a = true then res0 - 2 else res0
  let res2 := if gtk_tree_model_iter_has_child b = true then res1 + 2 else res1
  match a.row.trans.getLast?, b.row.trans.getLast? with
  | some a_last, some b_last =>
    let res3 := if a_last = ' ' then -4 else res2
    let res4 := if b_last = ' ' then res3 + 4 else res3
    some (res4 + (if strcoll a.row.trans b.row.trans < 0 then -1 else 1))
  | _, _ => none

/-! ## The columns of a preset -/

/-- A finite value of the C type `float`: the dyadic rational `num / 2 ^ exp2`. -/
structure CFloat where
  num : Int
  exp2 : Nat
deriving DecidableEq, Repr

/-- The rational number a finite `float` stands for. -/
def CFloat.value (x : CFloat) : ℚ := x.num / 2 ^ x.exp2

/-- The C comparison `a == b` of two finite floats. -/
def CFloat.eq (a b : CFloat) : Bool :=
  decide (a.num * ((2 ^ b.exp2 : Nat) : Int) = b.num * ((2 ^ a.exp2 : Nat) : Int))

/-- The constant `0.0`. -/
def CFloat.zero : CFloat := ⟨0, 0⟩

/-- The constant `FLT_MAX`, which is `(2 ^ 24 - 1) * 2 ^ 104`. -/
def FLT_MAX : CFloat := ⟨340282346638528859811704183484516925440, 0⟩

/-- The conversion `(size_t)x` with a `size_t` of 64 bits: the value cut off
towards zero; there is no result (the behaviour is undefined in C) when that
integer is not a `size_t`. -/
def to_size_t (x : CFloat) : Option Nat :=
  let t := x.num.tdiv ((2 ^ x.exp2 : Nat) : Int)
  if 0 ≤ t ∧ t < ((2 ^ 64 : Nat) : Int) then some t.toNat else none

/-- The output of the conversion `%zu`. -/
def printf_zu (n : Nat) : CStr := Nat.toDigits 10 n

/-- The value of `iso` in `tree_insert_presets`, with `can_autoapply` the result of
`_module_can_autoapply(operation)`. -/
def tree_insert_presets_iso (can_autoapply : Bool) (iso_min iso_max : CFloat) : Option CStr :=
  if can_autoapply = false then some []
  else if iso_min.eq CFloat.zero = true ∧ iso_max.eq FLT_MAX = true then some "%".toList
  else
    match to_size_t iso_min, to_size_t iso_max with
    | some a, some b => some (printf_zu a ++ " – ".toList ++ printf_zu b)
    | _, _ => none

/-- The C comparison `a > b` of two finite floats. -/
def CFloat.gt (a b : CFloat) : Bool :=
  decide (b.num * ((2 ^ a.exp2 : Nat) : Int) < a.num * ((2 ^ b.exp2 : Nat) : Int))

/-- The C comparison `a <= b` of two finite floats. -/
def CFloat.le (a b : CFloat) : Bool :=
  decide (a.num * ((2 ^ b.exp2 : Nat) : Int) ≤ b.num * ((2 ^ a.exp2 : Nat) : Int))

/-- The double quote, which ends the labels of the exposure times in seconds. -/
def dquote : Char := Char.ofNat 34

/-- The constant `dt_gui_presets_exposure_value_cnt`. -/
def dt_gui_presets_exposure_value_cnt : Nat := 24

/-- The table `dt_gui_presets_exposure_value`: each initialiser as the `float` it
is stored as, so `1. / 8000` is `8589935 / 2 ^ 36`. -/
def dt_gui_presets_exposure_value : List CFloat :=
  [⟨0, 0⟩, ⟨8589935, 36⟩, ⟨8589935, 35⟩, ⟨8589935, 34⟩, ⟨8589935, 33⟩, ⟨8589935, 33⟩,
    ⟨8589935, 32⟩, ⟨8589935, 31⟩, ⟨8589935, 30⟩, ⟨8947849, 29⟩, ⟨8947849, 28⟩, ⟨8947849, 27⟩,
    ⟨8947849, 27⟩, ⟨1, 3⟩, ⟨1, 2⟩, ⟨1, 1⟩, ⟨1, 0⟩, ⟨2, 0⟩, ⟨4, 0⟩, ⟨8, 0⟩, ⟨15, 0⟩, ⟨30, 0⟩,
    ⟨60, 0⟩, FLT_MAX]

/-- The table `dt_gui_presets_exposure_value_str`. -/
def dt_gui_presets_exposure_value_str : List CStr :=
  ["0".toList, "1/8000".toList, "1/4000".toList, "1/2000".toList, "1/1000".toList,
    "1/1000".toList, "1/500".toList, "1/250".toList, "1/125".toList, "1/60".toList,
    "1/30".toList, "1/15".toList, "1/15".toList, "1/8".toList, "1/4".toList, "1/2".toList,
    "1".toList ++ [dquote], "2".toList ++ [dquote], "4".toList ++ [dquote],
    "8".toList ++ [dquote], "15".toList ++ [dquote], "30".toList ++ [dquote],
    "60".toList ++ [dquote], "+".toList]

/-- The constant `dt_gui_presets_aperture_value_cnt`. -/
def dt_gui_presets_aperture_value_cnt : Nat := 19

/-- The table `dt_gui_presets_aperture_value`: each initialiser as the `float` it
is stored as, so `0.7` is `11744051 / 2 ^ 24`. -/
def dt_gui_presets_aperture_value : List CFloat :=
  [⟨0, 0⟩, ⟨1, 1⟩, ⟨11744051, 24⟩, ⟨1, 0⟩, ⟨11744051, 23⟩, ⟨2, 0⟩, ⟨11744051, 22⟩, ⟨4, 0⟩,
    ⟨11744051, 21⟩, ⟨8, 0⟩, ⟨11, 0⟩, ⟨16, 0⟩, ⟨22, 0⟩, ⟨32, 0⟩, ⟨45, 0⟩, ⟨64, 0⟩, ⟨90, 0⟩,
    ⟨128, 0⟩, FLT_MAX]

/-- The table `dt_gui_presets_aperture_value_str`. -/
def dt_gui_presets_aperture_value_str : List CStr :=
  ["f/0".toList, "f/0.5".toList, "f/0.7".toList, "f/1.0".toList, "f/1.4".toList, "f/2".toList,
    "f/2.8".toList, "f/4".toList, "f/5.6".toList, "f/8".toList, "f/11".toList, "f/16".toList,
    "f/22".toList, "f/32".toList, "f/45".toList, "f/64".toList, "f/90".toList, "f/128".toList,
    "f/+".toList]

/-- The index loops of `tree_insert_presets`,
`for(i = 0; i < cnt && bound > value[i]; i++);`, entered with the index `i`
and with `values` the table entries from `i` up to `cnt`: the index after the
loop. -/
def bucket_loop (bound : CFloat) : List CFloat → Nat → Nat
  | [], i => i
  | v :: values, i => if bound.gt v = true then bucket_loop bound values (i + 1) else i

/-- The value of `min` or `max` after its index loop over the first `cnt`
entries of the table `value`. -/
def bucket_index (cnt : Nat) (value : List CFloat) (bound : CFloat) : Nat :=
  bucket_loop bound (value.take cnt) 0

/-- The text of a bucketed column of `tree_insert_presets`: the two index loops
and the `if` after them. There is no result when a label is read at an index
that is not in the table of labels. -/
def tree_insert_presets_range (cnt : Nat) (value : List CFloat) (value_str : List CStr)
    (can_autoapply : Bool) (lo hi : CFloat) : Option CStr :=
  if can_autoapply = false then some []
  else
    let min := bucket_index cnt value lo
    let max := bucket_index cnt value hi
    if min = 0 ∧ max = cnt - 1 then some "%".toList
    else
      match value_str[min]?, value_str[max]? with
      | some a, some b => some (a ++ " – ".toList ++ b)
      | _, _ => none

/-- The value of `exposure` in `tree_insert_presets`. -/
def tree_insert_presets_exposure (can_autoapply : Bool) (exposure_min exposure_max : CFloat) :
    Option CStr :=
  tree_insert_presets_range dt_gui_presets_exposure_value_cnt dt_gui_presets_exposure_value
    dt_gui_presets_exposure_value_str can_autoapply exposure_min exposure_max

/-- The value of `aperture` in `tree_insert_presets`. -/
def tree_insert_presets_aperture (can_autoapply : Bool) (aperture_min aperture_max : CFloat) :
    Option CStr :=
  tree_insert_presets_range dt_gui_presets_aperture_value_cnt dt_gui_presets_aperture_value
    dt_gui_presets_aperture_value_str can_autoapply aperture_min aperture_max

/-- The output of the conversion `%d`. -/
def printf_d (n : Int) : CStr :=
  if n < 0 then '-' :: Nat.toDigits 10 n.natAbs else Nat.toDigits 10 n.natAbs

/-- The value of `focal_length` in `tree_insert_presets`, from the two `int`
variables. -/
def tree_insert_presets_focal_length (can_autoapply : Bool)
    (focal_length_min focal_length_max : Int) : CStr :=
  if can_autoapply = false then []
  else if focal_length_min = 0 ∧ focal_length_max = 1000 then "%".toList
  else printf_d focal_length_min ++ " – ".toList ++ printf_d focal_length_max

/-! ## The tree of the presets tab -/

/-- The fields of `dt_lib_module_t` that `_module_can_autoapply` reads, with the
result of `dt_lib_presets_can_autoapply` for the module. -/
structure dt_lib_module_t where
  plugin_name : CStr
  presets_can_autoapply : Bool

/-- What `tree_insert_presets` takes from other files: the list
`darktable.lib->plugins`, the two lookups of a localized module name (`none`
for NULL) and the translation `_()`. -/
structure PresetExternals where
  lib_plugins : List dt_lib_module_t
  dt_iop_get_localized_name : CStr → Option CStr
  dt_lib_get_localized_name : CStr → Option CStr
  gettext : CStr → CStr

/-- Models `_module_can_autoapply(operation)`. -/
def module_can_autoapply (pe : PresetExternals) (operation : CStr) : Bool :=
  match pe.lib_plugins.find? (fun lib_module => decide (lib_module.plugin_name = operation)) with
  | some lib_module => lib_module.presets_can_autoapply
  | none => true

/-- A row of the query of `tree_insert_presets`, as the local variables of the
loop body hold it; the text columns are not NULL. -/
structure preset_t where
  rowid : Int
  name : CStr
  operation : CStr
  autoapply : Bool
  model : CStr
  maker : CStr
  lens : CStr
  iso_min : CFloat
  iso_max : CFloat
  exposure_min : CFloat
  exposure_max : CFloat
  aperture_min : CFloat
  aperture_max : CFloat
  focal_length_min : Int
  focal_length_max : Int
  writeprotect : Bool
deriving DecidableEq

/-- The columns of a row of the presets store. The two pixbuf columns hold
whether the pixbuf is set; a text that C leaves undefined is `none`. -/
structure PresetRow where
  rowid : Int
  operation : CStr
  module : CStr
  editable : Bool
  name : CStr
  model : CStr
  maker : CStr
  lens : CStr
  iso : Option CStr
  exposure : Option CStr
  aperture : Option CStr
  focal_length : CStr
  autoapply : Bool
deriving DecidableEq

/-- A top-level row of the presets store with the rows below it. -/
structure PresetNode where
  row : PresetRow
  children : List PresetRow
deriving DecidableEq

/-- The presets store: its top-level rows in order. -/
abbrev PresetStore := List PresetNode

/-- The value of `module` in `tree_insert_presets`. -/
def preset_module (pe : PresetExternals) (operation : CStr) : CStr :=
  match pe.dt_iop_get_localized_name operation with
  | some module => module
  | none =>
    match pe.dt_lib_get_localized_name operation with
    | some module => module
    | none => operation

/-- The header row that `tree_insert_presets` inserts at the top level when the
operation changes. -/
def preset_header_row (pe : PresetExternals) (operation : CStr) : PresetRow :=
  { rowid := 0, operation := [], module := pe.gettext (preset_module pe operation),
    editable := false, name := [], model := [], maker := [], lens := [], iso := some [],
    exposure := some [], aperture := some [], focal_length := [], autoapply := false }

/-- The row that `tree_insert_presets` inserts below `parent` for a preset. -/
def preset_child_row (pe : PresetExternals) (r : preset_t) : PresetRow :=
  let can := module_can_autoapply pe r.operation
  { rowid := r.rowid, operation := r.operation, module := [], editable := r.writeprotect,
    name := r.name,
    model := if can = false then [] else r.model,
    maker := if can = false then [] else r.maker,
    lens := if can = false then [] else r.lens,
    iso := tree_insert_presets_iso can r.iso_min r.iso_max,
    exposure := tree_insert_presets_exposure can r.exposure_min r.exposure_max,
    aperture := tree_insert_presets_aperture can r.aperture_min r.aperture_max,
    focal_length := tree_insert_presets_focal_length can r.focal_length_min r.focal_length_max,
    autoapply := r.autoapply }

/-- The variables that live across the iterations of the loop of
`tree_insert_presets`: the store, `last_module` (`none` for NULL) and `parent`
as the position of a top-level row (`none` while it is not set). -/
structure presets_loop_t where
  tree_model : PresetStore
  last_module : Option CStr
  parent : Option Nat

/-- Models `compare_rows_presets(model, a, b, data)` on the columns of the two
rows, with `strcoll` of the C library as an argument: the module texts are
compared, or the names when both module texts are empty. -/
def compare_rows_presets (strcoll : CStr → CStr → Int) (a b : PresetRow) : Int :=
  if a.module = [] ∧ b.module = [] then strcoll a.name b.name else strcoll a.module b.module

/-- The walk of `gtk_tree_store_sort_iter_changed` over a level of a sorted
store, from its first row, for a row that has to move: the position of the
first row that `row` compares `<= 0` to, the length of the level when there is
none. -/
def gtk_tree_store_sort_pos (func : PresetRow → PresetRow → Int) (row : PresetRow) :
    List PresetRow → Nat
  | [] => 0
  | n :: level => if func row n ≤ 0 then 0 else gtk_tree_store_sort_pos func row level + 1

/-- Models the position at which `gtk_tree_store_insert_with_values(model,
&iter, parent, -1, ...)` leaves the new row among the rows `level` below
`parent`. Without a sort function (`none`) the row is last. With one, in
ascending order, the row is put last and then sorted in by its values: it stays
last when the level was empty or the row that was last compares `<= 0` to it,
and is moved to `gtk_tree_store_sort_pos` otherwise. -/
def gtk_tree_store_insert_pos (sort_func : Option (PresetRow → PresetRow → Int))
    (level : List PresetRow) (row : PresetRow) : Nat :=
  match sort_func with
  | none => level.length
  | some func =>
    match level.getLast? with
    | none => 0
    | some prev =>
      if func prev row ≤ 0 then level.length else gtk_tree_store_sort_pos func row level

/-- The rows below `parent` after `gtk_tree_store_insert_with_values(model,
&iter, parent, -1, ...)` has inserted `row`. -/
def gtk_tree_store_insert (sort_func : Option (PresetRow → PresetRow → Int))
    (level : List PresetRow) (row : PresetRow) : List PresetRow :=
  level.take (gtk_tree_store_insert_pos sort_func level row)
    ++ row :: level.drop (gtk_tree_store_insert_pos sort_func level row)

/-- The store after the call of `gtk_tree_store_insert_with_values(tree_model,
&iter, &parent, -1, ...)` at the end of the loop body: `child` is inserted
below the top-level row at position `parent`. -/
def preset_insert_child (sort_func : Option (PresetRow → PresetRow → Int)) (child : PresetRow) :
    PresetStore → Nat → PresetStore
  | [], _ => []
  | n :: rows, 0 => { n with children := gtk_tree_store_insert sort_func n.children child } :: rows
  | n :: rows, parent + 1 => n :: preset_insert_child sort_func child rows parent

/-- One iteration of the loop of `tree_insert_presets`, from the test of
`g_strcmp0(last_module, operation)` on, for a store with the sort function
`sort_func`. The header row goes to the place GTK gives it at the top level and
`parent` is that place. There is no result when `parent` is used without having
been set. -/
def tree_insert_presets_row (pe : PresetExternals)
    (sort_func : Option (PresetRow → PresetRow → Int)) (st : presets_loop_t) (r : preset_t) :
    Option presets_loop_t :=
  let st1 : presets_loop_t :=
    if st.last_module ≠ some r.operation then
      let iter := gtk_tree_store_insert_pos sort_func (st.tree_model.map (fun n => n.row))
        (preset_header_row pe r.operation)
      { tree_model := st.tree_model.take iter
          ++ ⟨preset_header_row pe r.operation, []⟩ :: st.tree_model.drop iter,
        last_module := some r.operation,
        parent := some iter }
    else st
  match st1.parent with
  | none => none
  | some parent =>
    if parent < st1.tree_model.length then
      some { st1 with
        tree_model := preset_insert_child sort_func (preset_child_row pe r) st1.tree_model parent }
    else none

/-- Models `tree_insert_presets(tree_model)` on the rows the query returns, in
the order it returns them. `sort_func` is the sort function of the store:
`none` at the call in `init_tab_presets`, which comes before the sort function
is set, and `compare_rows_presets` at the calls that follow
`gtk_tree_store_clear`, which keeps it. -/
def tree_insert_presets (pe : PresetExternals) (sort_func : Option (PresetRow → PresetRow → Int))
    (tree_model : PresetStore) (rows : List preset_t) : Option PresetStore :=
  (rows.foldlM (tree_insert_presets_row pe sort_func) ⟨tree_model, none, none⟩).map
    (fun st => st.tree_model)

/-! ## Restoring the default shortcuts -/

/-- The constant `GTK_RESPONSE_OK`. -/
def GTK_RESPONSE_OK : Int := -5

/-- Models `gtk_accel_map_load(file)`: every entry the file defines is applied
with `gtk_accel_map_change_entry`, in the order of the file; a file that does
not exist defines nothing. -/
def gtk_accel_map_load (map : AccelMap) (file : List (CStr × GtkAccelKey)) : AccelMap :=
  file.foldl
    (fun m entry => (gtk_accel_map_change_entry m entry.1 entry.2.accel_key entry.2.accel_mods true).1)
    map

/-- The field of `dt_iop_module_so_t` that `restore_defaults` reads. -/
structure dt_iop_module_so_t where
  op : CStr

/-- The buffer `accelpath` after
`snprintf(accelpath, size, "<Darktable>/darkroom/modules/%s/show", op)`. -/
def show_accelpath (size : Nat) (op : CStr) : CStr :=
  ("<Darktable>/darkroom/modules/".toList ++ op ++ "/show".toList).take (size - 1)

/-- Models `restore_defaults(button, data)`, with `keyboardrc_default` the entries
of the file of that name, `iop` the list `darktable.iop` and `res` what
`gtk_dialog_run` returns. -/
def restore_defaults (keyboardrc_default : List (CStr × GtkAccelKey))
    (iop : List dt_iop_module_so_t) (res : Int) (s : State) : State :=
  if res = GTK_RESPONSE_OK then
    let loaded := gtk_accel_map_load s.accel_map keyboardrc_default
    let map := iop.foldl
      (fun m op => (gtk_accel_map_change_entry m (show_accelpath 256 op.op) 0 0 true).1) loaded
    { s with accel_map := map, keyboardrc := none }
  else s

/-- The binding the entries of a key-binding file give to `path`: that of the
last entry for it. -/
def default_binding : List (CStr × GtkAccelKey) → CStr → Option GtkAccelKey
  | [], _ => none
  | entry :: file, path =>
    match default_binding file path with
    | some key => some key
    | none => if entry.1 = path then some entry.2 else none

/-! ## Colliding pairs -/

/-- Two registered accelerators collide in `map`: they are bound to the same
key and modifiers, which are not both 0, they are not both local with
different modules, and they share a view. -/
def colliding_pair (map : AccelMap) (a b : dt_accel_t) : Bool :=
  match gtk_accel_map_lookup_entry map a.path, gtk_accel_map_lookup_entry map b.path with
  | some ka, some kb =>
    decide (ka = kb) && !(decide (ka.accel_key = 0) && decide (ka.accel_mods = 0)) &&
      !(a.local_ && b.local_ && decide (a.module ≠ b.module)) &&
      decide (a.views &&& b.views ≠ 0)
  | _, _ => false

/-- No two entries at different positions of the list collide. -/
def no_colliding_pair (map : AccelMap) (list : List dt_accel_t) : Prop :=
  ∀ i, (hi : i < list.length) → ∀ j, (hj : j < list.length) → i ≠ j →
    colliding_pair map list[i] list[j] = false

/-! ## The options of an enum preference -/

/-- The loop of the split: `skip` characters of a separator are still to be
passed, `item` is the text of the current item so far. -/
def str_to_glist_loop (separator : CStr) : CStr → Nat → CStr → List CStr
  | [], _, item => [item]
  | _ :: text, skip + 1, item => str_to_glist_loop separator text skip item
  | c :: text, 0, item =>
    if separator ≠ [] ∧ separator.isPrefixOf (c :: text) = true then
      item :: str_to_glist_loop separator text (separator.length - 1) []
    else str_to_glist_loop separator text 0 (item ++ [c])

/-- Modelled from the spec: `dt_util_str_to_glist(separator, text)` of
`common/utility.c`, which is not part of the sources at hand, splits `text` on
the separator: the items are the texts between the occurrences of the
separator, found from the left, and the empty text has no item. -/
def dt_util_str_to_glist (separator text : CStr) : List CStr :=
  if text = [] then [] else str_to_glist_loop separator text 0 []

/-- The statements of `dt_gui_preferences_enum` under the comment
`remove remaining [ or ]`: the item as it is stored. There is no result for an
empty item, where the code reads the character before the text. -/
def enum_strip_item (item : CStr) : Option CStr :=
  match item with
  | [] => none
  | c :: rest =>
    if c = '[' then some rest
    else if item.getLast? = some ']' then some item.dropLast
    else some item

/-- The loop of `dt_gui_preferences_enum` over the items: the rows of the store
(the item and its translation) and `pos` after it. `str` is the configured
value, `none` for NULL. -/
def dt_gui_preferences_enum_loop (g_dpgettext2 : CStr → CStr) (str : Option CStr) :
    List CStr → List (CStr × CStr) → Int → Int → Option (List (CStr × CStr) × Int)
  | [], store, _, pos => some (store, pos)
  | val :: vals, store, i, pos =>
    match enum_strip_item val with
    | none => none
    | some item =>
      dt_gui_preferences_enum_loop g_dpgettext2 str vals (store ++ [(item, g_dpgettext2 item)])
        (i + 1) (if pos = -1 ∧ str = some item then i else pos)

/-- Models the part of `dt_gui_preferences_enum(key)` that fills the combo box:
`str` is the configured value of the key, `values` its `DT_VALUES` text, and
`split` stands for `dt_util_str_to_glist`. The result is the store and the
position handed to `gtk_combo_box_set_active`. -/
def dt_gui_preferences_enum (split : CStr → CStr → List CStr) (g_dpgettext2 : CStr → CStr)
    (str : Option CStr) (values : CStr) : Option (List (CStr × CStr) × Int) :=
  dt_gui_preferences_enum_loop g_dpgettext2 str (split "][".toList values) [] 0 (-1)

/-! ## Notions of the claims

What the claims about the presets tab and the enum preferences speak of, in
terms of the definitions above. -/

/-- The index `i` is that of the first entry of the table that is not below the
bound: the entry at `i` is at least the bound, and every entry before it is
below the bound. -/
def first_entry_ge (value : List CFloat) (bound : CFloat) (i : Nat) : Prop :=
  (∃ v, value[i]? = some v ∧ bound.le v = true) ∧
    ∀ j w, j < i → value[j]? = some w → bound.le w = false

/-- The group of an operation as the claim describes it: the header row of the
operation with the rows of its presets below it, in the order of `rows`. -/
def preset_group (pe : PresetExternals) (rows : List preset_t) (operation : CStr) : PresetNode :=
  ⟨preset_header_row pe operation,
    (rows.filter (fun r => decide (r.operation = operation))).map (preset_child_row pe)⟩

/-- The group of an operation in a store with the sort function `sort_func`:
the header row of the operation, and below it the rows of its presets, inserted
one after the other in the order of `rows`. -/
def preset_group_placed (pe : PresetExternals) (sort_func : Option (PresetRow → PresetRow → Int))
    (rows : List preset_t) (operation : CStr) : PresetNode :=
  ⟨preset_header_row pe operation,
    (preset_group pe rows operation).children.foldl (gtk_tree_store_insert sort_func) []⟩

/-- The values text `[v1][v2]...[vn]` of the items `v1`, ..., `vn`. -/
def enum_values : List CStr → CStr
  | [] => []
  | v :: vs => '[' :: (v ++ ']' :: enum_values vs)

/-- The index of the first item that equals the configured value, if there is
one. -/
def enum_first_pos (str : Option CStr) : List CStr → Option Nat
  | [] => none
  | item :: items =>
    if str = some item then some 0 else (enum_first_pos str items).map (fun k => k + 1)

/-- The active position as the claim describes it: the index of the first item
that equals the configured value, -1 when there is none. -/
def enum_active_pos (str : Option CStr) (items : List CStr) : Int :=
  match enum_first_pos str items with
  | some k => (k : Int)
  | none => -1

/-- The items of the split of `item ++ v ++ "]" ++ enum_values vs`: the first is
`item ++ v`, the last keeps its closing bracket. -/
def enum_split_items (item v : CStr) : List CStr → List CStr
  | [] => [item ++ v ++ [']']]
  | w :: ws => (item ++ v) :: enum_split_items [] w ws

/-! ## Sample data

A concrete choice of the externals and a small registry, used to evaluate the
definitions above. -/

/-- Externals for evaluation: Latin capitals are lowered, the translated
modifier state is the event state, a label is the key as a character after
`Ctrl+` for the modifier mask 4. -/
def sample_ext : Externals where
  gdk_keyval_to_lower := fun k => if 65 ≤ k ∧ k ≤ 90 then k + 32 else k
  dt_gui_translated_key_state := fun e => e.state
  gtk_accelerator_get_label := fun k m =>
    if k = 0 then [] else (if m = 4 then "Ctrl+".toList else []) ++ [Char.ofNat k]
  keyboard_label := fun name => name
  remap_prompt := "press key combination to remap...".toList
  sizeof_path := 256
  indeterminate := ⟨0, 0⟩

/-- A global accelerator, active in two views. -/
def acc_export : dt_accel_t :=
  ⟨"<Darktable>/global/export".toList, "<Darktable>/global/export".toList, [], false, 3⟩

/-- A local accelerator of the module `crop`. -/
def acc_crop : dt_accel_t :=
  ⟨"<Darktable>/iop/crop/commit".toList, "<Darktable>/iop/crop/commit".toList,
    "crop".toList, true, 2⟩

/-- A local accelerator of the module `exposure`. -/
def acc_exposure : dt_accel_t :=
  ⟨"<Darktable>/iop/exposure/reset".toList, "<Darktable>/iop/exposure/reset".toList,
    "exposure".toList, true, 2⟩

/-- An accelerator of another view. -/
def acc_zoom : dt_accel_t :=
  ⟨"<Darktable>/views/zoom".toList, "<Darktable>/views/zoom".toList, [], false, 1⟩

/-- A second global accelerator. -/
def acc_undo : dt_accel_t :=
  ⟨"<Darktable>/global/undo".toList, "<Darktable>/global/undo".toList, [], false, 3⟩

/-- The sample registry, in registration order. -/
def sample_list : List dt_accel_t := [acc_export, acc_crop, acc_exposure, acc_zoom, acc_undo]

/-- The sample bindings: `Ctrl+e`, `c`, `c`, `z` and `Ctrl+z`. -/
def sample_map : AccelMap :=
  [(acc_export.path, ⟨101, 4⟩), (acc_crop.path, ⟨99, 0⟩), (acc_exposure.path, ⟨99, 0⟩),
    (acc_zoom.path, ⟨122, 0⟩), (acc_undo.path, ⟨122, 4⟩)]

/-- The tree store built from the sample registry by `tree_insert_accel`. -/
def sample_model : GtkTreeStore :=
  sample_list.foldl (fun model accel => (tree_insert_accel sample_ext sample_map model accel).1) []

/-- A state in which the row of `accel` at `path` is being remapped, as
`tree_row_activated_accels` leaves it: the row shows the prompt. -/
def sample_state (accel : dt_accel_t) (path : GtkTreePath) : State where
  control := { accel_remap_str := some accel.path, accel_remap_path := some path,
               accelerator_list := sample_list }
  accel_map := sample_map
  model := gtk_tree_store_set_binding sample_ext.remap_prompt sample_model path
  keyboardrc := none

/-- The key event `Ctrl+E`. -/
def event_ctrl_E : GdkEventKey := ⟨69, 4, 26, 0, false⟩

/-- The key event `c`. -/
def event_c : GdkEventKey := ⟨99, 0, 54, 0, false⟩

/-- The key event `Ctrl+Z`. -/
def event_ctrl_Z : GdkEventKey := ⟨90, 4, 52, 0, false⟩

/-- A flat model whose rows show `Crop`, `Crop overlay` and `Color`, in this
order. -/
def crop_model : GtkTreeStore :=
  [.mk ⟨"crop".toList, [], "Crop".toList⟩ [],
   .mk ⟨"crop overlay".toList, [], "Crop overlay".toList⟩ [],
   .mk ⟨"color".toList, [], "Color".toList⟩ []]

/-- The search data of a dialog that has not searched yet, with some values in
the two counts that `init_tab_accels` does not set. -/
def fresh_search : dt_gui_accel_search_t := ⟨none, 7, -3⟩

/-- A view without a cursor. -/
def fresh_view : GtkTreeView := ⟨none, none⟩

/-- A collation for evaluation: the order of the code points, as in the C
locale. -/
def strcoll_C : CStr → CStr → Int
  | [], [] => 0
  | [], _ :: _ => -1
  | _ :: _, [] => 1
  | a :: s, b :: t =>
    if a.toNat < b.toNat then -1 else if b.toNat < a.toNat then 1 else strcoll_C s t

/-- An accelerator three segments deep. -/
def acc_abc : dt_accel_t :=
  ⟨"<Darktable>/a/b/c".toList, "<Darktable>/a/b/c".toList, [], false, 1⟩

/-- An accelerator whose path is the path of `acc_abc` without its last segment. -/
def acc_ab : dt_accel_t :=
  ⟨"<Darktable>/a/b".toList, "<Darktable>/a/b".toList, [], false, 1⟩

/-- An accelerator with a broken translation: the second localized segment
holds a backquote, which asks for one more canonical segment than there is. -/
def acc_broken : dt_accel_t :=
  ⟨"<Darktable>/a/b/c".toList,
    "<Darktable>/x/y".toList ++ [backquote] ++ "z/w".toList, [], false, 1⟩

/-- The state of the shortcuts tab with no remap under way. -/
def idle_state : State where
  control := { accel_remap_str := none, accel_remap_path := none, accelerator_list := sample_list }
  accel_map := sample_map
  model := sample_model
  keyboardrc := none

/-- The key event of the left control key alone. -/
def event_control : GdkEventKey := ⟨65507, 0, 37, 0, true⟩

/-- The key event `BackSpace`. -/
def event_backspace : GdkEventKey := ⟨65288, 0, 22, 0, false⟩

/-- Externals of the presets tab for evaluation: one library module that takes
no automatic presets, a localized name for `exposure` only, translations left
as they are. -/
def sample_pe : PresetExternals where
  lib_plugins := [⟨"export".toList, false⟩]
  dt_iop_get_localized_name := fun op => if op = "exposure".toList then some "Exposure".toList else none
  dt_lib_get_localized_name := fun _ => none
  gettext := fun s => s

/-- A preset of the operation `op` with the name `name` and no restriction. -/
def sample_preset (rowid : Int) (op name : CStr) : preset_t :=
  { rowid := rowid, name := name, operation := op, autoapply := false, model := "%".toList,
    maker := "%".toList, lens := "%".toList, iso_min := ⟨0, 0⟩, iso_max := FLT_MAX,
    exposure_min := ⟨0, 0⟩, exposure_max := FLT_MAX, aperture_min := ⟨0, 0⟩,
    aperture_max := FLT_MAX, focal_length_min := 0, focal_length_max := 1000,
    writeprotect := false }

/-- Three presets, ordered by operation. -/
def sample_presets : List preset_t :=
  [sample_preset 1 "crop".toList "square".toList, sample_preset 2 "crop".toList "wide".toList,
    sample_preset 3 "exposure".toList "bright".toList]

/-- The list `darktable.iop` for evaluation: two processing modules. -/
def sample_iop : List dt_iop_module_so_t := [⟨"exposure".toList⟩, ⟨"crop".toList⟩]

/-- A file of default bindings: `Ctrl+e` for `export`, `Ctrl+z` for `undo`. -/
def sample_keyboardrc_default : List (CStr × GtkAccelKey) :=
  [(acc_export.path, ⟨101, 4⟩), (acc_undo.path, ⟨122, 4⟩)]

/-- A file of default bindings that gives the key `e` to the path that shows
the module `exposure`. -/
def show_keyboardrc_default : List (CStr × GtkAccelKey) :=
  [("<Darktable>/darkroom/modules/exposure/show".toList, ⟨101, 0⟩)]

/-- A state after two remaps: `export` is on `x`, and the path that shows the
module `exposure` is on `s`. -/
def remapped_state : State where
  control := { accel_remap_str := none, accel_remap_path := none, accelerator_list := sample_list }
  accel_map := [(acc_export.path, ⟨120, 0⟩), (acc_undo.path, ⟨122, 4⟩),
    ("<Darktable>/darkroom/modules/exposure/show".toList, ⟨115, 0⟩)]
  model := sample_model
  keyboardrc := some [(acc_export.path, ⟨120, 0⟩), (acc_undo.path, ⟨122, 4⟩),
    ("<Darktable>/darkroom/modules/exposure/show".toList, ⟨115, 0⟩)]

/-- A collation for evaluation that does not tell capitals from small letters:
the order of the code points of the texts in lower case. -/
def strcoll_nocase (a b : CStr) : Int :=
  strcoll_C (a.map Char.toLower) (b.map Char.toLower)

/-- Two presets of `crop`, in the order of the code points of their names. -/
def mixed_case_presets : List preset_t :=
  [sample_preset 1 "crop".toList "Wide".toList, sample_preset 2 "crop".toList "square".toList]

/-- The sample registry with the accelerator of the broken translation
registered last. -/
def broken_list : List dt_accel_t := sample_list ++ [acc_broken]

/-- The sample bindings with the accelerator of the broken translation known to
the map and not bound. -/
def broken_map : AccelMap := sample_map ++ [(acc_broken.path, ⟨0, 0⟩)]

/-- The state of the shortcuts tab after `init_tab_accels` has built the tree
from `broken_list`, with no remap under way. -/
def broken_idle_state : State where
  control := { accel_remap_str := none, accel_remap_path := none, accelerator_list := broken_list }
  accel_map := broken_map
  model := build_accel_tree sample_ext broken_map broken_list []
  keyboardrc := none

/-- The state `tree_row_activated_accels` leaves when the fourth top-level row
of `broken_idle_state` is activated. -/
def broken_remap_state : State where
  control := { accel_remap_str := some "<Darktable>/a".toList, accel_remap_path := some [3],
               accelerator_list := broken_list }
  accel_map := broken_map
  model := gtk_tree_store_set_binding sample_ext.remap_prompt
    (build_accel_tree sample_ext broken_map broken_list []) [3]
  keyboardrc := none

/-- Externals that differ from `sample_ext` in the key an ignored lookup leaves:
here the uninitialised `GtkAccelKey` holds `Ctrl+x`. -/
def stale_ext : Externals := { sample_ext with indeterminate := ⟨120, 4⟩ }

/-! ## Facts about the accelerator map -/

theorem conflict_test_iff (map : AccelMap) (k m : Nat) (cur a : dt_accel_t) :
    conflict_test map k m cur a = true ↔
      gtk_accel_map_lookup_entry map a.path = some ⟨k, m⟩ ∧
      ¬(a.local_ = true ∧ cur.local_ = true ∧ a.module ≠ cur.module) ∧
      a.views &&& cur.views ≠ 0 := by
  unfold conflict_test
  cases h : gtk_accel_map_lookup_entry map a.path with
  | none => simp
  | some key =>
    obtain ⟨kk, km⟩ := key
    simp only [Bool.and_eq_true, decide_eq_true_eq, Bool.not_eq_true', Option.some.injEq,
      GtkAccelKey.mk.injEq]
    constructor
    · rintro ⟨⟨⟨h1, h2⟩, h3⟩, h4⟩
      refine ⟨⟨h1, h2⟩, ?_, h4⟩
      rintro ⟨ha, hc, hm⟩
      simp [ha, hc, hm] at h3
    · rintro ⟨⟨h1, h2⟩, h3, h4⟩
      refine ⟨⟨⟨h1, h2⟩, ?_⟩, h4⟩
      by_contra hcon
      apply h3
      simp only [Bool.not_eq_false, Bool.and_eq_true, decide_eq_true_eq] at hcon
      exact ⟨hcon.1.1, hcon.1.2, hcon.2⟩

theorem conflict_scan_some (map : AccelMap) (k m : Nat) (cur : dt_accel_t) (cp : Nat) :
    ∀ (l : List dt_accel_t) (i j : Nat) (a : dt_accel_t),
      conflict_scan map k m cur cp l i = some (j, a) →
      ∃ n, j = i + n ∧ l[n]? = some a ∧ j ≠ cp ∧ conflict_test map k m cur a = true ∧
        ∀ n2 b, n2 < n → l[n2]? = some b → i + n2 = cp ∨ conflict_test map k m cur b = false := by
  intro l
  induction l with
  | nil => intro i j a h; simp [conflict_scan] at h
  | cons x l ih =>
    intro i j a h
    unfold conflict_scan at h
    split at h
    · rename_i hc
      simp only [Option.some.injEq, Prod.mk.injEq] at h
      obtain ⟨rfl, rfl⟩ := h
      exact ⟨0, rfl, by simp, hc.1, hc.2, fun n2 b hn => absurd hn (Nat.not_lt_zero _)⟩
    · rename_i hc
      obtain ⟨n, hj, hn, hne, ht, hprev⟩ := ih (i + 1) j a h
      refine ⟨n + 1, by omega, by simpa using hn, hne, ht, ?_⟩
      intro n2 b hlt hb
      cases n2 with
      | zero =>
        simp only [List.getElem?_cons_zero, Option.some.injEq] at hb
        subst hb
        by_cases hi : i = cp
        · exact Or.inl hi
        · right
          cases ht2 : conflict_test map k m cur x with
          | false => rfl
          | true => exact absurd ⟨hi, ht2⟩ hc
      | succ n3 =>
        have := hprev n3 b (by omega) (by simpa using hb)
        rcases this with h1 | h1
        · left; omega
        · right; exact h1

theorem conflict_scan_none (map : AccelMap) (k m : Nat) (cur : dt_accel_t) (cp : Nat) :
    ∀ (l : List dt_accel_t) (i : Nat),
      conflict_scan map k m cur cp l i = none ↔
      ∀ n b, l[n]? = some b → i + n = cp ∨ conflict_test map k m cur b = false := by
  intro l
  induction l with
  | nil => intro i; simp [conflict_scan]
  | cons x l ih =>
    intro i
    unfold conflict_scan
    split
    · rename_i hc
      simp only [false_iff, reduceCtorEq]
      intro hall
      rcases hall 0 x (by simp) with h1 | h1
      · exact hc.1 h1
      · rw [hc.2] at h1; cases h1
    · rename_i hc
      rw [ih]
      constructor
      · intro hall n b hb
        cases n with
        | zero =>
          simp only [List.getElem?_cons_zero, Option.some.injEq] at hb
          subst hb
          by_cases hi : i = cp
          · exact Or.inl hi
          · right
            cases ht2 : conflict_test map k m cur x with
            | false => rfl
            | true => exact absurd ⟨hi, ht2⟩ hc
        | succ n3 =>
          rcases hall n3 b (by simpa using hb) with h1 | h1
          · left; omega
          · right; exact h1
      · intro hall n b hb
        rcases hall (n + 1) b (by simpa using hb) with h1 | h1
        · left; omega
        · right; exact h1

theorem lookup_append (m1 m2 : AccelMap) (q : CStr) :
    gtk_accel_map_lookup_entry (m1 ++ m2) q =
      (gtk_accel_map_lookup_entry m1 q).orElse (fun _ => gtk_accel_map_lookup_entry m2 q) := by
  induction m1 with
  | nil => simp [gtk_accel_map_lookup_entry]
  | cons e m1 ih =>
    obtain ⟨p, k⟩ := e
    simp only [List.cons_append, gtk_accel_map_lookup_entry]
    split
    · simp
    · exact ih

theorem lookup_set (m : AccelMap) (p q : CStr) (k : GtkAccelKey) :
    gtk_accel_map_lookup_entry (accel_map_set m p k) q =
      if q = p then (gtk_accel_map_lookup_entry m p).map (fun _ => k)
      else gtk_accel_map_lookup_entry m q := by
  induction m with
  | nil => simp [accel_map_set, gtk_accel_map_lookup_entry]
  | cons e m ih =>
    obtain ⟨p0, k0⟩ := e
    simp only [accel_map_set]
    by_cases h0 : p0 = p
    · subst h0
      by_cases hq : q = p0
      · subst hq; simp [gtk_accel_map_lookup_entry]
      · have hq2 : ¬ p0 = q := fun h => hq h.symm
        simp [gtk_accel_map_lookup_entry, hq, hq2]
    · simp only [h0, if_false, gtk_accel_map_lookup_entry]
      by_cases hq : q = p
      · subst hq
        simp only [h0, if_false, if_true]
        rw [ih]; simp
      · by_cases h1 : p0 = q
        · simp [h1, hq]
        · simp only [h1, if_false, hq]
          rw [ih]; simp [hq]

/-- After `gtk_accel_map_change_entry` the changed path has the given binding
and every other path has the binding it had. -/
theorem lookup_change (m : AccelMap) (p q : CStr) (k1 k2 : Nat) (r : Bool) :
    gtk_accel_map_lookup_entry (gtk_accel_map_change_entry m p k1 k2 r).1 q =
      if q = p then some ⟨k1, k2⟩ else gtk_accel_map_lookup_entry m q := by
  unfold gtk_accel_map_change_entry
  cases h : gtk_accel_map_lookup_entry m p with
  | none =>
    simp only [lookup_append]
    by_cases hq : q = p
    · subst hq; simp [h, gtk_accel_map_lookup_entry]
    · have hq2 : ¬ p = q := fun h => hq h.symm
      simp only [hq, if_false]
      cases h2 : gtk_accel_map_lookup_entry m q <;> simp [gtk_accel_map_lookup_entry, hq2]
  | some k =>
    obtain ⟨a, b⟩ := k
    simp only
    split
    · rename_i heq
      obtain ⟨rfl, rfl⟩ := heq
      by_cases hq : q = p
      · subst hq; simp [h]
      · simp [hq]
    · simp only [lookup_set, h, Option.map_some']

/-- A change that reports FALSE left the map as it was. -/
theorem change_entry_false (m : AccelMap) (p : CStr) (k1 k2 : Nat) (r : Bool)
    (h : (gtk_accel_map_change_entry m p k1 k2 r).2 = false) :
    (gtk_accel_map_change_entry m p k1 k2 r).1 = m := by
  unfold gtk_accel_map_change_entry at h ⊢
  cases h2 : gtk_accel_map_lookup_entry m p with
  | none => simp [h2] at h
  | some k =>
    simp only [h2] at h ⊢
    split
    · rfl
    · rename_i hne; simp [hne] at h

theorem g_list_find_custom_some (q : CStr) :
    ∀ (l : List dt_accel_t) (i j : Nat) (a : dt_accel_t),
      g_list_find_custom q l i = some (j, a) →
      ∃ n, j = i + n ∧ l[n]? = some a ∧ a.path = q := by
  intro l
  induction l with
  | nil => intro i j a h; simp [g_list_find_custom] at h
  | cons x l ih =>
    intro i j a h
    unfold g_list_find_custom at h
    split at h
    · rename_i hx
      simp only [Option.some.injEq, Prod.mk.injEq] at h
      obtain ⟨rfl, rfl⟩ := h
      exact ⟨0, rfl, by simp, hx⟩
    · obtain ⟨n, hj, hn, hp⟩ := ih (i + 1) j a h
      exact ⟨n + 1, by omega, by simpa using hn, hp⟩

/-- The remap branch of `tree_key_press`, once the entry being remapped has
been found in the list. -/
theorem tree_key_press_remap (ext : Externals) (selection : Option GtkTreePath)
    (event : GdkEventKey) (res : Int) (s : State) (str : CStr) (cp : Nat) (cur : dt_accel_t)
    (hmod : event.is_modifier = false) (hstr : s.control.accel_remap_str = some str)
    (hcur : g_list_find_custom (g_strlcpy str ext.sizeof_path) s.control.accelerator_list 0
      = some (cp, cur)) :
    tree_key_press ext selection event res s =
      some (true,
        { control := { s.control with accel_remap_str := none, accel_remap_path := none }
          accel_map := remap_resolve ext s.accel_map s.control.accelerator_list str
            (ext.gdk_keyval_to_lower event.keyval) (ext.dt_gui_translated_key_state event) cur
            (conflict_scan s.accel_map (ext.gdk_keyval_to_lower event.keyval)
              (ext.dt_gui_translated_key_state event) cur cp s.control.accelerator_list 0) res
          model := update_accels_model ext
            (remap_resolve ext s.accel_map s.control.accelerator_list str
              (ext.gdk_keyval_to_lower event.keyval) (ext.dt_gui_translated_key_state event) cur
              (conflict_scan s.accel_map (ext.gdk_keyval_to_lower event.keyval)
                (ext.dt_gui_translated_key_state event) cur cp s.control.accelerator_list 0) res)
            s.model
          keyboardrc := some (remap_resolve ext s.accel_map s.control.accelerator_list str
            (ext.gdk_keyval_to_lower event.keyval) (ext.dt_gui_translated_key_state event) cur
            (conflict_scan s.accel_map (ext.gdk_keyval_to_lower event.keyval)
              (ext.dt_gui_translated_key_state event) cur cp s.control.accelerator_list 0) res) }) := by
  unfold tree_key_press
  simp only [hmod, hstr, hcur, Bool.false_eq_true, if_false]

/-! ## The conflict scan of `tree_key_press` -/

/-- C1: completeness of the conflict scan. If a list entry `a` other than the
entry being remapped is bound to exactly the lower-cased key value and the
translated modifiers of a non-modifier key event, its views meet those of the
entry being remapped, and one of the two is not local, then `accel_conflict` is
set after the scan, and unless the confirmation is answered yes the key press
leaves the accelerator map as it was. -/
theorem conflict_scan_complete (ext : Externals) (selection : Option GtkTreePath)
    (event : GdkEventKey) (res : Int) (s : State) (str : CStr) (cp : Nat) (cur : dt_accel_t)
    (i : Nat) (a : dt_accel_t)
    (hmod : event.is_modifier = false) (hstr : s.control.accel_remap_str = some str)
    (hcur : g_list_find_custom (g_strlcpy str ext.sizeof_path) s.control.accelerator_list 0
      = some (cp, cur))
    (ha : s.control.accelerator_list[i]? = some a) (hne : i ≠ cp)
    (hkey : gtk_accel_map_lookup_entry s.accel_map a.path
      = some ⟨ext.gdk_keyval_to_lower event.keyval, ext.dt_gui_translated_key_state event⟩)
    (hviews : a.views &&& cur.views ≠ 0)
    (hlocal : a.local_ = false ∨ cur.local_ = false) :
    (conflict_scan s.accel_map (ext.gdk_keyval_to_lower event.keyval)
        (ext.dt_gui_translated_key_state event) cur cp s.control.accelerator_list 0).isSome = true ∧
      (res ≠ GTK_RESPONSE_YES →
        ∃ st, tree_key_press ext selection event res s = some (true, st) ∧
          st.accel_map = s.accel_map) := by
  have htest : conflict_test s.accel_map (ext.gdk_keyval_to_lower event.keyval)
      (ext.dt_gui_translated_key_state event) cur a = true := by
    rw [conflict_test_iff]
    refine ⟨hkey, ?_, hviews⟩
    rintro ⟨h1, h2, _⟩
    rcases hlocal with h | h
    · rw [h] at h1; cases h1
    · rw [h] at h2; cases h2
  have hsome : (conflict_scan s.accel_map (ext.gdk_keyval_to_lower event.keyval)
      (ext.dt_gui_translated_key_state event) cur cp s.control.accelerator_list 0).isSome
        = true := by
    cases hsc : conflict_scan s.accel_map (ext.gdk_keyval_to_lower event.keyval)
      (ext.dt_gui_translated_key_state event) cur cp s.control.accelerator_list 0 with
    | some c => rfl
    | none =>
      rw [conflict_scan_none] at hsc
      rcases hsc i a ha with h | h
      · exact absurd (by omega) hne
      · rw [htest] at h; cases h
  refine ⟨hsome, fun hres => ?_⟩
  rw [tree_key_press_remap ext selection event res s str cp cur hmod hstr hcur]
  refine ⟨_, rfl, ?_⟩
  obtain ⟨c, hc⟩ := Option.isSome_iff_exists.mp hsome
  simp only [hc, remap_resolve, hres, if_false]

/-- C2: the view exemption. If every list entry other than the entry being
remapped that is bound to the candidate key and modifiers has no view in
common with the entry being remapped, the scan leaves `accel_conflict` NULL and
the key press binds the remapped path to the candidate whatever the answer a
confirmation would have had. -/
theorem conflict_scan_disjoint_views (ext : Externals) (selection : Option GtkTreePath)
    (event : GdkEventKey) (res : Int) (s : State) (str : CStr) (cp : Nat) (cur : dt_accel_t)
    (hmod : event.is_modifier = false) (hstr : s.control.accel_remap_str = some str)
    (hcur : g_list_find_custom (g_strlcpy str ext.sizeof_path) s.control.accelerator_list 0
      = some (cp, cur))
    (hdisj : ∀ i a, s.control.accelerator_list[i]? = some a → i ≠ cp →
      gtk_accel_map_lookup_entry s.accel_map a.path
        = some ⟨ext.gdk_keyval_to_lower event.keyval, ext.dt_gui_translated_key_state event⟩ →
      a.views &&& cur.views = 0) :
    conflict_scan s.accel_map (ext.gdk_keyval_to_lower event.keyval)
        (ext.dt_gui_translated_key_state event) cur cp s.control.accelerator_list 0 = none ∧
      ∃ st, tree_key_press ext selection event res s = some (true, st) ∧
        st.accel_map = (gtk_accel_map_change_entry s.accel_map str
          (ext.gdk_keyval_to_lower event.keyval) (ext.dt_gui_translated_key_state event) true).1 ∧
        gtk_accel_map_lookup_entry st.accel_map str
          = some ⟨ext.gdk_keyval_to_lower event.keyval, ext.dt_gui_translated_key_state event⟩ := by
  have hnone : conflict_scan s.accel_map (ext.gdk_keyval_to_lower event.keyval)
      (ext.dt_gui_translated_key_state event) cur cp s.control.accelerator_list 0 = none := by
    rw [conflict_scan_none]
    intro n b hb
    by_cases hn : 0 + n = cp
    · exact Or.inl hn
    · right
      cases ht : conflict_test s.accel_map (ext.gdk_keyval_to_lower event.keyval)
        (ext.dt_gui_translated_key_state event) cur b with
      | false => rfl
      | true =>
        rw [conflict_test_iff] at ht
        exact absurd (hdisj n b hb (by omega) ht.1) ht.2.2
  refine ⟨hnone, ?_⟩
  rw [tree_key_press_remap ext selection event res s str cp cur hmod hstr hcur]
  refine ⟨_, rfl, ?_, ?_⟩
  · simp only [hnone, remap_resolve]
  · simp only [hnone, remap_resolve, lookup_change, if_true]

/-- C3: the local exemption. When the entry being remapped is local and every
other list entry that is bound to the candidate key and modifiers and shares a
view with it is local too, with another module name, the scan leaves
`accel_conflict` NULL. -/
theorem conflict_scan_local_exempt (map : AccelMap) (keyval_lower event_mods : Nat)
    (cur : dt_accel_t) (cp : Nat) (l : List dt_accel_t)
    (hcur : cur.local_ = true)
    (hothers : ∀ i a, l[i]? = some a → i ≠ cp →
      gtk_accel_map_lookup_entry map a.path = some ⟨keyval_lower, event_mods⟩ →
      a.views &&& cur.views ≠ 0 → a.local_ = true ∧ a.module ≠ cur.module) :
    conflict_scan map keyval_lower event_mods cur cp l 0 = none := by
  rw [conflict_scan_none]
  intro n b hb
  by_cases hn : 0 + n = cp
  · exact Or.inl hn
  · right
    cases ht : conflict_test map keyval_lower event_mods cur b with
    | false => rfl
    | true =>
      rw [conflict_test_iff] at ht
      have h := hothers n b hb (by omega) ht.1 ht.2.2
      exact absurd ⟨h.1, hcur, h.2⟩ ht.2.1

/-- C4: the first colliding entry wins. When the scan sets `accel_conflict`, the
reported entry stands in the list at the reported position, it is not the entry
being remapped, it meets the three conditions (bound to the candidate key and
modifiers, not both local with different modules, a view in common), and no
entry before it, other than the entry being remapped, meets them. -/
theorem conflict_scan_first (map : AccelMap) (keyval_lower event_mods : Nat)
    (cur : dt_accel_t) (cp : Nat) (l : List dt_accel_t) (j : Nat) (a : dt_accel_t)
    (h : conflict_scan map keyval_lower event_mods cur cp l 0 = some (j, a)) :
    l[j]? = some a ∧ j ≠ cp ∧
      (gtk_accel_map_lookup_entry map a.path = some ⟨keyval_lower, event_mods⟩ ∧
        ¬(a.local_ = true ∧ cur.local_ = true ∧ a.module ≠ cur.module) ∧
        a.views &&& cur.views ≠ 0) ∧
      ∀ n b, n < j → n ≠ cp → l[n]? = some b →
        ¬(gtk_accel_map_lookup_entry map b.path = some ⟨keyval_lower, event_mods⟩ ∧
          ¬(b.local_ = true ∧ cur.local_ = true ∧ b.module ≠ cur.module) ∧
          b.views &&& cur.views ≠ 0) := by
  obtain ⟨n, hj, hn, hne, ht, hprev⟩ := conflict_scan_some map keyval_lower event_mods cur cp l 0 j a h
  have hjn : j = n := by omega
  subst hjn
  refine ⟨hn, hne, (conflict_test_iff _ _ _ _ _).mp ht, ?_⟩
  intro n2 b hlt hne2 hb hcond
  rcases hprev n2 b hlt hb with h1 | h1
  · exact hne2 (by omega)
  · rw [(conflict_test_iff _ _ _ _ _).mpr hcond] at h1; cases h1

/-- C6: a declined replacement changes no binding. When the scan reports a
conflict and `gtk_dialog_run` returns anything but `GTK_RESPONSE_YES`, the key
press returns TRUE with the accelerator map it started from, so every path is
bound as before. -/
theorem declined_conflict_keeps_bindings (ext : Externals) (selection : Option GtkTreePath)
    (event : GdkEventKey) (res : Int) (s : State) (str : CStr) (cp : Nat) (cur : dt_accel_t)
    (c : Nat × dt_accel_t)
    (hmod : event.is_modifier = false) (hstr : s.control.accel_remap_str = some str)
    (hcur : g_list_find_custom (g_strlcpy str ext.sizeof_path) s.control.accelerator_list 0
      = some (cp, cur))
    (hscan : conflict_scan s.accel_map (ext.gdk_keyval_to_lower event.keyval)
      (ext.dt_gui_translated_key_state event) cur cp s.control.accelerator_list 0 = some c)
    (hres : res ≠ GTK_RESPONSE_YES) :
    ∃ st, tree_key_press ext selection event res s = some (true, st) ∧
      st.accel_map = s.accel_map ∧
      ∀ p, gtk_accel_map_lookup_entry st.accel_map p = gtk_accel_map_lookup_entry s.accel_map p := by
  rw [tree_key_press_remap ext selection event res s str cp cur hmod hstr hcur]
  refine ⟨_, rfl, ?_, ?_⟩ <;> simp only [hscan, remap_resolve, hres, if_false, implies_true]

/-- C7: without a conflict the binding is applied at once. When the scan leaves
`accel_conflict` NULL, the key press returns TRUE whatever a confirmation would
have answered, the remapped path is bound to the lower-cased key value and the
translated modifiers, and every other path is bound as before. -/
theorem no_conflict_applies_binding (ext : Externals) (selection : Option GtkTreePath)
    (event : GdkEventKey) (res : Int) (s : State) (str : CStr) (cp : Nat) (cur : dt_accel_t)
    (hmod : event.is_modifier = false) (hstr : s.control.accel_remap_str = some str)
    (hcur : g_list_find_custom (g_strlcpy str ext.sizeof_path) s.control.accelerator_list 0
      = some (cp, cur))
    (hscan : conflict_scan s.accel_map (ext.gdk_keyval_to_lower event.keyval)
      (ext.dt_gui_translated_key_state event) cur cp s.control.accelerator_list 0 = none) :
    ∃ st, tree_key_press ext selection event res s = some (true, st) ∧
      gtk_accel_map_lookup_entry st.accel_map str
        = some ⟨ext.gdk_keyval_to_lower event.keyval, ext.dt_gui_translated_key_state event⟩ ∧
      ∀ p, p ≠ str →
        gtk_accel_map_lookup_entry st.accel_map p = gtk_accel_map_lookup_entry s.accel_map p := by
  rw [tree_key_press_remap ext selection event res s str cp cur hmod hstr hcur]
  refine ⟨_, rfl, ?_, ?_⟩
  · simp only [hscan, remap_resolve, lookup_change, if_true]
  · intro p hp
    simp only [hscan, remap_resolve, lookup_change, hp, if_false]

/-! ## Removing the colliding entries -/

theorem delete_test_iff (ext : Externals) (map : AccelMap) (a cur : dt_accel_t) :
    delete_test ext map a cur = true ↔
      lookup_key ext map a.path = lookup_key ext map cur.path ∧
      ¬(a.local_ = true ∧ cur.local_ = true ∧ a.module ≠ cur.module) ∧
      a.views &&& cur.views ≠ 0 := by
  unfold delete_test
  rcases hk1 : lookup_key ext map a.path with ⟨k1, m1⟩
  rcases hk2 : lookup_key ext map cur.path with ⟨k2, m2⟩
  simp only [Bool.and_eq_true, decide_eq_true_eq, Bool.not_eq_true', GtkAccelKey.mk.injEq]
  constructor
  · rintro ⟨⟨⟨h1, h2⟩, h3⟩, h4⟩
    refine ⟨⟨h1, h2⟩, ?_, h4⟩
    rintro ⟨ha, hc, hm⟩
    simp [ha, hc, hm] at h3
  · rintro ⟨⟨h1, h2⟩, h3, h4⟩
    refine ⟨⟨⟨h1, h2⟩, ?_⟩, h4⟩
    by_contra hcon
    apply h3
    simp only [Bool.not_eq_false, Bool.and_eq_true, decide_eq_true_eq] at hcon
    exact ⟨hcon.1.1, hcon.1.2, hcon.2⟩

theorem lookup_delete_matching (ext : Externals) (map : AccelMap) (a cur : dt_accel_t) (q : CStr) :
    gtk_accel_map_lookup_entry (delete_matching_accels ext map a cur) q =
      if q = a.path ∧ a.path ≠ cur.path ∧ delete_test ext map a cur = true then some ⟨0, 0⟩
      else gtk_accel_map_lookup_entry map q := by
  unfold delete_matching_accels
  by_cases hp : a.path = cur.path
  · simp [hp]
  · by_cases ht : delete_test ext map a cur = true
    · simp only [hp, ht, if_false, if_true, lookup_change, ne_eq, not_false_eq_true, and_true]
    · simp [hp, ht]

theorem delete_all_keeps_unbound (ext : Externals) (cur : dt_accel_t) (q : CStr) :
    ∀ (l : List dt_accel_t) (map : AccelMap),
      gtk_accel_map_lookup_entry map q = some ⟨0, 0⟩ →
      gtk_accel_map_lookup_entry (delete_all_matching ext cur l map) q = some ⟨0, 0⟩ := by
  intro l
  induction l with
  | nil => intro map h; exact h
  | cons x l ih =>
    intro map h
    simp only [delete_all_matching]
    apply ih
    rw [lookup_delete_matching]
    split
    · rfl
    · exact h

theorem delete_test_congr (ext : Externals) (m1 m2 : AccelMap) (a cur : dt_accel_t)
    (h1 : gtk_accel_map_lookup_entry m1 a.path = gtk_accel_map_lookup_entry m2 a.path)
    (h2 : gtk_accel_map_lookup_entry m1 cur.path = gtk_accel_map_lookup_entry m2 cur.path) :
    delete_test ext m1 a cur = delete_test ext m2 a cur := by
  unfold delete_test lookup_key
  rw [h1, h2]

theorem delete_all_keeps (ext : Externals) (cur : dt_accel_t) (q : CStr) :
    ∀ (l : List dt_accel_t) (map : AccelMap),
      (∀ a ∈ l, a.path = q → a.path ≠ cur.path → delete_test ext map a cur = false) →
      gtk_accel_map_lookup_entry (delete_all_matching ext cur l map) q
        = gtk_accel_map_lookup_entry map q := by
  intro l
  induction l with
  | nil => intro map _; rfl
  | cons x l ih =>
    intro map h
    simp only [delete_all_matching]
    have hq : gtk_accel_map_lookup_entry (delete_matching_accels ext map x cur) q
        = gtk_accel_map_lookup_entry map q := by
      rw [lookup_delete_matching]
      split
      · rename_i hc
        have := h x (List.mem_cons_self _ _) hc.1.symm hc.2.1
        rw [hc.2.2] at this; cases this
      · rfl
    have hcur : gtk_accel_map_lookup_entry (delete_matching_accels ext map x cur) cur.path
        = gtk_accel_map_lookup_entry map cur.path := by
      rw [lookup_delete_matching]
      split
      · rename_i hc
        exact absurd hc.1.symm hc.2.1
      · rfl
    rw [ih, hq]
    intro a ha hap hne
    rw [delete_test_congr ext _ map a cur (by rw [hap]; exact hq) hcur]
    exact h a (List.mem_cons_of_mem _ ha) hap hne

theorem delete_all_clears (ext : Externals) (cur : dt_accel_t) (a : dt_accel_t) (km : GtkAccelKey)
    (hne : a.path ≠ cur.path)
    (hrule : ¬(a.local_ = true ∧ cur.local_ = true ∧ a.module ≠ cur.module))
    (hviews : a.views &&& cur.views ≠ 0) :
    ∀ (l : List dt_accel_t) (map : AccelMap), a ∈ l →
      gtk_accel_map_lookup_entry map cur.path = some km →
      gtk_accel_map_lookup_entry map a.path = some km →
      gtk_accel_map_lookup_entry (delete_all_matching ext cur l map) a.path = some ⟨0, 0⟩ := by
  intro l
  induction l with
  | nil => intro map ha; cases ha
  | cons x l ih =>
    intro map ha hc hk
    simp only [delete_all_matching]
    have hcur : gtk_accel_map_lookup_entry (delete_matching_accels ext map x cur) cur.path
        = some km := by
      rw [lookup_delete_matching]
      split
      · rename_i hcnd
        exact absurd hcnd.1.symm hcnd.2.1
      · exact hc
    by_cases hstep : gtk_accel_map_lookup_entry (delete_matching_accels ext map x cur) a.path
        = some ⟨0, 0⟩
    · exact delete_all_keeps_unbound ext cur a.path l _ hstep
    · have hsame : gtk_accel_map_lookup_entry (delete_matching_accels ext map x cur) a.path
          = some km := by
        rw [lookup_delete_matching] at hstep ⊢
        split
        · rename_i hcnd
          simp [hcnd] at hstep
        · exact hk
      rcases List.mem_cons.mp ha with hax | hal
      · subst hax
        exfalso
        apply hstep
        rw [lookup_delete_matching]
        have ht : delete_test ext map a cur = true := by
          rw [delete_test_iff]
          refine ⟨?_, hrule, hviews⟩
          unfold lookup_key
          rw [hc, hk]
        simp [hne, ht]
      · exact ih _ hal hcur hsame

/-- C5: a confirmed replacement removes what collides. When the scan reports a
conflict, the confirmation is answered yes and `gtk_accel_map_change_entry`
reports success, the remapped path is bound to the candidate, every list entry
with another path that was bound to the candidate, is not local together with
the remapped entry under a different module, and shares a view with it is
unbound (key 0, modifiers 0), and every path none of whose entries collides so
is bound as before. The remap string fits the path buffer and every list entry
has an entry in the accelerator map. -/
theorem confirmed_replacement_clears_collisions (ext : Externals)
    (selection : Option GtkTreePath) (event : GdkEventKey) (s : State) (str : CStr) (cp : Nat)
    (cur : dt_accel_t) (c : Nat × dt_accel_t)
    (hmod : event.is_modifier = false) (hstr : s.control.accel_remap_str = some str)
    (hcur : g_list_find_custom (g_strlcpy str ext.sizeof_path) s.control.accelerator_list 0
      = some (cp, cur))
    (hscan : conflict_scan s.accel_map (ext.gdk_keyval_to_lower event.keyval)
      (ext.dt_gui_translated_key_state event) cur cp s.control.accelerator_list 0 = some c)
    (hlen : str.length < ext.sizeof_path)
    (hreg : ∀ a ∈ s.control.accelerator_list,
      gtk_accel_map_lookup_entry s.accel_map a.path ≠ none)
    (hchanged : (gtk_accel_map_change_entry s.accel_map str
      (ext.gdk_keyval_to_lower event.keyval) (ext.dt_gui_translated_key_state event) true).2
        = true) :
    ∃ st, tree_key_press ext selection event GTK_RESPONSE_YES s = some (true, st) ∧
      gtk_accel_map_lookup_entry st.accel_map str
        = some ⟨ext.gdk_keyval_to_lower event.keyval, ext.dt_gui_translated_key_state event⟩ ∧
      (∀ a ∈ s.control.accelerator_list, a.path ≠ str →
        gtk_accel_map_lookup_entry s.accel_map a.path
          = some ⟨ext.gdk_keyval_to_lower event.keyval, ext.dt_gui_translated_key_state event⟩ →
        ¬(a.local_ = true ∧ cur.local_ = true ∧ a.module ≠ cur.module) →
        a.views &&& cur.views ≠ 0 →
        gtk_accel_map_lookup_entry st.accel_map a.path = some ⟨0, 0⟩) ∧
      (∀ p, p ≠ str →
        (∀ a ∈ s.control.accelerator_list, a.path = p →
          ¬(gtk_accel_map_lookup_entry s.accel_map a.path
              = some ⟨ext.gdk_keyval_to_lower event.keyval,
                  ext.dt_gui_translated_key_state event⟩ ∧
            ¬(a.local_ = true ∧ cur.local_ = true ∧ a.module ≠ cur.module) ∧
            a.views &&& cur.views ≠ 0)) →
        gtk_accel_map_lookup_entry st.accel_map p = gtk_accel_map_lookup_entry s.accel_map p) := by
  have hpath : cur.path = str := by
    obtain ⟨n, _, _, hp⟩ := g_list_find_custom_some _ _ _ _ _ hcur
    rw [hp, g_strlcpy]
    exact List.take_of_length_le (by omega)
  rw [tree_key_press_remap ext selection event GTK_RESPONSE_YES s str cp cur hmod hstr hcur]
  refine ⟨_, rfl, ?_, ?_, ?_⟩
  · simp only [hscan, remap_resolve, if_true, hchanged]
    rw [← hpath, delete_all_keeps ext cur cur.path _ _ (fun a _ hap hne => absurd hap hne),
      lookup_change, hpath]
    simp
  · intro a ha hne hk hrule hviews
    simp only [hscan, remap_resolve, if_true, hchanged]
    apply delete_all_clears ext cur a
      ⟨ext.gdk_keyval_to_lower event.keyval, ext.dt_gui_translated_key_state event⟩
      (by rw [hpath]; exact hne) hrule hviews _ _ ha
    · rw [lookup_change, hpath]; simp
    · rw [lookup_change]; simp [hne, hk]
  · intro p hp hnot
    simp only [hscan, remap_resolve, if_true, hchanged]
    rw [delete_all_keeps, lookup_change]
    · simp [hp]
    · intro a ha hap _
      cases ht : delete_test ext _ a cur with
      | false => rfl
      | true =>
        exfalso
        rw [delete_test_iff] at ht
        apply hnot a ha hap
        refine ⟨?_, ht.2.1, ht.2.2⟩
        have h1 := ht.1
        unfold lookup_key at h1
        rw [lookup_change, lookup_change, hpath] at h1
        have hane : a.path ≠ str := by rw [hap]; exact hp
        simp only [hane, if_false, if_true, Option.getD_some] at h1
        cases hl : gtk_accel_map_lookup_entry s.accel_map a.path with
        | none => exact absurd hl (hreg a ha)
        | some k =>
          rw [hl] at h1
          simp only [Option.getD_some] at h1
          rw [h1]

/-! ## The local exemption is symmetric -/

/-- C8 (the claim refuted): no two accelerators with the same bound key and
modifiers and a common view are treated differently by the rule depending on
which of them is being remapped, neither by the test of the conflict scan nor
by the test of `delete_matching_accels`. -/
theorem local_exemption_asymmetry_refuted :
    ¬ ∃ (ext : Externals) (map : AccelMap) (k m : Nat) (a b : dt_accel_t),
      gtk_accel_map_lookup_entry map a.path = some ⟨k, m⟩ ∧
      gtk_accel_map_lookup_entry map b.path = some ⟨k, m⟩ ∧
      a.views &&& b.views ≠ 0 ∧
      ((conflict_test map k m b a = true ∧ conflict_test map k m a b = false) ∨
        (delete_test ext map a b = true ∧ delete_test ext map b a = false)) := by
  rintro ⟨ext, map, k, m, a, b, ha, hb, _, h | h⟩
  · obtain ⟨h1, h2⟩ := h
    rw [conflict_test_iff] at h1
    have : conflict_test map k m a b = true := by
      rw [conflict_test_iff]
      refine ⟨hb, ?_, ?_⟩
      · rintro ⟨x, y, z⟩
        exact h1.2.1 ⟨y, x, fun e => z e.symm⟩
      · rw [Nat.land_comm]; exact h1.2.2
    rw [this] at h2; cases h2
  · obtain ⟨h1, h2⟩ := h
    rw [delete_test_iff] at h1
    have : delete_test ext map b a = true := by
      rw [delete_test_iff]
      refine ⟨h1.1.symm, ?_, ?_⟩
      · rintro ⟨x, y, z⟩
        exact h1.2.1 ⟨y, x, fun e => z e.symm⟩
      · rw [Nat.land_comm]; exact h1.2.2
    rw [this] at h2; cases h2

/-- C8 (amended): the rule is symmetric. The test of `delete_matching_accels`
gives the same answer when the two accelerators change roles, and for two
accelerators bound to the same key and modifiers the test of the conflict scan
gives the same answer whichever of them is the one being remapped. -/
theorem local_exemption_symmetric (ext : Externals) (map : AccelMap) (k m : Nat)
    (a b : dt_accel_t) :
    delete_test ext map a b = delete_test ext map b a ∧
      (gtk_accel_map_lookup_entry map a.path = some ⟨k, m⟩ →
        gtk_accel_map_lookup_entry map b.path = some ⟨k, m⟩ →
        conflict_test map k m b a = conflict_test map k m a b) := by
  constructor
  · rw [Bool.eq_iff_iff, delete_test_iff, delete_test_iff, Nat.land_comm b.views a.views]
    constructor
    · rintro ⟨h1, h2, h3⟩
      exact ⟨h1.symm, fun ⟨x, y, z⟩ => h2 ⟨y, x, fun e => z e.symm⟩, h3⟩
    · rintro ⟨h1, h2, h3⟩
      exact ⟨h1.symm, fun ⟨x, y, z⟩ => h2 ⟨y, x, fun e => z e.symm⟩, h3⟩
  · intro ha hb
    rw [Bool.eq_iff_iff, conflict_test_iff, conflict_test_iff, Nat.land_comm b.views a.views]
    constructor
    · rintro ⟨_, h2, h3⟩
      exact ⟨hb, fun ⟨x, y, z⟩ => h2 ⟨y, x, fun e => z e.symm⟩, h3⟩
    · rintro ⟨_, h2, h3⟩
      exact ⟨ha, fun ⟨x, y, z⟩ => h2 ⟨y, x, fun e => z e.symm⟩, h3⟩

/-! ## Cancelling a remap -/

theorem getElem?_modify_nth (f : Node → Node) :
    ∀ (rows : List Node) (i j : Nat),
      (modify_nth f rows i)[j]? = if j = i then rows[i]?.map f else rows[j]? := by
  intro rows
  induction rows with
  | nil => intro i j; simp [modify_nth]
  | cons n rows ih =>
    intro i j
    cases i with
    | zero =>
      cases j with
      | zero => simp [modify_nth]
      | succ j => simp [modify_nth]
    | succ i =>
      cases j with
      | zero => simp [modify_nth]
      | succ j => simp [modify_nth, ih]

theorem get_iter_set_binding_same (v : CStr) :
    ∀ (path : GtkTreePath) (rows : List Node) (n : Node),
      gtk_tree_model_get_iter rows path = some n →
      gtk_tree_model_get_iter (gtk_tree_store_set_binding v rows path) path
        = some (.mk { n.row with binding := v } n.children) := by
  intro path
  induction path with
  | nil => intro rows n h; simp [gtk_tree_model_get_iter] at h
  | cons i rest ih =>
    intro rows n h
    cases rest with
    | nil =>
      simp only [gtk_tree_model_get_iter] at h
      simp [gtk_tree_model_get_iter, gtk_tree_store_set_binding, getElem?_modify_nth, h]
    | cons j rest =>
      simp only [gtk_tree_model_get_iter] at h
      cases hi : rows[i]? with
      | none => simp [hi] at h
      | some c =>
        simp only [hi] at h
        simp only [gtk_tree_model_get_iter, gtk_tree_store_set_binding, getElem?_modify_nth,
          if_true, hi, Option.map_some', Node.children]
        exact ih c.children n h

theorem get_iter_set_binding_other (v : CStr) :
    ∀ (q path : GtkTreePath) (rows : List Node), q ≠ path →
      (gtk_tree_model_get_iter (gtk_tree_store_set_binding v rows path) q).map Node.row
        = (gtk_tree_model_get_iter rows q).map Node.row := by
  intro q
  induction q with
  | nil => intro path rows _; simp [gtk_tree_model_get_iter]
  | cons j qrest ih =>
    intro path rows hne
    match path with
    | [] => simp [gtk_tree_store_set_binding]
    | [i] =>
      cases qrest with
      | nil =>
        have hji : j ≠ i := fun h => hne (by rw [h])
        simp [gtk_tree_model_get_iter, gtk_tree_store_set_binding, getElem?_modify_nth, hji]
      | cons j2 qrest =>
        simp only [gtk_tree_model_get_iter, gtk_tree_store_set_binding, getElem?_modify_nth]
        by_cases hji : j = i
        · subst hji
          cases hj : rows[j]? with
          | none => simp
          | some c => simp [Node.children]
        · simp [hji]
    | i :: i2 :: prest =>
      cases qrest with
      | nil =>
        simp only [gtk_tree_model_get_iter, gtk_tree_store_set_binding, getElem?_modify_nth]
        by_cases hji : j = i
        · subst hji
          cases hj : rows[j]? with
          | none => simp
          | some c => simp [Node.row]
        · simp [hji]
      | cons j2 qrest =>
        simp only [gtk_tree_model_get_iter, gtk_tree_store_set_binding, getElem?_modify_nth]
        by_cases hji : j = i
        · subst hji
          cases hj : rows[j]? with
          | none => simp
          | some c =>
            simp only [if_true, Option.map_some', Node.children]
            exact ih (i2 :: prest) c.children (fun h => hne (by rw [h]))
        · simp [hji]

/-- C9: cancelling. Without a remap in progress `tree_selection_changed`
returns the state it was given. With one in progress it clears
`accel_remap_str` and `accel_remap_path` and leaves the accelerator list, the
accelerator map and the saved file alone, whatever the remap string is. The row
of `accel_remap_path` gets the label of the key that the lookup of the remap
string left in `key`, and no column of any other row changes. That key is the
binding of the remap string when the accelerator map knows the path; when it
does not, the result of the lookup is not tested and the key is the
uninitialised one, so the label is not that of a binding. -/
theorem selection_change_cancels_remap (ext : Externals) (s : State) :
    (s.control.accel_remap_str = none → tree_selection_changed ext s = s) ∧
      (∀ str, s.control.accel_remap_str = some str →
        (tree_selection_changed ext s).control.accel_remap_str = none ∧
        (tree_selection_changed ext s).control.accel_remap_path = none ∧
        (tree_selection_changed ext s).control.accelerator_list = s.control.accelerator_list ∧
        (tree_selection_changed ext s).accel_map = s.accel_map ∧
        (tree_selection_changed ext s).keyboardrc = s.keyboardrc ∧
        (∀ path, s.control.accel_remap_path = some path →
          (∀ n, gtk_tree_model_get_iter s.model path = some n →
            gtk_tree_model_get_iter (tree_selection_changed ext s).model path
              = some (.mk { n.row with
                  binding := ext.gtk_accelerator_get_label
                    (lookup_key ext s.accel_map str).accel_key
                    (lookup_key ext s.accel_map str).accel_mods }
                n.children)) ∧
          (∀ q, q ≠ path →
            (gtk_tree_model_get_iter (tree_selection_changed ext s).model q).map Node.row
              = (gtk_tree_model_get_iter s.model q).map Node.row)) ∧
        (∀ key, gtk_accel_map_lookup_entry s.accel_map str = some key →
          lookup_key ext s.accel_map str = key) ∧
        (gtk_accel_map_lookup_entry s.accel_map str = none →
          lookup_key ext s.accel_map str = ext.indeterminate)) := by
  constructor
  · intro h
    simp only [tree_selection_changed, h]
  · intro str hstr
    refine ⟨?_, ?_, ?_, ?_, ?_, ?_, ?_, ?_⟩
    · simp only [tree_selection_changed, hstr]
    · simp only [tree_selection_changed, hstr]
    · simp only [tree_selection_changed, hstr]
    · simp only [tree_selection_changed, hstr]
    · simp only [tree_selection_changed, hstr]
    · intro path hpath
      simp only [tree_selection_changed, hstr, hpath]
      refine ⟨?_, ?_⟩
      · intro n hn
        exact get_iter_set_binding_same _ path s.model n hn
      · intro q hq
        exact get_iter_set_binding_other _ q path s.model hq
    · intro key hkey
      simp only [lookup_key, hkey, Option.getD_some]
    · intro hkey
      simp only [lookup_key, hkey, Option.getD_none]

/-! ## Reading a path back from the tree -/

theorem Node.row_mk (r : Row) (ch : List Node) : (Node.mk r ch).row = r := rfl

theorem Node.children_mk (r : Row) (ch : List Node) : (Node.mk r ch).children = ch := rfl

theorem strchr_some (c : Char) :
    ∀ (s : CStr) (e : Nat), strchr s c = some e → s[e]? = some c := by
  intro s
  induction s with
  | nil => intro e h; simp [strchr] at h
  | cons x s ih =>
    intro e h
    unfold strchr at h
    split at h
    · rename_i hx
      simp only [Option.some.injEq] at h
      subst h; simp [hx]
    · cases hs : strchr s c with
      | none => simp [hs] at h
      | some e2 =>
        simp only [hs, Option.map_some', Option.some.injEq] at h
        subst h
        simpa using ih e2 hs

theorem trans_scan_loop_slash (accel_path : CStr) :
    ∀ (t : CStr) (e : Option Nat) (e1 : Nat),
      (∀ o, e = some o → accel_path[o]? = some '/') →
      (trans_scan_loop accel_path t e).2 = some e1 → accel_path[e1]? = some '/' := by
  intro t
  induction t with
  | nil =>
    intro e e1 he h
    exact he e1 h
  | cons c t ih =>
    intro e e1 he h
    unfold trans_scan_loop at h
    split at h
    · refine ih _ e1 ?_ h
      intro o ho
      cases e with
      | none => simp at ho
      | some o1 =>
        simp only [Option.some_bind] at ho
        cases hs : strchr (List.drop (o1 + 1) accel_path) '/' with
        | none => simp [hs] at ho
        | some o2 =>
          simp only [hs, Option.map_some', Option.some.injEq] at ho
          subst ho
          have := strchr_some '/' _ o2 hs
          rw [List.getElem?_drop] at this
          rw [← this]
          congr 1
          omega
    · exact ih e e1 he h

theorem find_sibling_some (node : CStr) :
    ∀ (rows : List Node) (i0 i : Nat) (n : Node),
      find_sibling node rows i0 = some (i, n) →
      ∃ j, i = i0 + j ∧ rows[j]? = some n ∧ n.row.accel = node := by
  intro rows
  induction rows with
  | nil => intro i0 i n h; simp [find_sibling] at h
  | cons x rows ih =>
    intro i0 i n h
    unfold find_sibling at h
    split at h
    · rename_i hx
      simp only [Option.some.injEq, Prod.mk.injEq] at h
      obtain ⟨rfl, rfl⟩ := h
      exact ⟨0, rfl, by simp, hx⟩
    · obtain ⟨j, hj, hn, hp⟩ := ih (i0 + 1) i n h
      exact ⟨j + 1, by omega, by simpa using hn, hp⟩

theorem g_strlcat_fits (dest src : CStr) (n : Nat) (h : dest.length + src.length < n) :
    g_strlcat dest src n = dest ++ src := by
  unfold g_strlcat
  have h1 : ¬ n ≤ dest.length := by omega
  simp only [h1, if_false]
  exact List.take_of_length_le (by simp; omega)

theorem take_slash_drop (s : CStr) (e : Nat) (h : s[e]? = some '/') :
    s.take e ++ '/' :: s.drop (e + 1) = s := by
  have hlt : e < s.length := by
    by_contra hge
    rw [List.getElem?_eq_none (by omega)] at h
    cases h
  have hget : s[e] = '/' := by
    rw [List.getElem?_eq_getElem hlt] at h
    exact Option.some.inj h
  rw [← hget, ← List.drop_eq_getElem_cons hlt]
  exact List.take_append_drop e s

/-- The chain of rows from `parent` down to the leaf row that `tree_insert_rec`
inserted spells the `accel_path` of the call, as long as the buffer is large
enough. -/
theorem path_to_accel_loop_insert (ext : Externals) :
    ∀ (fuel : Nat) (rows : List Node) (ap tp : CStr) (k m : Nat) (p : GtkTreePath)
      (str : CStr) (str_len : Nat),
      (tree_insert_rec_fuel ext fuel rows ap tp k m).2 = some p →
      str.length + 1 + ap.length < str_len →
      path_to_accel_loop (tree_insert_rec_fuel ext fuel rows ap tp k m).1 p str str_len
        = some (str ++ '/' :: ap) := by
  intro fuel
  induction fuel with
  | zero => intro rows ap tp k m p str str_len h; simp [tree_insert_rec_fuel] at h
  | succ fuel ih =>
    intro rows ap tp k m p str str_len h hlen
    unfold tree_insert_rec_fuel at h ⊢
    by_cases hap : ap = []
    · simp [hap] at h
    · simp only [hap, if_false] at h ⊢
      split at h
      · rename_i e trans_end he hte
        have hslash : ∀ e1, (trans_scan_loop ap (List.take trans_end tp) (some e)).2 = some e1 →
            ap[e1]? = some '/' := by
          intro e1 h1
          refine trans_scan_loop_slash ap _ (some e) e1 ?_ h1
          intro o ho
          simp only [Option.some.injEq] at ho
          subst ho
          exact strchr_some '/' ap _ he
        cases hsc : (trans_scan_loop ap (List.take trans_end tp) (some e)).2 with
        | none => simp [hsc] at h
        | some e1 =>
          simp only [hsc] at h ⊢
          have hs1 := hslash e1 hsc
          have he1 : e1 < ap.length := by
            by_contra hge
            rw [List.getElem?_eq_none (by omega)] at hs1
            cases hs1
          have hsplit := take_slash_drop ap e1 hs1
          have hlen2 : (str ++ '/' :: List.take e1 ap).length + 1
              + (List.drop (e1 + 1) ap).length < str_len := by
            simp only [List.length_append, List.length_cons, List.length_take, List.length_drop]
            omega
          have hcat : g_strlcat (g_strlcat str ['/'] str_len) (List.take e1 ap) str_len
              = str ++ '/' :: List.take e1 ap := by
            rw [g_strlcat_fits str ['/'] str_len (by simp; omega),
              g_strlcat_fits _ _ str_len (by simp; omega)]
            simp
          have hfinal : str ++ '/' :: List.take e1 ap ++ '/' :: List.drop (e1 + 1) ap
              = str ++ '/' :: ap := by
            rw [List.append_assoc]
            congr 1
            rw [List.cons_append, hsplit]
          cases hf : find_sibling (List.take e1 ap) rows 0 with
          | some found =>
            obtain ⟨i, n⟩ := found
            simp only [hf] at h ⊢
            obtain ⟨j, hj, hn, hacc⟩ := find_sibling_some _ _ _ _ _ hf
            have hij : i = j := by omega
            subst hij
            cases hr : (tree_insert_rec_fuel ext fuel n.children (List.drop (e1 + 1) ap)
                (List.drop (trans_end + 1) tp) k m).2 with
            | none => simp [hr] at h
            | some p2 =>
              simp only [hr, Option.map_some', Option.some.injEq] at h
              subst h
              have hi : i < rows.length := by
                by_contra hge
                rw [List.getElem?_eq_none (by omega)] at hn
                cases hn
              simp only [path_to_accel_loop, List.getElem?_set_self hi, Node.children_mk, Node.row_mk]
              rw [hacc, hcat, ih _ _ _ _ _ p2 _ str_len hr hlen2, hfinal]
          | none =>
            simp only [hf] at h ⊢
            cases hr : (tree_insert_rec_fuel ext fuel [] (List.drop (e1 + 1) ap)
                (List.drop (trans_end + 1) tp) k m).2 with
            | none => simp [hr] at h
            | some p2 =>
              simp only [hr, Option.map_some', Option.some.injEq] at h
              subst h
              simp only [path_to_accel_loop, List.getElem?_concat_length, Node.children_mk, Node.row_mk]
              rw [hcat, ih _ _ _ _ _ p2 _ str_len hr hlen2, hfinal]
      · rename_i hnot
        simp only [Option.some.injEq] at h
        subst h
        have hcat : g_strlcat (g_strlcat str ['/'] str_len) ap str_len = str ++ '/' :: ap := by
          rw [g_strlcat_fits str ['/'] str_len (by simp; omega),
            g_strlcat_fits _ _ str_len (by simp; omega)]
          simp
        simp only [path_to_accel_loop, List.getElem?_concat_length, Node.children_mk,
          Node.row_mk, hcat]

/-- The position `tree_insert_rec` reports is that of a row without children
that shows the label of the key and modifiers of the call. -/
theorem tree_insert_rec_leaf_row (ext : Externals) :
    ∀ (fuel : Nat) (rows : List Node) (ap tp : CStr) (k m : Nat) (p : GtkTreePath),
      (tree_insert_rec_fuel ext fuel rows ap tp k m).2 = some p →
      p ≠ [] ∧ ∃ a t, gtk_tree_model_get_iter (tree_insert_rec_fuel ext fuel rows ap tp k m).1 p
        = some (.mk ⟨a, ext.keyboard_label (ext.gtk_accelerator_get_label k m), t⟩ []) := by
  intro fuel
  induction fuel with
  | zero => intro rows ap tp k m p h; simp [tree_insert_rec_fuel] at h
  | succ fuel ih =>
    intro rows ap tp k m p h
    unfold tree_insert_rec_fuel at h ⊢
    by_cases hap : ap = []
    · simp [hap] at h
    · simp only [hap, if_false] at h ⊢
      split at h
      · rename_i e trans_end he hte
        cases hsc : (trans_scan_loop ap (List.take trans_end tp) (some e)).2 with
        | none => simp [hsc] at h
        | some e1 =>
          simp only [hsc] at h ⊢
          cases hf : find_sibling (List.take e1 ap) rows 0 with
          | some found =>
            obtain ⟨i, n⟩ := found
            simp only [hf] at h ⊢
            obtain ⟨j, hj, hn, _⟩ := find_sibling_some _ _ _ _ _ hf
            have hij : i = j := by omega
            subst hij
            cases hr : (tree_insert_rec_fuel ext fuel n.children (List.drop (e1 + 1) ap)
                (List.drop (trans_end + 1) tp) k m).2 with
            | none => simp [hr] at h
            | some p2 =>
              simp only [hr, Option.map_some', Option.some.injEq] at h
              subst h
              have hi : i < rows.length := by
                by_contra hge
                rw [List.getElem?_eq_none (by omega)] at hn
                cases hn
              obtain ⟨hne, a, t, hrow⟩ := ih _ _ _ _ _ p2 hr
              refine ⟨by simp, a, t, ?_⟩
              cases p2 with
              | nil => exact absurd rfl hne
              | cons j2 rest =>
                simp only [gtk_tree_model_get_iter, List.getElem?_set_self hi, Node.children_mk]
                exact hrow
          | none =>
            simp only [hf] at h ⊢
            cases hr : (tree_insert_rec_fuel ext fuel [] (List.drop (e1 + 1) ap)
                (List.drop (trans_end + 1) tp) k m).2 with
            | none => simp [hr] at h
            | some p2 =>
              simp only [hr, Option.map_some', Option.some.injEq] at h
              subst h
              obtain ⟨hne, a, t, hrow⟩ := ih _ _ _ _ _ p2 hr
              refine ⟨by simp, a, t, ?_⟩
              cases p2 with
              | nil => exact absurd rfl hne
              | cons j2 rest =>
                simp only [gtk_tree_model_get_iter, List.getElem?_concat_length,
                  Node.children_mk]
                exact hrow
      · simp only [Option.some.injEq] at h
        subst h
        refine ⟨by simp, ap, g_strdelimit tp, ?_⟩
        simp only [gtk_tree_model_get_iter, List.getElem?_concat_length]

/-- The length of `accel_path` is enough fuel: any larger bound gives the same
result, so `tree_insert_rec` never stops for lack of fuel. -/
theorem tree_insert_rec_fuel_enough (ext : Externals) :
    ∀ (fuel1 fuel2 : Nat) (rows : List Node) (ap tp : CStr) (k m : Nat),
      ap.length ≤ fuel1 → ap.length ≤ fuel2 →
      tree_insert_rec_fuel ext fuel1 rows ap tp k m
        = tree_insert_rec_fuel ext fuel2 rows ap tp k m := by
  intro fuel1
  induction fuel1 with
  | zero =>
    intro fuel2 rows ap tp k m h1 _
    have hap : ap = [] := List.length_eq_zero.mp (by omega)
    subst hap
    cases fuel2 <;> simp [tree_insert_rec_fuel]
  | succ fuel1 ih =>
    intro fuel2 rows ap tp k m h1 h2
    cases fuel2 with
    | zero =>
      have hap : ap = [] := List.length_eq_zero.mp (by omega)
      subst hap
      simp [tree_insert_rec_fuel]
    | succ fuel2 =>
      unfold tree_insert_rec_fuel
      by_cases hap : ap = []
      · simp [hap]
      · have hpos : 0 < ap.length := List.length_pos.mpr hap
        have hrec : ∀ (e1 : Nat) (rows2 : List Node) (tp2 : CStr),
            tree_insert_rec_fuel ext fuel1 rows2 (List.drop (e1 + 1) ap) tp2 k m
              = tree_insert_rec_fuel ext fuel2 rows2 (List.drop (e1 + 1) ap) tp2 k m := by
          intro e1 rows2 tp2
          apply ih <;> (simp only [List.length_drop]; omega)
        simp only [hap, if_false, hrec]

/-- C10: reading the path back. For an accelerator whose path starts with
`<Darktable>/` and fits the buffer, when `tree_insert_accel` inserts a leaf row
(a row without children that shows the label of the binding of the
accelerator), `path_to_accel` on the tree path of that row (the base
`<Darktable>`, then for every row of the chain from the top level down to the
leaf a slash and its `A_ACCEL_COLUMN`) gives the path of the accelerator
exactly. -/
theorem tree_insert_accel_path_roundtrip (ext : Externals) (map : AccelMap)
    (model : GtkTreeStore) (accel : dt_accel_t) (p : GtkTreePath) (str_len : Nat)
    (hpre : darktable_base ++ ['/'] <+: accel.path)
    (hlen : accel.path.length < str_len)
    (hleaf : (tree_insert_accel ext map model accel).2 = some p) :
    (∃ a t, gtk_tree_model_get_iter (tree_insert_accel ext map model accel).1 p
        = some (.mk ⟨a, ext.keyboard_label (ext.gtk_accelerator_get_label
            (lookup_key ext map accel.path).accel_key
            (lookup_key ext map accel.path).accel_mods), t⟩ [])) ∧
      path_to_accel (tree_insert_accel ext map model accel).1 p str_len = some accel.path := by
  obtain ⟨t, ht⟩ := hpre
  have hbase : darktable_base.length = 11 := by decide
  have htake : List.take darktable_base.length accel.path = darktable_base := by
    rw [← ht, List.append_assoc, List.take_left']
    rfl
  have hdrop : List.drop (darktable_base.length + 1) accel.path = t := by
    rw [← ht]
    exact List.drop_left' (by simp)
  have hl : accel.path.length = 12 + t.length := by
    rw [← ht]; simp [hbase]; omega
  unfold tree_insert_accel at hleaf ⊢
  simp only [htake, if_true, hdrop, tree_insert_rec] at hleaf ⊢
  refine ⟨(tree_insert_rec_leaf_row ext _ _ _ _ _ _ p hleaf).2, ?_⟩
  unfold path_to_accel
  have hcpy : g_strlcpy darktable_base str_len = darktable_base := by
    unfold g_strlcpy
    exact List.take_of_length_le (by omega)
  rw [hcpy, path_to_accel_loop_insert ext _ _ _ _ _ _ p _ str_len hleaf (by omega), ← ht]
  simp

/-! ## The theorems at the sample data -/

/-- Activating the `crop` row of the sample tree starts its remap. -/
theorem sample_state_activated :
    tree_row_activated_accels sample_ext [1, 0, 0]
        ⟨⟨none, none, sample_list⟩, sample_map, sample_model, none⟩
      = some (sample_state acc_crop [1, 0, 0]) := by
  rfl

/-- The rows of the sample tree store. -/
theorem sample_model_rows : sample_model = [
    .mk ⟨"global".toList, [], "global".toList⟩
      [.mk ⟨"export".toList, "Ctrl+e".toList, "export".toList⟩ [],
       .mk ⟨"undo".toList, "Ctrl+z".toList, "undo".toList⟩ []],
    .mk ⟨"iop".toList, [], "iop".toList⟩
      [.mk ⟨"crop".toList, [], "crop".toList⟩
        [.mk ⟨"commit".toList, "c".toList, "commit".toList⟩ []],
       .mk ⟨"exposure".toList, [], "exposure".toList⟩
        [.mk ⟨"reset".toList, "c".toList, "reset".toList⟩ []]],
    .mk ⟨"views".toList, [], "views".toList⟩
      [.mk ⟨"zoom".toList, "z".toList, "zoom".toList⟩ []]] := by
  rfl

/-- Every entry of the sample registry at a position is one of the five. -/
theorem sample_list_cases (i : Nat) (a : dt_accel_t) (h : sample_list[i]? = some a) :
    (i = 0 ∧ a = acc_export) ∨ (i = 1 ∧ a = acc_crop) ∨ (i = 2 ∧ a = acc_exposure) ∨
      (i = 3 ∧ a = acc_zoom) ∨ (i = 4 ∧ a = acc_undo) := by
  match i, h with
  | 0, h => left; exact ⟨rfl, (Option.some.inj h).symm⟩
  | 1, h => right; left; exact ⟨rfl, (Option.some.inj h).symm⟩
  | 2, h => right; right; left; exact ⟨rfl, (Option.some.inj h).symm⟩
  | 3, h => right; right; right; left; exact ⟨rfl, (Option.some.inj h).symm⟩
  | 4, h => right; right; right; right; exact ⟨rfl, (Option.some.inj h).symm⟩
  | n + 5, h => simp [sample_list] at h

/-- C1 at the sample data: `Ctrl+E` pressed while the `crop` shortcut is being
remapped collides with the global `export` shortcut. -/
theorem conflict_scan_complete_witness :
    (conflict_scan (sample_state acc_crop [1, 0, 0]).accel_map
        (sample_ext.gdk_keyval_to_lower event_ctrl_E.keyval)
        (sample_ext.dt_gui_translated_key_state event_ctrl_E) acc_crop 1
        (sample_state acc_crop [1, 0, 0]).control.accelerator_list 0).isSome = true ∧
      ((0 : Int) ≠ GTK_RESPONSE_YES →
        ∃ st, tree_key_press sample_ext none event_ctrl_E 0 (sample_state acc_crop [1, 0, 0])
            = some (true, st) ∧
          st.accel_map = (sample_state acc_crop [1, 0, 0]).accel_map) :=
  conflict_scan_complete sample_ext none event_ctrl_E 0 (sample_state acc_crop [1, 0, 0])
    acc_crop.path 1 acc_crop 0 acc_export rfl rfl (by decide) (by decide) (by decide)
    (by decide) (by decide) (Or.inl rfl)

/-- C2 at the sample data: `c` pressed while the `zoom` shortcut is being
remapped meets only shortcuts of another view, and is applied. -/
theorem conflict_scan_disjoint_views_witness :
    conflict_scan (sample_state acc_zoom [2, 0]).accel_map
        (sample_ext.gdk_keyval_to_lower event_c.keyval)
        (sample_ext.dt_gui_translated_key_state event_c) acc_zoom 3
        (sample_state acc_zoom [2, 0]).control.accelerator_list 0 = none ∧
      ∃ st, tree_key_press sample_ext none event_c 0 (sample_state acc_zoom [2, 0])
          = some (true, st) ∧
        st.accel_map = (gtk_accel_map_change_entry (sample_state acc_zoom [2, 0]).accel_map
          acc_zoom.path (sample_ext.gdk_keyval_to_lower event_c.keyval)
          (sample_ext.dt_gui_translated_key_state event_c) true).1 ∧
        gtk_accel_map_lookup_entry st.accel_map acc_zoom.path
          = some ⟨sample_ext.gdk_keyval_to_lower event_c.keyval,
              sample_ext.dt_gui_translated_key_state event_c⟩ :=
  conflict_scan_disjoint_views sample_ext none event_c 0 (sample_state acc_zoom [2, 0])
    acc_zoom.path 3 acc_zoom rfl rfl (by decide)
    (by
      intro i a h hne hk
      rcases sample_list_cases i a h with
        ⟨_, rfl⟩ | ⟨_, rfl⟩ | ⟨_, rfl⟩ | ⟨hi, rfl⟩ | ⟨_, rfl⟩
      · revert hk; decide
      · decide
      · decide
      · exact absurd hi hne
      · revert hk; decide)

/-- C3 at the sample data: for the local `exposure` shortcut the key `c`, held
by the local `crop` shortcut of another module, is no conflict. -/
theorem conflict_scan_local_exempt_witness :
    conflict_scan sample_map 99 0 acc_exposure 2 sample_list 0 = none :=
  conflict_scan_local_exempt sample_map 99 0 acc_exposure 2 sample_list rfl
    (by
      intro i a h hne hk hv
      rcases sample_list_cases i a h with
        ⟨_, rfl⟩ | ⟨_, rfl⟩ | ⟨hi, rfl⟩ | ⟨_, rfl⟩ | ⟨_, rfl⟩
      · revert hk; decide
      · decide
      · exact absurd hi hne
      · revert hk; decide
      · revert hk; decide)

/-- C4 at the sample data: for `Ctrl+z` on the `crop` shortcut the scan reports
the `undo` shortcut at position 4, after three entries that do not collide. -/
theorem conflict_scan_first_witness :
    sample_list[4]? = some acc_undo ∧ 4 ≠ 1 ∧
      (gtk_accel_map_lookup_entry sample_map acc_undo.path = some ⟨122, 4⟩ ∧
        ¬(acc_undo.local_ = true ∧ acc_crop.local_ = true ∧
          acc_undo.module ≠ acc_crop.module) ∧
        acc_undo.views &&& acc_crop.views ≠ 0) ∧
      ∀ n b, n < 4 → n ≠ 1 → sample_list[n]? = some b →
        ¬(gtk_accel_map_lookup_entry sample_map b.path = some ⟨122, 4⟩ ∧
          ¬(b.local_ = true ∧ acc_crop.local_ = true ∧ b.module ≠ acc_crop.module) ∧
          b.views &&& acc_crop.views ≠ 0) :=
  conflict_scan_first sample_map 122 4 acc_crop 1 sample_list 4 acc_undo (by decide)

/-- C5 at the sample data: `Ctrl+E` on the `crop` shortcut, confirmed, binds
`crop` to it and unbinds `export`. -/
theorem confirmed_replacement_clears_collisions_witness :
    ∃ st, tree_key_press sample_ext none event_ctrl_E GTK_RESPONSE_YES
        (sample_state acc_crop [1, 0, 0]) = some (true, st) ∧
      gtk_accel_map_lookup_entry st.accel_map acc_crop.path = some ⟨101, 4⟩ ∧
      gtk_accel_map_lookup_entry st.accel_map acc_export.path = some ⟨0, 0⟩ ∧
      gtk_accel_map_lookup_entry st.accel_map acc_undo.path = some ⟨122, 4⟩ := by
  obtain ⟨st, h1, h2, h3, h4⟩ := confirmed_replacement_clears_collisions sample_ext none
    event_ctrl_E (sample_state acc_crop [1, 0, 0]) acc_crop.path 1 acc_crop (0, acc_export)
    rfl rfl (by decide) (by decide) (by decide) (by decide) (by decide)
  refine ⟨st, h1, h2, h3 acc_export (by decide) (by decide) (by decide) (by decide) (by decide),
    ?_⟩
  rw [h4 acc_undo.path (by decide)]
  · decide
  · intro a ha hp
    have hmem : a ∈ sample_list := ha
    simp only [sample_list, List.mem_cons, List.mem_singleton, List.not_mem_nil, or_false]
      at hmem
    rcases hmem with rfl | rfl | rfl | rfl | rfl
    · exact absurd hp (by decide)
    · exact absurd hp (by decide)
    · exact absurd hp (by decide)
    · exact absurd hp (by decide)
    · decide

/-- C6 at the sample data: `Ctrl+E` on the `crop` shortcut, answered no, leaves
the accelerator map as it was. -/
theorem declined_conflict_keeps_bindings_witness :
    ∃ st, tree_key_press sample_ext none event_ctrl_E 0 (sample_state acc_crop [1, 0, 0])
        = some (true, st) ∧
      st.accel_map = (sample_state acc_crop [1, 0, 0]).accel_map ∧
      ∀ p, gtk_accel_map_lookup_entry st.accel_map p
        = gtk_accel_map_lookup_entry (sample_state acc_crop [1, 0, 0]).accel_map p :=
  declined_conflict_keeps_bindings sample_ext none event_ctrl_E 0
    (sample_state acc_crop [1, 0, 0]) acc_crop.path 1 acc_crop (0, acc_export)
    rfl rfl (by decide) (by decide) (by decide)

/-- C7 at the sample data: `c` on the `zoom` shortcut is applied at once. -/
theorem no_conflict_applies_binding_witness :
    ∃ st, tree_key_press sample_ext none event_c 0 (sample_state acc_zoom [2, 0])
        = some (true, st) ∧
      gtk_accel_map_lookup_entry st.accel_map acc_zoom.path
        = some ⟨sample_ext.gdk_keyval_to_lower event_c.keyval,
            sample_ext.dt_gui_translated_key_state event_c⟩ ∧
      ∀ p, p ≠ acc_zoom.path →
        gtk_accel_map_lookup_entry st.accel_map p
          = gtk_accel_map_lookup_entry (sample_state acc_zoom [2, 0]).accel_map p :=
  no_conflict_applies_binding sample_ext none event_c 0 (sample_state acc_zoom [2, 0])
    acc_zoom.path 3 acc_zoom rfl rfl (by decide) (by decide)

/-- C8 at the sample data: the two local shortcuts bound to `c` do not collide,
whichever of them is the one being remapped. -/
theorem local_exemption_symmetric_witness :
    delete_test sample_ext sample_map acc_crop acc_exposure
        = delete_test sample_ext sample_map acc_exposure acc_crop ∧
      conflict_test sample_map 99 0 acc_exposure acc_crop
        = conflict_test sample_map 99 0 acc_crop acc_exposure :=
  ⟨(local_exemption_symmetric sample_ext sample_map 99 0 acc_crop acc_exposure).1,
    (local_exemption_symmetric sample_ext sample_map 99 0 acc_crop acc_exposure).2
      (by decide) (by decide)⟩

/-- C9 at the sample data. After the row `a`, which the broken translation left
without children, was activated, a selection change clears the marker and
leaves the map alone, and the row shows the label `Ctrl+x` of the uninitialised
key although the map has no binding for its path. A selection change while the
`crop` shortcut is being remapped gives the row back the label of its
binding. -/
theorem selection_change_cancels_remap_witness :
    gtk_accel_map_lookup_entry broken_remap_state.accel_map "<Darktable>/a".toList = none ∧
      (tree_selection_changed stale_ext broken_remap_state).control.accel_remap_str = none ∧
      (tree_selection_changed stale_ext broken_remap_state).accel_map = broken_map ∧
      gtk_tree_model_get_iter (tree_selection_changed stale_ext broken_remap_state).model [3]
        = some (.mk ⟨"a".toList, "Ctrl+x".toList, "x".toList⟩ []) ∧
      gtk_tree_model_get_iter (tree_selection_changed sample_ext (sample_state acc_crop [1, 0, 0])).model
          [1, 0, 0]
        = some (.mk ⟨"commit".toList, "c".toList, "commit".toList⟩ []) :=
  have h := (selection_change_cancels_remap stale_ext broken_remap_state).2
    "<Darktable>/a".toList rfl
  have g := (selection_change_cancels_remap sample_ext (sample_state acc_crop [1, 0, 0])).2
    acc_crop.path rfl
  ⟨by decide, h.1, h.2.2.2.1,
    (h.2.2.2.2.2.1 [3] rfl).1 (.mk ⟨"a".toList, sample_ext.remap_prompt, "x".toList⟩ []) rfl,
    (g.2.2.2.2.2.1 [1, 0, 0] rfl).1
      (.mk ⟨"commit".toList, sample_ext.remap_prompt, "commit".toList⟩ []) rfl⟩

/-- C10 at the sample data: the leaf inserted for the `crop` shortcut below the
existing `iop` row reads back as the path of the shortcut. -/
theorem tree_insert_accel_path_roundtrip_witness :
    (tree_insert_accel sample_ext sample_map
        [.mk ⟨"global".toList, [], "global".toList⟩ [], .mk ⟨"iop".toList, [], "iop".toList⟩ []]
        acc_crop).2 = some [1, 0, 0] ∧
      path_to_accel (tree_insert_accel sample_ext sample_map
        [.mk ⟨"global".toList, [], "global".toList⟩ [], .mk ⟨"iop".toList, [], "iop".toList⟩ []]
        acc_crop).1 [1, 0, 0] 256 = some "<Darktable>/iop/crop/commit".toList :=
  ⟨rfl, (tree_insert_accel_path_roundtrip sample_ext sample_map
    [.mk ⟨"global".toList, [], "global".toList⟩ [], .mk ⟨"iop".toList, [], "iop".toList⟩ []]
    acc_crop [1, 0, 0] 256 ⟨"iop/crop/commit".toList, rfl⟩ (by decide) rfl).2⟩


/-! ## The search walks the tree in pre-order -/

theorem strstr_iff (needle : CStr) :
    ∀ haystack : CStr, strstr haystack needle = true ↔ needle <:+: haystack := by
  intro haystack
  induction haystack with
  | nil =>
    simp only [strstr, List.isEmpty_iff, List.infix_nil]
  | cons c haystack ih =>
    simp only [strstr, Bool.or_eq_true, List.isPrefixOf_iff_prefix, ih, List.infix_cons_iff]

theorem matching_paths_append (query : CStr) (l1 l2 : List (GtkTreePath × Row)) :
    matching_paths query (l1 ++ l2) = matching_paths query l1 ++ matching_paths query l2 := by
  simp [matching_paths]

theorem matching_paths_cons (query : CStr) (x : GtkTreePath × Row)
    (l : List (GtkTreePath × Row)) :
    matching_paths query (x :: l) =
      if strstr x.2.trans query = true then x.1 :: matching_paths query l
      else matching_paths query l := by
  by_cases h : query <:+: x.2.trans
  · simp [matching_paths, List.filter_cons, h, (strstr_iff query x.2.trans).mpr h]
  · have h2 : ¬ strstr x.2.trans query = true := fun hs => h ((strstr_iff _ _).mp hs)
    simp [matching_paths, List.filter_cons, h, h2]

mutual
/-- What `accel_search_children` does on a row, in terms of the matches of the
row and of the rows below it in pre-order. -/
theorem accel_search_children_spec (term : CStr) :
    ∀ (n : Node) (path : GtkTreePath) (sd : dt_gui_accel_search_t) (tv : GtkTreeView),
      sd.curr_found_count ≤ sd.last_found_count →
      (sd.last_found_count
          < sd.curr_found_count + (matching_paths term (preorder_node n path)).length →
        ∃ p, (matching_paths term (preorder_node n path))[
              (sd.last_found_count - sd.curr_found_count).toNat]? = some p ∧
          accel_search_children term n path sd tv =
            (true, { sd with curr_found_count := sd.last_found_count + 1,
                             last_found_count := sd.last_found_count + 1 },
              ⟨some p, some p⟩)) ∧
      (¬ sd.last_found_count
          < sd.curr_found_count + (matching_paths term (preorder_node n path)).length →
        accel_search_children term n path sd tv =
          (false, { sd with curr_found_count := sd.curr_found_count
              + (matching_paths term (preorder_node n path)).length }, tv))
  | .mk row children, path, sd, tv, hle => by
    have ih := accel_search_loop_spec term children path 0
    simp only [preorder_node, matching_paths_cons, accel_search_children]
    by_cases hm : strstr row.trans term = true
    · simp only [hm, if_true, true_and, List.length_cons, gt_iff_lt]
      by_cases hgt : sd.last_found_count < sd.curr_found_count + 1
      · have heq : sd.curr_found_count = sd.last_found_count := by omega
        simp only [hgt, if_true]
        constructor
        · intro _
          refine ⟨path, ?_, ?_⟩
          · simp [heq]
          · simp [heq]
        · intro hnot
          exfalso; apply hnot; push_cast; omega
      · simp only [hgt, if_false]
        have hle2 : ({ sd with curr_found_count := sd.curr_found_count + 1 } :
            dt_gui_accel_search_t).curr_found_count
            ≤ ({ sd with curr_found_count := sd.curr_found_count + 1 } :
              dt_gui_accel_search_t).last_found_count := by
          show sd.curr_found_count + 1 ≤ sd.last_found_count
          omega
        obtain ⟨ih1, ih2⟩ := ih { sd with curr_found_count := sd.curr_found_count + 1 } tv hle2
        constructor
        · intro hlt
          obtain ⟨p, hp, hres⟩ := ih1 (by
            show sd.last_found_count < sd.curr_found_count + 1 + _
            push_cast at hlt ⊢; omega)
          refine ⟨p, ?_, hres⟩
          have hidx : (sd.last_found_count - sd.curr_found_count).toNat
              = (sd.last_found_count - (sd.curr_found_count + 1)).toNat + 1 := by omega
          rw [hidx, List.getElem?_cons_succ]
          exact hp
        · intro hnot
          rw [ih2 (by
            show ¬ sd.last_found_count < sd.curr_found_count + 1 + _
            push_cast at hnot ⊢; omega)]
          simp only [Prod.mk.injEq, true_and, and_true]
          congr 1
          push_cast; omega
    · simp only [hm, if_false, false_and, Bool.false_eq_true]
      exact ih sd tv hle
/-- What the loop of the search does on the rows below a row. -/
theorem accel_search_loop_spec (term : CStr) :
    ∀ (rows : List Node) (parentpath : GtkTreePath) (i : Nat) (sd : dt_gui_accel_search_t)
      (tv : GtkTreeView),
      sd.curr_found_count ≤ sd.last_found_count →
      (sd.last_found_count
          < sd.curr_found_count + (matching_paths term (preorder_rows rows parentpath i)).length →
        ∃ p, (matching_paths term (preorder_rows rows parentpath i))[
              (sd.last_found_count - sd.curr_found_count).toNat]? = some p ∧
          accel_search_loop term rows parentpath i sd tv =
            (true, { sd with curr_found_count := sd.last_found_count + 1,
                             last_found_count := sd.last_found_count + 1 },
              ⟨some p, some p⟩)) ∧
      (¬ sd.last_found_count
          < sd.curr_found_count + (matching_paths term (preorder_rows rows parentpath i)).length →
        accel_search_loop term rows parentpath i sd tv =
          (false, { sd with curr_found_count := sd.curr_found_count
              + (matching_paths term (preorder_rows rows parentpath i)).length }, tv))
  | [], parentpath, i, sd, tv, hle => by
    simp only [preorder_rows, matching_paths, List.filter_nil, List.map_nil, List.length_nil,
      accel_search_loop, Nat.cast_zero, add_zero]
    constructor
    · intro h; omega
    · intro _; trivial
  | n :: rows, parentpath, i, sd, tv, hle => by
    obtain ⟨c1, c2⟩ := accel_search_children_spec term n (parentpath ++ [i]) sd tv hle
    have ih := accel_search_loop_spec term rows parentpath (i + 1)
    simp only [preorder_rows, matching_paths_append, List.length_append, accel_search_loop]
    by_cases hn : sd.last_found_count < sd.curr_found_count
        + (matching_paths term (preorder_node n (parentpath ++ [i]))).length
    · obtain ⟨p, hp, hres⟩ := c1 hn
      constructor
      · intro _
        refine ⟨p, ?_, ?_⟩
        · rw [List.getElem?_append_left (by omega)]
          exact hp
        · simp [hres]
      · intro hnot
        exfalso; apply hnot; push_cast; omega
    · have hres := c2 hn
      simp only [hres, Bool.false_eq_true, if_false]
      have hle2 : sd.curr_found_count
          + (matching_paths term (preorder_node n (parentpath ++ [i]))).length
          ≤ sd.last_found_count := by omega
      obtain ⟨ih1, ih2⟩ := ih { sd with curr_found_count := sd.curr_found_count
          + (matching_paths term (preorder_node n (parentpath ++ [i]))).length } tv hle2
      constructor
      · intro hlt
        obtain ⟨p, hp, hres2⟩ := ih1 (by
          show sd.last_found_count < sd.curr_found_count + _ + _
          push_cast at hlt ⊢; omega)
        refine ⟨p, ?_, hres2⟩
        rw [List.getElem?_append_right (by omega)]
        rw [← hp]
        congr 1
        show _ = (sd.last_found_count - (sd.curr_found_count + _)).toNat
        omega
      · intro hnot
        rw [ih2 (by
          show ¬ sd.last_found_count < sd.curr_found_count + _ + _
          push_cast at hnot ⊢; omega)]
        simp only [Prod.mk.injEq, true_and, and_true]
        congr 1
        push_cast; omega
end

/-- What one invocation of `accel_search` does, in terms of the matches of the
spec and of the number of matches shown so far. -/
theorem accel_search_spec (term : CStr) (model : GtkTreeStore) (sd : dt_gui_accel_search_t)
    (tv : GtkTreeView) (h0 : 0 ≤ shown_count term sd) :
    (shown_count term sd < (search_matches term model).length →
      ∃ p, (search_matches term model)[(shown_count term sd).toNat]? = some p ∧
        accel_search term model sd tv =
          (true, ⟨some term, shown_count term sd + 1, shown_count term sd + 1⟩,
            ⟨some p, some p⟩)) ∧
    (¬ shown_count term sd < (search_matches term model).length →
      accel_search term model sd tv =
        (false, ⟨some term, 0, (search_matches term model).length⟩, ⟨none, tv.cursor⟩)) := by
  have hsd2 : ∃ sd2 : dt_gui_accel_search_t, sd2 = ⟨some term, shown_count term sd, 0⟩ ∧
      accel_search term model sd tv =
        if (accel_search_loop term model [] 0 sd2 { tv with expanded_to := none }).1 = true
        then accel_search_loop term model [] 0 sd2 { tv with expanded_to := none }
        else (false,
          { (accel_search_loop term model [] 0 sd2 { tv with expanded_to := none }).2.1 with
            last_found_count := 0 },
          (accel_search_loop term model [] 0 sd2 { tv with expanded_to := none }).2.2) := by
    refine ⟨_, rfl, ?_⟩
    unfold accel_search shown_count
    by_cases hterm : sd.last_search_term = some term
    · simp [hterm]
    · have hcond : sd.last_search_term = none ∨ sd.last_search_term ≠ some term := Or.inr hterm
      simp only [hcond, if_true, hterm, if_false]
  obtain ⟨sd2, hsd2, hres⟩ := hsd2
  have hle : sd2.curr_found_count ≤ sd2.last_found_count := by rw [hsd2]; exact h0
  obtain ⟨l1, l2⟩ := accel_search_loop_spec term model [] 0 sd2 { tv with expanded_to := none } hle
  have hcurr : sd2.curr_found_count = 0 := by rw [hsd2]
  have hlast : sd2.last_found_count = shown_count term sd := by rw [hsd2]
  rw [hcurr, hlast] at l1 l2
  simp only [zero_add, sub_zero] at l1 l2
  constructor
  · intro hlt
    obtain ⟨p, hp, hloop⟩ := l1 hlt
    refine ⟨p, hp, ?_⟩
    rw [hres, hloop]
    simp [hsd2]
  · intro hnot
    have hloop := l2 hnot
    rw [hres, hloop]
    simp [hsd2, search_matches]

/-- The number of matches shown after `n` invocations that start from a new
query goes round the matches with period `m + 1`. -/
theorem shown_count_times (term : CStr) (model : GtkTreeStore) (sd : dt_gui_accel_search_t)
    (tv : GtkTreeView) (hfresh : shown_count term sd = 0) :
    ∀ n, shown_count term (accel_search_times term model n (sd, tv)).1
      = ((n % ((search_matches term model).length + 1) : Nat) : Int) := by
  intro n
  induction n with
  | zero => simp [accel_search_times, hfresh]
  | succ n ih =>
    simp only [accel_search_times]
    have hlt := Nat.mod_lt n (show 0 < (search_matches term model).length + 1 by omega)
    obtain ⟨a1, a2⟩ := accel_search_spec term model
      (accel_search_times term model n (sd, tv)).1
      (accel_search_times term model n (sd, tv)).2 (by rw [ih]; exact Int.natCast_nonneg _)
    rw [ih] at a1 a2
    by_cases hr : n % ((search_matches term model).length + 1) < (search_matches term model).length
    · obtain ⟨p, _, hres⟩ := a1 (by exact_mod_cast hr)
      rw [hres]
      simp only [shown_count, if_true]
      have : (n + 1) % ((search_matches term model).length + 1)
          = n % ((search_matches term model).length + 1) + 1 := by
        rw [Nat.add_mod]
        by_cases hm : (search_matches term model).length = 0
        · omega
        · have h1 : 1 % ((search_matches term model).length + 1) = 1 :=
            Nat.mod_eq_of_lt (by omega)
          rw [h1]
          exact Nat.mod_eq_of_lt (by omega)
      rw [this]
      push_cast
      rfl
    · have hres := a2 (by exact_mod_cast hr)
      rw [hres]
      simp only [shown_count, if_true]
      have hrm : n % ((search_matches term model).length + 1)
          = (search_matches term model).length := by omega
      have : (n + 1) % ((search_matches term model).length + 1) = 0 := by
        rw [Nat.add_mod, hrm]
        by_cases hm : (search_matches term model).length = 0
        · rw [hm]
        · have h1 : 1 % ((search_matches term model).length + 1) = 1 :=
            Nat.mod_eq_of_lt (by omega)
          rw [h1, Nat.mod_self]
      rw [this]
      rfl

theorem shown_count_fresh (term : CStr) (sd : dt_gui_accel_search_t)
    (hfresh : sd.last_search_term ≠ some term ∨ sd.last_found_count = 0) :
    shown_count term sd = 0 := by
  unfold shown_count
  split
  · rename_i h
    rcases hfresh with h1 | h1
    · exact absurd h h1
    · exact h1
  · rfl

/-- The invocation that follows `n` invocations from a new query: it selects the
match of index `n % (m + 1)` when there is one, and reports FALSE with the
count reset when that index is `m`. -/
theorem accel_search_nth (term : CStr) (model : GtkTreeStore) (sd : dt_gui_accel_search_t)
    (tv : GtkTreeView) (hfresh : sd.last_search_term ≠ some term ∨ sd.last_found_count = 0)
    (n : Nat) :
    (n % ((search_matches term model).length + 1) < (search_matches term model).length →
      ∃ p, (search_matches term model)[n % ((search_matches term model).length + 1)]? = some p ∧
        accel_search term model (accel_search_times term model n (sd, tv)).1
            (accel_search_times term model n (sd, tv)).2
          = (true, ⟨some term, ((n % ((search_matches term model).length + 1) : Nat) : Int) + 1,
              ((n % ((search_matches term model).length + 1) : Nat) : Int) + 1⟩,
            ⟨some p, some p⟩)) ∧
    (n % ((search_matches term model).length + 1) = (search_matches term model).length →
      accel_search term model (accel_search_times term model n (sd, tv)).1
          (accel_search_times term model n (sd, tv)).2
        = (false, ⟨some term, 0, (search_matches term model).length⟩,
            ⟨none, (accel_search_times term model n (sd, tv)).2.cursor⟩)) := by
  have hs := shown_count_times term model sd tv (shown_count_fresh term sd hfresh) n
  obtain ⟨a1, a2⟩ := accel_search_spec term model
    (accel_search_times term model n (sd, tv)).1
    (accel_search_times term model n (sd, tv)).2 (by rw [hs]; exact Int.natCast_nonneg _)
  rw [hs] at a1 a2
  constructor
  · intro hlt
    obtain ⟨p, hp, hres⟩ := a1 (by exact_mod_cast hlt)
    exact ⟨p, by simpa using hp, hres⟩
  · intro heq
    exact a2 (by rw [heq]; exact lt_irrefl _)

/-- C15: the order of the search. From a new query (or a shown count of 0), for
`1 ≤ j ≤ m` with `m` the number of rows whose localized label contains the
query, the `j`-th consecutive invocation of `accel_search` returns TRUE, puts
the cursor on the `j`-th such row in pre-order, and leaves `last_found_count`
equal to `j`. -/
theorem accel_search_order (term : CStr) (model : GtkTreeStore) (sd : dt_gui_accel_search_t)
    (tv : GtkTreeView) (j : Nat)
    (hfresh : sd.last_search_term ≠ some term ∨ sd.last_found_count = 0)
    (h1 : 1 ≤ j) (hj : j ≤ (search_matches term model).length) :
    ∃ p, (search_matches term model)[j - 1]? = some p ∧
      (accel_search term model (accel_search_times term model (j - 1) (sd, tv)).1
        (accel_search_times term model (j - 1) (sd, tv)).2).1 = true ∧
      (accel_search term model (accel_search_times term model (j - 1) (sd, tv)).1
        (accel_search_times term model (j - 1) (sd, tv)).2).2.2.cursor = some p ∧
      (accel_search term model (accel_search_times term model (j - 1) (sd, tv)).1
        (accel_search_times term model (j - 1) (sd, tv)).2).2.1.last_found_count = j := by
  have hmod : (j - 1) % ((search_matches term model).length + 1) = j - 1 :=
    Nat.mod_eq_of_lt (by omega)
  obtain ⟨p, hp, hres⟩ := (accel_search_nth term model sd tv hfresh (j - 1)).1
    (by rw [hmod]; omega)
  rw [hmod] at hp hres
  refine ⟨p, hp, ?_, ?_, ?_⟩
  · rw [hres]
  · rw [hres]
  · rw [hres]
    show ((j - 1 : Nat) : Int) + 1 = j
    omega

/-- C16 (the claim refuted): on the rows `Crop`, `Crop overlay`, `Color` the first
invocation with the query `cro` returns FALSE and leaves the view without a
cursor: it does not select `Crop`. -/
theorem accel_search_cro_finds_nothing :
    accel_search "cro".toList crop_model fresh_search fresh_view
      = (false, ⟨some "cro".toList, 0, 0⟩, ⟨none, none⟩) := by
  decide

/-- C16 (amended): the comparison is case-sensitive. With the query `Cro` the
first invocation selects `Crop`, the second `Crop overlay`, the third finds no
further match and resets the count, the fourth selects `Crop` again; with the
query `cro` each of four invocations returns FALSE. -/
theorem accel_search_crop_example :
    (accel_search "Cro".toList crop_model fresh_search fresh_view
        = (true, ⟨some "Cro".toList, 1, 1⟩, ⟨some [0], some [0]⟩) ∧
      accel_search "Cro".toList crop_model ⟨some "Cro".toList, 1, 1⟩ ⟨some [0], some [0]⟩
        = (true, ⟨some "Cro".toList, 2, 2⟩, ⟨some [1], some [1]⟩) ∧
      accel_search "Cro".toList crop_model ⟨some "Cro".toList, 2, 2⟩ ⟨some [1], some [1]⟩
        = (false, ⟨some "Cro".toList, 0, 2⟩, ⟨none, some [1]⟩) ∧
      accel_search "Cro".toList crop_model ⟨some "Cro".toList, 0, 2⟩ ⟨none, some [1]⟩
        = (true, ⟨some "Cro".toList, 1, 1⟩, ⟨some [0], some [0]⟩)) ∧
    ((accel_search "cro".toList crop_model
        (accel_search_times "cro".toList crop_model 0 (fresh_search, fresh_view)).1
        (accel_search_times "cro".toList crop_model 0 (fresh_search, fresh_view)).2).1 = false ∧
      (accel_search "cro".toList crop_model
        (accel_search_times "cro".toList crop_model 1 (fresh_search, fresh_view)).1
        (accel_search_times "cro".toList crop_model 1 (fresh_search, fresh_view)).2).1 = false ∧
      (accel_search "cro".toList crop_model
        (accel_search_times "cro".toList crop_model 2 (fresh_search, fresh_view)).1
        (accel_search_times "cro".toList crop_model 2 (fresh_search, fresh_view)).2).1 = false ∧
      (accel_search "cro".toList crop_model
        (accel_search_times "cro".toList crop_model 3 (fresh_search, fresh_view)).1
        (accel_search_times "cro".toList crop_model 3 (fresh_search, fresh_view)).2).1
        = false) := by
  refine ⟨⟨by decide, by decide, by decide, by decide⟩, by decide, by decide, by decide,
    by decide⟩

/-- C17: the search goes round the matches. With `m` the number of matching rows
and invocations that start from a new query: the invocation after `m`
invocations returns FALSE and sets `last_found_count` to 0; for `m ≥ 1` the
invocation after that returns TRUE with the cursor on the first match; in
general the invocation after `n` invocations selects the match of index
`n % (m + 1)`, or returns FALSE with the count 0 when that index is `m`; for
`m = 0` every invocation returns FALSE with `last_found_count` 0. -/
theorem accel_search_cycle (term : CStr) (model : GtkTreeStore) (sd : dt_gui_accel_search_t)
    (tv : GtkTreeView)
    (hfresh : sd.last_search_term ≠ some term ∨ sd.last_found_count = 0) :
    ((accel_search term model
        (accel_search_times term model (search_matches term model).length (sd, tv)).1
        (accel_search_times term model (search_matches term model).length (sd, tv)).2).1 = false ∧
      (accel_search term model
        (accel_search_times term model (search_matches term model).length (sd, tv)).1
        (accel_search_times term model (search_matches term model).length (sd, tv)).2
        ).2.1.last_found_count = 0) ∧
    (∀ p rest, search_matches term model = p :: rest →
      (accel_search term model
        (accel_search_times term model ((search_matches term model).length + 1) (sd, tv)).1
        (accel_search_times term model ((search_matches term model).length + 1) (sd, tv)).2).1
          = true ∧
      (accel_search term model
        (accel_search_times term model ((search_matches term model).length + 1) (sd, tv)).1
        (accel_search_times term model ((search_matches term model).length + 1) (sd, tv)).2
        ).2.2.cursor = some p) ∧
    (∀ n,
      (n % ((search_matches term model).length + 1) < (search_matches term model).length →
        (accel_search term model (accel_search_times term model n (sd, tv)).1
          (accel_search_times term model n (sd, tv)).2).1 = true ∧
        (accel_search term model (accel_search_times term model n (sd, tv)).1
          (accel_search_times term model n (sd, tv)).2).2.2.cursor
          = (search_matches term model)[n % ((search_matches term model).length + 1)]?) ∧
      (n % ((search_matches term model).length + 1) = (search_matches term model).length →
        (accel_search term model (accel_search_times term model n (sd, tv)).1
          (accel_search_times term model n (sd, tv)).2).1 = false ∧
        (accel_search term model (accel_search_times term model n (sd, tv)).1
          (accel_search_times term model n (sd, tv)).2).2.1.last_found_count = 0)) ∧
    (search_matches term model = [] →
      ∀ n, (accel_search term model (accel_search_times term model n (sd, tv)).1
          (accel_search_times term model n (sd, tv)).2).1 = false ∧
        (accel_search term model (accel_search_times term model n (sd, tv)).1
          (accel_search_times term model n (sd, tv)).2).2.1.last_found_count = 0) := by
  have hgen : ∀ n,
      (n % ((search_matches term model).length + 1) < (search_matches term model).length →
        (accel_search term model (accel_search_times term model n (sd, tv)).1
          (accel_search_times term model n (sd, tv)).2).1 = true ∧
        (accel_search term model (accel_search_times term model n (sd, tv)).1
          (accel_search_times term model n (sd, tv)).2).2.2.cursor
          = (search_matches term model)[n % ((search_matches term model).length + 1)]?) ∧
      (n % ((search_matches term model).length + 1) = (search_matches term model).length →
        (accel_search term model (accel_search_times term model n (sd, tv)).1
          (accel_search_times term model n (sd, tv)).2).1 = false ∧
        (accel_search term model (accel_search_times term model n (sd, tv)).1
          (accel_search_times term model n (sd, tv)).2).2.1.last_found_count = 0) := by
    intro n
    obtain ⟨a1, a2⟩ := accel_search_nth term model sd tv hfresh n
    constructor
    · intro hlt
      obtain ⟨p, hp, hres⟩ := a1 hlt
      rw [hres, hp]
      exact ⟨rfl, rfl⟩
    · intro heq
      rw [a2 heq]
      exact ⟨rfl, rfl⟩
  refine ⟨?_, ?_, hgen, ?_⟩
  · exact (hgen (search_matches term model).length).2 (Nat.mod_eq_of_lt (by omega))
  · intro p rest hms
    have hmod : ((search_matches term model).length + 1)
        % ((search_matches term model).length + 1) = 0 := Nat.mod_self _
    have hpos : 0 < (search_matches term model).length := by rw [hms]; simp
    obtain ⟨h1, h2⟩ := (hgen ((search_matches term model).length + 1)).1 (by rw [hmod]; exact hpos)
    refine ⟨h1, ?_⟩
    rw [h2, hmod, hms]
    simp
  · intro hms n
    have hlen : (search_matches term model).length = 0 := by rw [hms]; rfl
    exact (hgen n).2 (by rw [hlen]; simp [Nat.mod_one])

/-- C18: a changed query resets the cycle. Whatever `last_found_count` and
`curr_found_count` hold, an invocation whose query is not `last_search_term`
(NULL included) returns TRUE with the cursor on the first match of the new
query in pre-order and the count 1, or returns FALSE with the count 0 when the
new query has no match. -/
theorem accel_search_changed_query (term : CStr) (model : GtkTreeStore)
    (sd : dt_gui_accel_search_t) (tv : GtkTreeView)
    (hnew : sd.last_search_term ≠ some term) :
    (∀ p rest, search_matches term model = p :: rest →
      accel_search term model sd tv = (true, ⟨some term, 1, 1⟩, ⟨some p, some p⟩)) ∧
    (search_matches term model = [] →
      accel_search term model sd tv = (false, ⟨some term, 0, 0⟩, ⟨none, tv.cursor⟩)) := by
  have hs : shown_count term sd = 0 := shown_count_fresh term sd (Or.inl hnew)
  obtain ⟨a1, a2⟩ := accel_search_spec term model sd tv (by rw [hs])
  rw [hs] at a1 a2
  constructor
  · intro p rest hms
    obtain ⟨q, hq, hres⟩ := a1 (by rw [hms]; simp)
    rw [hms] at hq
    simp only [Int.toNat_zero, List.getElem?_cons_zero, Option.some.injEq] at hq
    rw [hres, hq]
    rfl
  · intro hms
    rw [a2 (by rw [hms]; simp), hms]
    rfl


/-- C15 at the sample data: the second invocation with the query `Cro` puts the
cursor on `Crop overlay` and leaves the count 2. -/
theorem accel_search_order_witness :
    ∃ p, (search_matches "Cro".toList crop_model)[2 - 1]? = some p ∧
      (accel_search "Cro".toList crop_model
        (accel_search_times "Cro".toList crop_model (2 - 1) (fresh_search, fresh_view)).1
        (accel_search_times "Cro".toList crop_model (2 - 1) (fresh_search, fresh_view)).2).1
          = true ∧
      (accel_search "Cro".toList crop_model
        (accel_search_times "Cro".toList crop_model (2 - 1) (fresh_search, fresh_view)).1
        (accel_search_times "Cro".toList crop_model (2 - 1) (fresh_search, fresh_view)).2
        ).2.2.cursor = some p ∧
      (accel_search "Cro".toList crop_model
        (accel_search_times "Cro".toList crop_model (2 - 1) (fresh_search, fresh_view)).1
        (accel_search_times "Cro".toList crop_model (2 - 1) (fresh_search, fresh_view)).2
        ).2.1.last_found_count = (2 : Nat) :=
  accel_search_order "Cro".toList crop_model fresh_search fresh_view 2 (Or.inl (by decide))
    (by decide) (by decide)

/-- C17 at the sample data: with the query `Cro`, which has two matches, the
third invocation returns FALSE with the count 0 and the fourth selects `Crop`. -/
theorem accel_search_cycle_witness :
    ((accel_search "Cro".toList crop_model
        (accel_search_times "Cro".toList crop_model 2 (fresh_search, fresh_view)).1
        (accel_search_times "Cro".toList crop_model 2 (fresh_search, fresh_view)).2).1 = false ∧
      (accel_search "Cro".toList crop_model
        (accel_search_times "Cro".toList crop_model 2 (fresh_search, fresh_view)).1
        (accel_search_times "Cro".toList crop_model 2 (fresh_search, fresh_view)).2
        ).2.1.last_found_count = 0) ∧
    ((accel_search "Cro".toList crop_model
        (accel_search_times "Cro".toList crop_model 3 (fresh_search, fresh_view)).1
        (accel_search_times "Cro".toList crop_model 3 (fresh_search, fresh_view)).2).1 = true ∧
      (accel_search "Cro".toList crop_model
        (accel_search_times "Cro".toList crop_model 3 (fresh_search, fresh_view)).1
        (accel_search_times "Cro".toList crop_model 3 (fresh_search, fresh_view)).2
        ).2.2.cursor = some [0]) :=
  ⟨(accel_search_cycle "Cro".toList crop_model fresh_search fresh_view
      (Or.inl (by decide))).1,
    (accel_search_cycle "Cro".toList crop_model fresh_search fresh_view
      (Or.inl (by decide))).2.1 [0] [[1]] (by decide)⟩

/-- C18 at the sample data: after two matches of `Cro` have been shown, the new
query `Col` selects `Color`, and the new query `xyz` finds nothing. -/
theorem accel_search_changed_query_witness :
    accel_search "Col".toList crop_model ⟨some "Cro".toList, 2, 2⟩ ⟨some [1], some [1]⟩
        = (true, ⟨some "Col".toList, 1, 1⟩, ⟨some [2], some [2]⟩) ∧
      accel_search "xyz".toList crop_model ⟨some "Cro".toList, 2, 2⟩ ⟨some [1], some [1]⟩
        = (false, ⟨some "xyz".toList, 0, 0⟩, ⟨none, some [1]⟩) :=
  ⟨(accel_search_changed_query "Col".toList crop_model ⟨some "Cro".toList, 2, 2⟩
      ⟨some [1], some [1]⟩ (by decide)).1 [2] [] (by decide),
    (accel_search_changed_query "xyz".toList crop_model ⟨some "Cro".toList, 2, 2⟩
      ⟨some [1], some [1]⟩ (by decide)).2 (by decide)⟩

/-! ## The order of the rows -/

/-- C20 (the claim refuted): a branch row `modules` compared with a leaf row
whose label `global ` ends with a space gives 3, a positive number, although
the first row is a branch and the second a leaf. -/
theorem compare_rows_accels_leaf_before_branch :
    gtk_tree_model_iter_has_child
        (.mk ⟨"modules".toList, [], "modules".toList⟩
          [.mk ⟨"show".toList, [], "show".toList⟩ []]) = true ∧
      gtk_tree_model_iter_has_child (.mk ⟨"global".toList, [], "global ".toList⟩ []) = false ∧
      compare_rows_accels strcoll_C
        (.mk ⟨"modules".toList, [], "modules".toList⟩ [.mk ⟨"show".toList, [], "show".toList⟩ []])
        (.mk ⟨"global".toList, [], "global ".toList⟩ []) = some 3 := by
  decide

/-- C20 (amended): branches before leaves among the rows that are not marked as
default. For two rows whose labels are not empty and do not end with a space,
`compare_rows_accels(a, b)` is negative when `a` has children and `b` has none,
and positive when `a` has none and `b` has children, whatever `strcoll` says. -/
theorem compare_rows_accels_branch_first (strcoll : CStr → CStr → Int) (a b : Node)
    (a_last b_last : Char)
    (ha : a.row.trans.getLast? = some a_last) (hb : b.row.trans.getLast? = some b_last)
    (hla : a_last ≠ ' ') (hlb : b_last ≠ ' ') :
    ∃ res, compare_rows_accels strcoll a b = some res ∧
      (gtk_tree_model_iter_has_child a = true → gtk_tree_model_iter_has_child b = false →
        res < 0) ∧
      (gtk_tree_model_iter_has_child a = false → gtk_tree_model_iter_has_child b = true →
        0 < res) := by
  unfold compare_rows_accels
  simp only [ha, hb, hla, hlb, if_false]
  refine ⟨_, rfl, ?_, ?_⟩
  · intro h1 h2
    simp only [h1, h2, if_true, Bool.false_eq_true, if_false]
    split <;> omega
  · intro h1 h2
    simp only [h1, h2, if_true, Bool.false_eq_true, if_false]
    split <;> omega

/-- C20 at the sample data: the branch row `modules` comes before the leaf row
`global`, and the leaf row after the branch row. -/
theorem compare_rows_accels_branch_first_witness :
    ∃ res, compare_rows_accels strcoll_C
        (.mk ⟨"modules".toList, [], "modules".toList⟩ [.mk ⟨"show".toList, [], "show".toList⟩ []])
        (.mk ⟨"global".toList, [], "global".toList⟩ []) = some res ∧
      (gtk_tree_model_iter_has_child
          (.mk ⟨"modules".toList, [], "modules".toList⟩
            [.mk ⟨"show".toList, [], "show".toList⟩ []]) = true →
        gtk_tree_model_iter_has_child (.mk ⟨"global".toList, [], "global".toList⟩ []) = false →
        res < 0) ∧
      (gtk_tree_model_iter_has_child
          (.mk ⟨"modules".toList, [], "modules".toList⟩
            [.mk ⟨"show".toList, [], "show".toList⟩ []]) = false →
        gtk_tree_model_iter_has_child (.mk ⟨"global".toList, [], "global".toList⟩ []) = true →
        0 < res) :=
  compare_rows_accels_branch_first strcoll_C
    (.mk ⟨"modules".toList, [], "modules".toList⟩ [.mk ⟨"show".toList, [], "show".toList⟩ []])
    (.mk ⟨"global".toList, [], "global".toList⟩ []) 's' 'l' (by decide) (by decide)
    (by decide) (by decide)

/-! ## The ISO column of a preset -/

theorem CFloat.eq_iff (a b : CFloat) : a.eq b = true ↔ a.value = b.value := by
  unfold CFloat.eq CFloat.value
  rw [decide_eq_true_iff, div_eq_div_iff (by positivity) (by positivity)]
  constructor
  · intro h
    have := congrArg (fun z : Int => (z : ℚ)) h
    simpa using this
  · intro h
    have h2 : ((a.num * ((2 ^ b.exp2 : Nat) : Int) : Int) : ℚ)
        = ((b.num * ((2 ^ a.exp2 : Nat) : Int) : Int) : ℚ) := by
      simpa using h
    exact_mod_cast h2

/-- The ISO column where the conversions are defined: `%` exactly for the pair
`(0, FLT_MAX)` among the pairs the code can format, and otherwise the two
values cut off to integers, joined by a dash. -/
theorem tree_insert_presets_iso_in_range (iso_min iso_max : CFloat) :
    (iso_min.value = 0 ∧ iso_max.value = FLT_MAX.value →
      tree_insert_presets_iso true iso_min iso_max = some "%".toList) ∧
    (∀ a b, ¬(iso_min.value = 0 ∧ iso_max.value = FLT_MAX.value) →
      to_size_t iso_min = some a → to_size_t iso_max = some b →
      tree_insert_presets_iso true iso_min iso_max
        = some (printf_zu a ++ " – ".toList ++ printf_zu b)) := by
  have hz : CFloat.zero.value = 0 := by simp [CFloat.value, CFloat.zero]
  constructor
  · rintro ⟨h1, h2⟩
    have e1 : iso_min.eq CFloat.zero = true := (CFloat.eq_iff _ _).mpr (by rw [h1, hz])
    have e2 : iso_max.eq FLT_MAX = true := (CFloat.eq_iff _ _).mpr h2
    simp [tree_insert_presets_iso, e1, e2]
  · intro a b hnot ha hb
    have hc : ¬(iso_min.eq CFloat.zero = true ∧ iso_max.eq FLT_MAX = true) := by
      rintro ⟨e1, e2⟩
      exact hnot ⟨by rw [(CFloat.eq_iff _ _).mp e1, hz], (CFloat.eq_iff _ _).mp e2⟩
    simp [tree_insert_presets_iso, hc, ha, hb]

/-- C19 (the code at the failing input): for `iso_min = 100` and
`iso_max = FLT_MAX` the code takes the branch that formats both values with
`%zu`, and the conversion of `FLT_MAX` to `size_t` has no defined result; the
two examples of the spec come out as stated. -/
theorem tree_insert_presets_iso_unbounded_max :
    tree_insert_presets_iso true ⟨100, 0⟩ FLT_MAX = none ∧
      to_size_t FLT_MAX = none ∧
      tree_insert_presets_iso true ⟨0, 0⟩ FLT_MAX = some "%".toList ∧
      tree_insert_presets_iso true ⟨100, 0⟩ ⟨400, 0⟩ = some "100 – 400".toList := by
  decide


/-! ## Inserting into the tree: what stays and what is added -/

theorem rows_count_append (a b : List Node) :
    rows_count (a ++ b) = rows_count a + rows_count b := by
  induction a with
  | nil => simp [rows_count]
  | cons n a ih =>
    show rows_count (n :: (a ++ b)) = rows_count (n :: a) + rows_count b
    simp only [rows_count]
    rw [ih]; omega

theorem rows_count_set :
    ∀ (rows : List Node) (i : Nat) (n x : Node), rows[i]? = some n →
      rows_count (rows.set i x) + n.count = rows_count rows + x.count := by
  intro rows
  induction rows with
  | nil => intro i n x h; simp at h
  | cons r rows ih =>
    intro i n x h
    cases i with
    | zero =>
      simp only [List.getElem?_cons_zero, Option.some.injEq] at h
      subst h
      show rows_count (x :: rows) + r.count = rows_count (r :: rows) + x.count
      simp only [rows_count]
      omega
    | succ i =>
      simp only [List.getElem?_cons_succ] at h
      show rows_count (r :: rows.set i x) + n.count = rows_count (r :: rows) + x.count
      simp only [rows_count]
      have := ih i n x h
      omega

theorem find_sibling_set (node : CStr) :
    ∀ (rows : List Node) (i0 j : Nat) (n : Node) (c : List Node),
      find_sibling node rows i0 = some (i0 + j, n) →
      find_sibling node (rows.set j (.mk n.row c)) i0 = some (i0 + j, .mk n.row c) := by
  intro rows
  induction rows with
  | nil => intro i0 j n c h; simp [find_sibling] at h
  | cons r rows ih =>
    intro i0 j n c h
    unfold find_sibling at h
    by_cases hr : r.row.accel = node
    · simp only [hr, if_true, Option.some.injEq, Prod.mk.injEq] at h
      obtain ⟨h1, h2⟩ := h
      have hj : j = 0 := by omega
      subst hj; subst h2
      simp [find_sibling, Node.row_mk, hr]
    · simp only [hr, if_false] at h
      obtain ⟨j2, hj2, _, _⟩ := find_sibling_some _ _ _ _ _ h
      cases j with
      | zero => omega
      | succ j =>
        have h2 : find_sibling node rows (i0 + 1) = some (i0 + 1 + j, n) := by
          rw [h]; congr 2; omega
        have := ih (i0 + 1) j n c h2
        simp only [List.set_cons_succ, find_sibling, hr, if_false, this]
        congr 2; omega

theorem find_sibling_append_none (node : CStr) (x : Node) (hx : x.row.accel = node) :
    ∀ (rows : List Node) (i0 : Nat), find_sibling node rows i0 = none →
      find_sibling node (rows ++ [x]) i0 = some (i0 + rows.length, x) := by
  intro rows
  induction rows with
  | nil => intro i0 _; simp [find_sibling, hx]
  | cons r rows ih =>
    intro i0 h
    unfold find_sibling at h
    by_cases hr : r.row.accel = node
    · simp [hr] at h
    · simp only [hr, if_false] at h
      rw [List.cons_append, find_sibling, if_neg hr, ih (i0 + 1) h, List.length_cons]
      have : i0 + 1 + rows.length = i0 + (rows.length + 1) := by omega
      rw [this]

theorem find_sibling_none_iff (node : CStr) :
    ∀ (rows : List Node) (i0 : Nat),
      find_sibling node rows i0 = none ↔ ∀ r ∈ rows, r.row.accel ≠ node := by
  intro rows
  induction rows with
  | nil => intro i0; simp [find_sibling]
  | cons r rows ih =>
    intro i0
    unfold find_sibling
    by_cases hr : r.row.accel = node
    · simp [hr]
    · simp [hr, ih (i0 + 1)]

/-- An insertion keeps every row there was, at its tree path and with its
columns. -/
theorem tree_insert_rec_keeps_rows (ext : Externals) :
    ∀ (fuel : Nat) (rows : List Node) (ap tp : CStr) (k m : Nat) (q : GtkTreePath) (n : Node),
      gtk_tree_model_get_iter rows q = some n →
      (gtk_tree_model_get_iter (tree_insert_rec_fuel ext fuel rows ap tp k m).1 q).map Node.row
        = some n.row := by
  intro fuel
  induction fuel with
  | zero => intro rows ap tp k m q n h; simp [tree_insert_rec_fuel, h]
  | succ fuel ih =>
    intro rows ap tp k m q n h
    have happ : ∀ x : Node,
        (gtk_tree_model_get_iter (rows ++ [x]) q).map Node.row = some n.row := by
      intro x
      match q, h with
      | [j], h =>
        simp only [gtk_tree_model_get_iter] at h ⊢
        have hj : j < rows.length := by
          by_contra hge
          rw [List.getElem?_eq_none (by omega)] at h
          cases h
        rw [List.getElem?_append_left hj, h]; rfl
      | j :: j2 :: rest, h =>
        simp only [gtk_tree_model_get_iter] at h ⊢
        have hj : j < rows.length := by
          by_contra hge
          rw [List.getElem?_eq_none (by omega)] at h
          simp at h
        rw [List.getElem?_append_left hj]
        cases hr : rows[j]? with
        | none => simp [hr] at h
        | some c => simp only [hr] at h ⊢; rw [h]; rfl
    unfold tree_insert_rec_fuel
    by_cases hap : ap = []
    · simp [hap, h]
    · simp only [hap, if_false]
      split
      · rename_i e trans_end he hte
        cases hsc : (trans_scan_loop ap (List.take trans_end tp) (some e)).2 with
        | none => simp [h]
        | some e1 =>
          simp only
          cases hf : find_sibling (List.take e1 ap) rows 0 with
          | none => simp only; exact happ _
          | some found =>
            obtain ⟨i, c⟩ := found
            simp only
            obtain ⟨j, hj, hn, _⟩ := find_sibling_some _ _ _ _ _ hf
            have hij : i = j := by omega
            subst hij
            have hi : i < rows.length := by
              by_contra hge
              rw [List.getElem?_eq_none (by omega)] at hn
              cases hn
            match q, h with
            | [j], h =>
              simp only [gtk_tree_model_get_iter] at h ⊢
              by_cases hji : j = i
              · subst hji
                rw [List.getElem?_set_self hi]
                rw [hn] at h
                simp only [Option.some.injEq] at h
                subst h
                rfl
              · rw [List.getElem?_set_ne (fun e => hji e.symm), h]; rfl
            | j :: j2 :: rest, h =>
              simp only [gtk_tree_model_get_iter] at h ⊢
              by_cases hji : j = i
              · subst hji
                rw [List.getElem?_set_self hi]
                rw [hn] at h
                simp only [Node.children_mk] at h ⊢
                exact ih _ _ _ _ _ _ n h
              · rw [List.getElem?_set_ne (fun e => hji e.symm)]
                cases hr : rows[j]? with
                | none => simp [hr] at h
                | some c2 => simp only [hr] at h ⊢; rw [h]; rfl
      · exact happ _

theorem tree_insert_rec_fuel_leaf (ext : Externals) (fuel : Nat) (rows : List Node)
    (ap tp : CStr) (k m : Nat) (hap : ¬ ap = [])
    (hnot : ∀ e trans_end, strchr ap '/' = some e → strchr tp '/' = some trans_end → False) :
    tree_insert_rec_fuel ext (fuel + 1) rows ap tp k m
      = (rows ++ [.mk ⟨ap, ext.keyboard_label (ext.gtk_accelerator_get_label k m),
          g_strdelimit tp⟩ []], some [rows.length]) := by
  rw [tree_insert_rec_fuel]
  simp only [hap, if_false]

/-- Inserting the same pair of paths a second time appends one more leaf row:
the second call reports another position and the store has one row more. -/
theorem tree_insert_rec_twice (ext : Externals) :
    ∀ (fuel : Nat) (rows : List Node) (ap tp : CStr) (k1 m1 k2 m2 : Nat) (p : GtkTreePath),
      (tree_insert_rec_fuel ext fuel rows ap tp k1 m1).2 = some p →
      ∃ p2, (tree_insert_rec_fuel ext fuel
            (tree_insert_rec_fuel ext fuel rows ap tp k1 m1).1 ap tp k2 m2).2 = some p2 ∧
        p2 ≠ p ∧
        rows_count (tree_insert_rec_fuel ext fuel
            (tree_insert_rec_fuel ext fuel rows ap tp k1 m1).1 ap tp k2 m2).1
          = rows_count (tree_insert_rec_fuel ext fuel rows ap tp k1 m1).1 + 1 := by
  intro fuel
  induction fuel with
  | zero => intro rows ap tp k1 m1 k2 m2 p h; simp [tree_insert_rec_fuel] at h
  | succ fuel ih =>
    intro rows ap tp k1 m1 k2 m2 p h
    unfold tree_insert_rec_fuel at h
    by_cases hap : ap = []
    · simp [hap] at h
    · simp only [hap, if_false] at h
      split at h
      · rename_i e trans_end he hte
        cases hsc : (trans_scan_loop ap (List.take trans_end tp) (some e)).2 with
        | none => simp [hsc] at h
        | some e1 =>
          simp only [hsc] at h
          cases hf : find_sibling (List.take e1 ap) rows 0 with
          | some found =>
            obtain ⟨i, n⟩ := found
            simp only [hf] at h
            obtain ⟨j, hj, hn, hacc⟩ := find_sibling_some _ _ _ _ _ hf
            have hij : i = j := by omega
            subst hij
            have hi : i < rows.length := by
              by_contra hge
              rw [List.getElem?_eq_none (by omega)] at hn
              cases hn
            cases hr : (tree_insert_rec_fuel ext fuel n.children (List.drop (e1 + 1) ap)
                (List.drop (trans_end + 1) tp) k1 m1).2 with
            | none => simp [hr] at h
            | some pp =>
              simp only [hr, Option.map_some', Option.some.injEq] at h
              subst h
              obtain ⟨p2, hp2, hne, hcnt⟩ := ih n.children (List.drop (e1 + 1) ap)
                (List.drop (trans_end + 1) tp) k1 m1 k2 m2 pp hr
              have hf2 := find_sibling_set (List.take e1 ap) rows 0 i n
                (tree_insert_rec_fuel ext fuel n.children (List.drop (e1 + 1) ap)
                  (List.drop (trans_end + 1) tp) k1 m1).1 (by simpa using hf)
              simp only [Nat.zero_add] at hf2
              have e1' : tree_insert_rec_fuel ext (fuel + 1) rows ap tp k1 m1
                  = (rows.set i (.mk n.row (tree_insert_rec_fuel ext fuel n.children
                      (List.drop (e1 + 1) ap) (List.drop (trans_end + 1) tp) k1 m1).1),
                    some (i :: pp)) := by
                rw [tree_insert_rec_fuel]
                simp only [hap, if_false, he, hte, hsc, hf, hr, Option.map_some']
              rw [e1']
              simp only
              rw [tree_insert_rec_fuel]
              simp only [hap, if_false, he, hte, hsc, hf2, Node.children_mk, Node.row_mk, hp2,
                Option.map_some', List.set_set]
              refine ⟨i :: p2, rfl, ?_, ?_⟩
              · intro hcon
                exact hne (List.cons.inj hcon).2
              · have s1 := rows_count_set rows i n (.mk n.row (tree_insert_rec_fuel ext fuel
                  n.children (List.drop (e1 + 1) ap) (List.drop (trans_end + 1) tp) k1 m1).1) hn
                have s2 := rows_count_set rows i n (.mk n.row (tree_insert_rec_fuel ext fuel
                  (tree_insert_rec_fuel ext fuel n.children (List.drop (e1 + 1) ap)
                    (List.drop (trans_end + 1) tp) k1 m1).1
                  (List.drop (e1 + 1) ap) (List.drop (trans_end + 1) tp) k2 m2).1) hn
                simp only [Node.count] at s1 s2
                omega
          | none =>
            simp only [hf] at h
            cases hr : (tree_insert_rec_fuel ext fuel [] (List.drop (e1 + 1) ap)
                (List.drop (trans_end + 1) tp) k1 m1).2 with
            | none => simp [hr] at h
            | some pp =>
              simp only [hr, Option.map_some', Option.some.injEq] at h
              subst h
              obtain ⟨p2, hp2, hne, hcnt⟩ := ih [] (List.drop (e1 + 1) ap)
                (List.drop (trans_end + 1) tp) k1 m1 k2 m2 pp hr
              have hf2 := find_sibling_append_none (List.take e1 ap)
                (.mk ⟨List.take e1 ap, [],
                    (trans_scan_loop ap (List.take trans_end tp) (some e)).1⟩
                  (tree_insert_rec_fuel ext fuel [] (List.drop (e1 + 1) ap)
                    (List.drop (trans_end + 1) tp) k1 m1).1) rfl rows 0 hf
              simp only [Nat.zero_add] at hf2
              have e1' : tree_insert_rec_fuel ext (fuel + 1) rows ap tp k1 m1
                  = (rows ++ [.mk ⟨List.take e1 ap, [],
                      (trans_scan_loop ap (List.take trans_end tp) (some e)).1⟩
                      (tree_insert_rec_fuel ext fuel [] (List.drop (e1 + 1) ap)
                        (List.drop (trans_end + 1) tp) k1 m1).1],
                    some (rows.length :: pp)) := by
                rw [tree_insert_rec_fuel]
                simp only [hap, if_false, he, hte, hsc, hf, hr, Option.map_some']
              rw [e1']
              simp only
              rw [tree_insert_rec_fuel]
              simp only [hap, if_false, he, hte, hsc, hf2, Node.children_mk, Node.row_mk, hp2,
                Option.map_some']
              refine ⟨rows.length :: p2, rfl, ?_, ?_⟩
              · intro hcon
                exact hne (List.cons.inj hcon).2
              · rw [List.set_append_right _ _ (le_refl _)]
                simp only [Nat.sub_self, List.set_cons_zero, rows_count_append, rows_count,
                  Node.count]
                omega
      · rename_i hnot
        simp only [Option.some.injEq] at h
        subst h
        rw [tree_insert_rec_fuel_leaf ext fuel rows ap tp k1 m1 hap hnot]
        simp only
        rw [tree_insert_rec_fuel_leaf ext fuel _ ap tp k2 m2 hap hnot]
        refine ⟨_, rfl, ?_, ?_⟩
        · simp
        · simp only [rows_count_append, rows_count, Node.count]


/-- C11 (the claim refuted): inserting the accelerator `<Darktable>/a/b` twice
into an empty store gives two rows after the first insertion and three after
the second, not the same number. -/
theorem tree_insert_accel_twice_adds_row :
    rows_count (tree_insert_accel sample_ext [] [] acc_ab).1 = 2 ∧
      rows_count (tree_insert_accel sample_ext []
        (tree_insert_accel sample_ext [] [] acc_ab).1 acc_ab).1 = 3 := by
  decide

/-- C11 (amended): a second insertion of the same accelerator appends a second
leaf. When the first `tree_insert_accel` inserts a leaf row, the second one
inserts a leaf row at another tree path, the store has exactly one row more
than after the first insertion (no branch row is repeated), the new leaf shows
the label of the binding of the second insertion and the first leaf keeps the
label of the binding of the first. -/
theorem tree_insert_accel_twice (ext : Externals) (map1 map2 : AccelMap) (model : GtkTreeStore)
    (accel : dt_accel_t) (p : GtkTreePath)
    (hleaf : (tree_insert_accel ext map1 model accel).2 = some p) :
    ∃ p2, (tree_insert_accel ext map2 (tree_insert_accel ext map1 model accel).1 accel).2
        = some p2 ∧
      p2 ≠ p ∧
      rows_count (tree_insert_accel ext map2 (tree_insert_accel ext map1 model accel).1 accel).1
        = rows_count (tree_insert_accel ext map1 model accel).1 + 1 ∧
      (∃ a t, gtk_tree_model_get_iter
          (tree_insert_accel ext map2 (tree_insert_accel ext map1 model accel).1 accel).1 p2
        = some (.mk ⟨a, ext.keyboard_label (ext.gtk_accelerator_get_label
            (lookup_key ext map2 accel.path).accel_key
            (lookup_key ext map2 accel.path).accel_mods), t⟩ [])) ∧
      (∃ a t, (gtk_tree_model_get_iter
          (tree_insert_accel ext map2 (tree_insert_accel ext map1 model accel).1 accel).1 p).map
            Node.row
        = some ⟨a, ext.keyboard_label (ext.gtk_accelerator_get_label
            (lookup_key ext map1 accel.path).accel_key
            (lookup_key ext map1 accel.path).accel_mods), t⟩) := by
  unfold tree_insert_accel tree_insert_rec at hleaf ⊢
  simp only at hleaf ⊢
  obtain ⟨p2, hp2, hne, hcnt⟩ := tree_insert_rec_twice ext _ model _ _ _ _
    (lookup_key ext map2 accel.path).accel_key (lookup_key ext map2 accel.path).accel_mods p hleaf
  refine ⟨p2, hp2, hne, hcnt, (tree_insert_rec_leaf_row ext _ _ _ _ _ _ p2 hp2).2, ?_⟩
  obtain ⟨_, a, t, hrow⟩ := tree_insert_rec_leaf_row ext _ _ _ _ _ _ p hleaf
  refine ⟨a, t, ?_⟩
  rw [tree_insert_rec_keeps_rows ext _ _ _ _ _ _ p _ hrow]
  rfl

/-- C11 at the sample data: `<Darktable>/a/b` inserted with the binding `a` and
then with the binding `Ctrl+b` has the leaves `[0, 0]` and `[0, 1]`. -/
theorem tree_insert_accel_twice_witness :
    ∃ p2, (tree_insert_accel sample_ext [(acc_ab.path, ⟨98, 4⟩)]
        (tree_insert_accel sample_ext [(acc_ab.path, ⟨97, 0⟩)] [] acc_ab).1 acc_ab).2
        = some p2 ∧
      p2 ≠ [0, 0] ∧
      rows_count (tree_insert_accel sample_ext [(acc_ab.path, ⟨98, 4⟩)]
        (tree_insert_accel sample_ext [(acc_ab.path, ⟨97, 0⟩)] [] acc_ab).1 acc_ab).1
        = rows_count (tree_insert_accel sample_ext [(acc_ab.path, ⟨97, 0⟩)] [] acc_ab).1 + 1 := by
  obtain ⟨p2, h1, h2, h3, _⟩ := tree_insert_accel_twice sample_ext [(acc_ab.path, ⟨97, 0⟩)]
    [(acc_ab.path, ⟨98, 4⟩)] [] acc_ab [0, 0] (by decide)
  exact ⟨p2, h1, h2, h3⟩

/-! ## Translation mismatches -/

theorem strchr_none_count (c : Char) :
    ∀ s : CStr, strchr s c = none → s.count c = 0 := by
  intro s
  induction s with
  | nil => intro _; rfl
  | cons x s ih =>
    intro h
    unfold strchr at h
    by_cases hx : x = c
    · simp [hx] at h
    · simp only [hx, if_false, Option.map_eq_none'] at h
      rw [List.count_cons, ih h]
      simp [hx]

theorem strchr_some_count (c : Char) :
    ∀ (s : CStr) (e : Nat), strchr s c = some e →
      (s.take e).count c = 0 ∧ s.count c = (s.drop (e + 1)).count c + 1 := by
  intro s
  induction s with
  | nil => intro e h; simp [strchr] at h
  | cons x s ih =>
    intro e h
    unfold strchr at h
    by_cases hx : x = c
    · simp only [hx, if_true, Option.some.injEq] at h
      subst h; subst hx
      simp
    · simp only [hx, if_false] at h
      cases hs : strchr s c with
      | none => simp [hs] at h
      | some e2 =>
        simp only [hs, Option.map_some', Option.some.injEq] at h
        subst h
        obtain ⟨h1, h2⟩ := ih e2 hs
        simp only [List.take_succ_cons, List.drop_succ_cons, List.count_cons, h1, h2]
        simp [hx]

theorem count_take_drop (c : Char) (s : CStr) (n : Nat) :
    s.count c = (s.take n).count c + (s.drop n).count c := by
  rw [← List.count_append, List.take_append_drop]

/-- The loop over the backquotes of a translated segment uses up one slash of
`accel_path` for each backquote, and ends with NULL when there are fewer
slashes than backquotes. -/
theorem trans_scan_loop_count (ap : CStr) :
    ∀ (t : CStr) (o : Nat),
      (∀ e1, (trans_scan_loop ap t (some o)).2 = some e1 →
        (ap.drop (e1 + 1)).count '/' + t.count backquote = (ap.drop (o + 1)).count '/') ∧
      ((trans_scan_loop ap t (some o)).2 = none →
        (ap.drop (o + 1)).count '/' < t.count backquote) := by
  have hnone : ∀ t : CStr, (trans_scan_loop ap t none).2 = none := by
    intro t
    induction t with
    | nil => rfl
    | cons c t ih =>
      unfold trans_scan_loop
      split <;> simpa using ih
  intro t
  induction t with
  | nil =>
    intro o
    simp [trans_scan_loop]
  | cons c t ih =>
    intro o
    unfold trans_scan_loop
    by_cases hc : c = backquote
    · simp only [hc, if_true, Option.some_bind, List.count_cons_self]
      cases hs : strchr (List.drop (o + 1) ap) '/' with
      | none =>
        simp only [Option.map_none', hnone]
        have h0 := strchr_none_count '/' _ hs
        constructor
        · intro e1 h; cases h
        · intro _; omega
      | some o2 =>
        simp only [Option.map_some']
        obtain ⟨_, hcnt⟩ := strchr_some_count '/' _ o2 hs
        rw [List.drop_drop] at hcnt
        have hd : o + 1 + (o2 + 1) = o2 + (o + 1) + 1 := by omega
        rw [hd] at hcnt
        obtain ⟨i1, i2⟩ := ih (o2 + (o + 1))
        constructor
        · intro e1 h
          have := i1 e1 h
          omega
        · intro h
          have := i2 h
          omega
    · have hcnt : (c :: t).count backquote = t.count backquote := by
        rw [List.count_cons]; simp [hc]
      simp only [hc, if_false, hcnt]
      exact ih o


theorem trans_scan_loop_fst (ap : CStr) :
    ∀ (t : CStr) (e : Option Nat), (trans_scan_loop ap t e).1 = g_strdelimit t := by
  intro t
  induction t with
  | nil => intro e; rfl
  | cons c t ih =>
    intro e
    unfold trans_scan_loop
    by_cases hc : c = backquote
    · simp [hc, ih, g_strdelimit]
    · simp [hc, ih, g_strdelimit]

/-- A reported mismatch means that the localized path stands for more segments
than the canonical path has. -/
theorem stderr_counts :
    ∀ (fuel : Nat) (ap tp : CStr) (msg : CStr × CStr),
      tree_insert_rec_stderr_fuel fuel ap tp = some msg →
      ap.count '/' < tp.count '/' + tp.count backquote := by
  intro fuel
  induction fuel with
  | zero => intro ap tp msg h; simp [tree_insert_rec_stderr_fuel] at h
  | succ fuel ih =>
    intro ap tp msg h
    unfold tree_insert_rec_stderr_fuel at h
    by_cases hap : ap = []
    · simp [hap] at h
    · simp only [hap, if_false] at h
      split at h
      · rename_i e trans_end he hte
        obtain ⟨_, hapc⟩ := strchr_some_count '/' ap e he
        obtain ⟨_, htpc⟩ := strchr_some_count '/' tp trans_end hte
        have hsl := take_slash_drop tp trans_end (strchr_some '/' tp trans_end hte)
        have hbq : tp.count backquote = (List.take trans_end tp).count backquote
            + (List.drop (trans_end + 1) tp).count backquote := by
          conv_lhs => rw [← hsl]
          rw [List.count_append, List.count_cons]
          have : ('/' == backquote) = false := by decide
          simp [this]
        obtain ⟨c1, c2⟩ := trans_scan_loop_count ap (List.take trans_end tp) e
        cases hsc : (trans_scan_loop ap (List.take trans_end tp) (some e)).2 with
        | none =>
          have := c2 hsc
          omega
        | some e1 =>
          simp only [hsc] at h
          have := c1 e1 hsc
          have := ih _ _ msg h
          omega
      · cases h

theorem stderr_msg_length :
    ∀ (fuel : Nat) (ap tp : CStr) (msg : CStr × CStr),
      tree_insert_rec_stderr_fuel fuel ap tp = some msg → msg.1.length ≤ ap.length := by
  intro fuel
  induction fuel with
  | zero => intro ap tp msg h; simp [tree_insert_rec_stderr_fuel] at h
  | succ fuel ih =>
    intro ap tp msg h
    unfold tree_insert_rec_stderr_fuel at h
    by_cases hap : ap = []
    · simp [hap] at h
    · simp only [hap, if_false] at h
      split at h
      · rename_i e trans_end he hte
        cases hsc : (trans_scan_loop ap (List.take trans_end tp) (some e)).2 with
        | none =>
          simp only [hsc, Option.some.injEq] at h
          rw [← h]
        | some e1 =>
          simp only [hsc] at h
          have := ih _ _ msg h
          simp only [List.length_drop] at this
          omega
      · cases h

/-- A call that reports a mismatch inserts no leaf row, and when the mismatch is
met by the outermost call (the message shows the whole `accel_path`) it leaves
the rows as they were. -/
theorem stderr_no_leaf (ext : Externals) :
    ∀ (fuel : Nat) (rows : List Node) (ap tp : CStr) (k m : Nat) (msg : CStr × CStr),
      tree_insert_rec_stderr_fuel fuel ap tp = some msg →
      (tree_insert_rec_fuel ext fuel rows ap tp k m).2 = none ∧
      (msg.1 = ap → (tree_insert_rec_fuel ext fuel rows ap tp k m).1 = rows) := by
  intro fuel
  induction fuel with
  | zero => intro rows ap tp k m msg h; simp [tree_insert_rec_stderr_fuel] at h
  | succ fuel ih =>
    intro rows ap tp k m msg h
    unfold tree_insert_rec_stderr_fuel at h
    unfold tree_insert_rec_fuel
    by_cases hap : ap = []
    · simp [hap] at h
    · simp only [hap, if_false] at h ⊢
      split at h
      · rename_i e trans_end he hte
        cases hsc : (trans_scan_loop ap (List.take trans_end tp) (some e)).2 with
        | none => simp
        | some e1 =>
          simp only [hsc] at h
          have hlen := stderr_msg_length _ _ _ msg h
          have hpos : 0 < ap.length := List.length_pos.mpr hap
          have hne : msg.1 ≠ ap := by
            intro hcon
            rw [hcon] at hlen
            simp only [List.length_drop] at hlen
            omega
          simp only
          cases hf : find_sibling (List.take e1 ap) rows 0 with
          | some found =>
            obtain ⟨i, n⟩ := found
            simp only
            rw [(ih n.children _ _ k m msg h).1]
            exact ⟨rfl, fun hcon => absurd hcon hne⟩
          | none =>
            simp only
            rw [(ih [] _ _ k m msg h).1]
            exact ⟨rfl, fun hcon => absurd hcon hne⟩
      · cases h

/-- C12 (the claim refuted): the canonical path `a/b/c` has three segments and
the localized path `x/y` two, yet `tree_insert_rec` writes nothing to `stderr`
and inserts a leaf row (for `b/c`, below `a`); likewise for `a/b` with the
localized path `x/y/z`. -/
theorem translation_mismatch_unreported :
    (canonical_segments "a/b/c".toList = 3 ∧ localized_segments "x/y".toList = 2 ∧
      tree_insert_rec_stderr "a/b/c".toList "x/y".toList = none ∧
      tree_insert_rec sample_ext [] "a/b/c".toList "x/y".toList 0 0
        = ([.mk ⟨"a".toList, [], "x".toList⟩ [.mk ⟨"b/c".toList, [], "y".toList⟩ []]],
            some [0, 0])) ∧
    (canonical_segments "a/b".toList = 2 ∧ localized_segments "x/y/z".toList = 3 ∧
      tree_insert_rec_stderr "a/b".toList "x/y/z".toList = none ∧
      (tree_insert_rec sample_ext [] "a/b".toList "x/y/z".toList 0 0).2 = some [0, 0]) := by
  refine ⟨⟨by decide, by decide, by decide, rfl⟩, by decide, by decide, by decide, by decide⟩

/-- C12 (amended): what is reported. A translation mismatch is reported only for
a pair whose localized path stands for more segments than the canonical path
has, and the call that reports it inserts no leaf row. It is reported, and the
rows stay as they were, when both paths have a slash and the first localized
segment has at least as many backquotes as the canonical path has slashes. A
pair whose canonical path has at least as many segments as the localized one
is never reported. -/
theorem translation_mismatch_report (ext : Externals) (rows : List Node) (ap tp : CStr)
    (k m : Nat) :
    (∀ msg, tree_insert_rec_stderr ap tp = some msg →
      canonical_segments ap < localized_segments tp ∧
      (tree_insert_rec ext rows ap tp k m).2 = none) ∧
    (∀ e trans_end, strchr ap '/' = some e → strchr tp '/' = some trans_end →
      ap.count '/' ≤ (tp.take trans_end).count backquote →
      tree_insert_rec_stderr ap tp = some (ap, g_strdelimit (tp.take trans_end)) ∧
      tree_insert_rec ext rows ap tp k m = (rows, none)) ∧
    (localized_segments tp ≤ canonical_segments ap → tree_insert_rec_stderr ap tp = none) := by
  have hsound : ∀ msg, tree_insert_rec_stderr ap tp = some msg →
      canonical_segments ap < localized_segments tp ∧
      (tree_insert_rec ext rows ap tp k m).2 = none := by
    intro msg h
    unfold tree_insert_rec_stderr at h
    refine ⟨?_, (stderr_no_leaf ext _ rows ap tp k m msg h).1⟩
    have := stderr_counts _ ap tp msg h
    unfold canonical_segments localized_segments
    omega
  refine ⟨hsound, ?_, ?_⟩
  · intro e trans_end he hte hcnt
    have hap : ap ≠ [] := by
      intro hcon; rw [hcon] at he; simp [strchr] at he
    obtain ⟨n, hn⟩ : ∃ n, ap.length = n + 1 :=
      ⟨ap.length - 1, by have := List.length_pos.mpr hap; omega⟩
    obtain ⟨_, hapc⟩ := strchr_some_count '/' ap e he
    obtain ⟨c1, _⟩ := trans_scan_loop_count ap (List.take trans_end tp) e
    have hsc : (trans_scan_loop ap (List.take trans_end tp) (some e)).2 = none := by
      cases hs : (trans_scan_loop ap (List.take trans_end tp) (some e)).2 with
      | none => rfl
      | some e1 =>
        have := c1 e1 hs
        omega
    have h1 : tree_insert_rec_stderr ap tp = some (ap, g_strdelimit (tp.take trans_end)) := by
      unfold tree_insert_rec_stderr
      rw [hn, tree_insert_rec_stderr_fuel]
      simp only [hap, if_false, he, hte, hsc, trans_scan_loop_fst]
    refine ⟨h1, ?_⟩
    unfold tree_insert_rec
    rw [hn, tree_insert_rec_fuel]
    simp only [hap, if_false, he, hte, hsc]
  · intro hle
    cases hs : tree_insert_rec_stderr ap tp with
    | none => rfl
    | some msg =>
      have := (hsound msg hs).1
      omega

/-- C12 at the sample data: the broken translation of `acc_broken` is reported
at its second segment. -/
theorem translation_mismatch_report_witness :
    tree_insert_rec_stderr "b/c".toList ("y".toList ++ [backquote] ++ "z/w".toList)
        = some ("b/c".toList, g_strdelimit (("y".toList ++ [backquote] ++ "z/w".toList).take 3)) ∧
      tree_insert_rec sample_ext [] "b/c".toList ("y".toList ++ [backquote] ++ "z/w".toList) 0 0
        = ([], none) :=
  (translation_mismatch_report sample_ext [] "b/c".toList
    ("y".toList ++ [backquote] ++ "z/w".toList) 0 0).2.1 1 3 (by decide) (by decide) (by decide)

theorem unique_sibling_keys_cons (n : Node) (rows : List Node) :
    unique_sibling_keys (n :: rows) = true ↔
      (∀ r ∈ rows, r.row.accel ≠ n.row.accel) ∧ n.unique_keys = true ∧
        unique_sibling_keys rows = true := by
  rw [unique_sibling_keys]
  simp only [Bool.and_eq_true, List.all_eq_true, decide_eq_true_eq, and_assoc]

theorem Node.unique_keys_mk (r : Row) (ch : List Node) :
    (Node.mk r ch).unique_keys = unique_sibling_keys ch := by
  rw [Node.unique_keys]

theorem unique_sibling_keys_append_single (x : Node) :
    ∀ rows : List Node,
      unique_sibling_keys (rows ++ [x]) = true ↔
        unique_sibling_keys rows = true ∧ (∀ r ∈ rows, r.row.accel ≠ x.row.accel) ∧
          x.unique_keys = true := by
  intro rows
  induction rows with
  | nil =>
    simp only [List.nil_append, unique_sibling_keys_cons, List.not_mem_nil, false_implies,
      implies_true, true_and]
    constructor
    · rintro ⟨h1, _⟩
      exact ⟨by rw [unique_sibling_keys], h1⟩
    · rintro ⟨_, h1⟩
      exact ⟨h1, by rw [unique_sibling_keys]⟩
  | cons n rows ih =>
    rw [List.cons_append, unique_sibling_keys_cons, unique_sibling_keys_cons, ih]
    simp only [List.mem_append, List.mem_cons, List.not_mem_nil, or_false]
    constructor
    · rintro ⟨h1, h2, h3, h4, h5⟩
      refine ⟨⟨fun r hr => h1 r (Or.inl hr), h2, h3⟩, ?_, h5⟩
      intro r hr
      rcases hr with rfl | hr
      · exact fun e => h1 x (Or.inr rfl) e.symm
      · exact h4 r hr
    · rintro ⟨⟨h1, h2, h3⟩, h4, h5⟩
      refine ⟨?_, h2, h3, fun r hr => h4 r (Or.inr hr), h5⟩
      intro r hr
      rcases hr with hr | rfl
      · exact h1 r hr
      · exact fun e => h4 n (Or.inl rfl) e.symm

theorem unique_sibling_keys_get :
    ∀ (rows : List Node) (i : Nat) (n : Node), unique_sibling_keys rows = true →
      rows[i]? = some n → n.unique_keys = true := by
  intro rows
  induction rows with
  | nil => intro i n _ h; simp at h
  | cons r rows ih =>
    intro i n hu h
    rw [unique_sibling_keys_cons] at hu
    cases i with
    | zero =>
      simp only [List.getElem?_cons_zero, Option.some.injEq] at h
      subst h; exact hu.2.1
    | succ i => exact ih i n hu.2.2 (by simpa using h)

theorem unique_sibling_keys_set :
    ∀ (rows : List Node) (i : Nat) (n x : Node), rows[i]? = some n →
      x.row.accel = n.row.accel → x.unique_keys = true →
      unique_sibling_keys rows = true → unique_sibling_keys (rows.set i x) = true := by
  intro rows
  induction rows with
  | nil => intro i n x h; simp at h
  | cons r rows ih =>
    intro i n x h hacc hx hu
    rw [unique_sibling_keys_cons] at hu
    cases i with
    | zero =>
      simp only [List.getElem?_cons_zero, Option.some.injEq] at h
      subst h
      rw [List.set_cons_zero, unique_sibling_keys_cons]
      exact ⟨fun q hq => by rw [hacc]; exact hu.1 q hq, hx, hu.2.2⟩
    | succ i =>
      simp only [List.getElem?_cons_succ] at h
      rw [List.set_cons_succ, unique_sibling_keys_cons]
      refine ⟨?_, hu.2.1, ih i n x h hacc hx hu.2.2⟩
      intro q hq
      rcases List.mem_or_eq_of_mem_set hq with hq | rfl
      · exact hu.1 q hq
      · rw [hacc]
        exact hu.1 n (List.getElem?_mem h)

theorem unique_sibling_keys_set_iff :
    ∀ (rows : List Node) (i : Nat) (n x : Node), rows[i]? = some n →
      x.row.accel = n.row.accel → unique_sibling_keys rows = true →
      unique_sibling_keys (rows.set i x) = true → x.unique_keys = true := by
  intro rows i n x h _ _ hu
  have hi : i < rows.length := by
    by_contra hge
    rw [List.getElem?_eq_none (by omega)] at h
    cases h
  exact unique_sibling_keys_get (rows.set i x) i x hu (List.getElem?_set_self hi)

/-- In a list of rows with pairwise different names every row is fresh among
its siblings. -/
theorem leaf_is_fresh_of_unique :
    ∀ (p : GtkTreePath) (rows : List Node), unique_sibling_keys rows = true →
      leaf_is_fresh rows p = true := by
  have hone : ∀ (rows : List Node) (i : Nat) (leaf : Node),
      unique_sibling_keys rows = true → rows[i]? = some leaf →
      (rows.eraseIdx i).all (fun r => decide (r.row.accel ≠ leaf.row.accel)) = true := by
    intro rows
    induction rows with
    | nil => intro i leaf _ h; simp at h
    | cons r rows ih =>
      intro i leaf hu h
      rw [unique_sibling_keys_cons] at hu
      cases i with
      | zero =>
        simp only [List.getElem?_cons_zero, Option.some.injEq] at h
        subst h
        simp only [List.eraseIdx_cons_zero, List.all_eq_true, decide_eq_true_eq]
        exact hu.1
      | succ i =>
        simp only [List.getElem?_cons_succ] at h
        simp only [List.eraseIdx_cons_succ, List.all_cons, Bool.and_eq_true, decide_eq_true_eq]
        exact ⟨fun e => hu.1 leaf (List.getElem?_mem h) e.symm, ih i leaf hu.2.2 h⟩
  intro p
  induction p with
  | nil => intro rows _; rfl
  | cons i rest ih =>
    intro rows hu
    cases rest with
    | nil =>
      simp only [leaf_is_fresh]
      cases hr : rows[i]? with
      | none => rfl
      | some leaf => exact hone rows i leaf hu hr
    | cons j rest =>
      simp only [leaf_is_fresh]
      cases hr : rows[i]? with
      | none => rfl
      | some n =>
        simp only
        apply ih
        have := unique_sibling_keys_get rows i n hu hr
        cases n with
        | mk r ch => rw [Node.unique_keys_mk] at this; exact this

/-- An insertion into rows with pairwise different sibling names leaves them so
when it inserts no leaf row, or a leaf row that is fresh among its siblings. -/
theorem tree_insert_rec_unique (ext : Externals) :
    ∀ (fuel : Nat) (rows : List Node) (ap tp : CStr) (k m : Nat),
      unique_sibling_keys rows = true →
      ((tree_insert_rec_fuel ext fuel rows ap tp k m).2 = none →
        unique_sibling_keys (tree_insert_rec_fuel ext fuel rows ap tp k m).1 = true) ∧
      (∀ p, (tree_insert_rec_fuel ext fuel rows ap tp k m).2 = some p →
        leaf_is_fresh (tree_insert_rec_fuel ext fuel rows ap tp k m).1 p = true →
        unique_sibling_keys (tree_insert_rec_fuel ext fuel rows ap tp k m).1 = true) := by
  intro fuel
  induction fuel with
  | zero => intro rows ap tp k m hu; simp [tree_insert_rec_fuel, hu]
  | succ fuel ih =>
    intro rows ap tp k m hu
    by_cases hap : ap = []
    · rw [tree_insert_rec_fuel]; simp [hap, hu]
    · cases he : strchr ap '/' with
      | none =>
        rw [tree_insert_rec_fuel_leaf ext fuel rows ap tp k m hap
          (fun e te h1 _ => by rw [he] at h1; cases h1)]
        constructor
        · intro h; cases h
        · intro p hp hfresh
          simp only [Option.some.injEq] at hp
          subst hp
          simp only [leaf_is_fresh, List.getElem?_concat_length,
            List.eraseIdx_append_of_length_le (le_refl _) _, Nat.sub_self, List.eraseIdx_cons_zero,
            List.append_nil, List.all_eq_true, decide_eq_true_eq, Node.row_mk] at hfresh
          rw [unique_sibling_keys_append_single]
          refine ⟨hu, ?_, by rw [Node.unique_keys_mk, unique_sibling_keys]⟩
          intro r hr
          simpa [Node.row_mk] using hfresh r hr
      | some e =>
        cases hte : strchr tp '/' with
        | none =>
          rw [tree_insert_rec_fuel_leaf ext fuel rows ap tp k m hap
            (fun e te _ h2 => by rw [hte] at h2; cases h2)]
          constructor
          · intro h; cases h
          · intro p hp hfresh
            simp only [Option.some.injEq] at hp
            subst hp
            simp only [leaf_is_fresh, List.getElem?_concat_length,
              List.eraseIdx_append_of_length_le (le_refl _) _, Nat.sub_self,
              List.eraseIdx_cons_zero, List.append_nil, List.all_eq_true, decide_eq_true_eq,
              Node.row_mk] at hfresh
            rw [unique_sibling_keys_append_single]
            refine ⟨hu, ?_, by rw [Node.unique_keys_mk, unique_sibling_keys]⟩
            intro r hr
            simpa [Node.row_mk] using hfresh r hr
        | some trans_end =>
          rw [tree_insert_rec_fuel]
          simp only [hap, if_false, he, hte]
          cases hsc : (trans_scan_loop ap (List.take trans_end tp) (some e)).2 with
          | none => simp [hu]
          | some e1 =>
            simp only
            cases hf : find_sibling (List.take e1 ap) rows 0 with
            | some found =>
              obtain ⟨i, n⟩ := found
              simp only
              obtain ⟨j, hj, hn, hacc⟩ := find_sibling_some _ _ _ _ _ hf
              have hij : i = j := by omega
              subst hij
              have hi : i < rows.length := by
                by_contra hge
                rw [List.getElem?_eq_none (by omega)] at hn
                cases hn
              have hnu : unique_sibling_keys n.children = true := by
                have := unique_sibling_keys_get rows i n hu hn
                cases n with
                | mk r ch => rw [Node.unique_keys_mk] at this; exact this
              obtain ⟨ih1, ih2⟩ := ih n.children (List.drop (e1 + 1) ap)
                (List.drop (trans_end + 1) tp) k m hnu
              constructor
              · intro hnone
                have hr : (tree_insert_rec_fuel ext fuel n.children (List.drop (e1 + 1) ap)
                    (List.drop (trans_end + 1) tp) k m).2 = none := by
                  simpa using hnone
                exact unique_sibling_keys_set rows i n _ hn rfl
                  (by rw [Node.unique_keys_mk]; exact ih1 hr) hu
              · intro p hp hfresh
                cases hr : (tree_insert_rec_fuel ext fuel n.children (List.drop (e1 + 1) ap)
                    (List.drop (trans_end + 1) tp) k m).2 with
                | none => simp [hr] at hp
                | some p2 =>
                  simp only [hr, Option.map_some', Option.some.injEq] at hp
                  subst hp
                  obtain ⟨hne, _⟩ := tree_insert_rec_leaf_row ext _ _ _ _ _ _ p2 hr
                  cases p2 with
                  | nil => exact absurd rfl hne
                  | cons j2 rest =>
                    simp only [leaf_is_fresh, List.getElem?_set_self hi, Node.children_mk]
                      at hfresh
                    exact unique_sibling_keys_set rows i n _ hn rfl
                      (by rw [Node.unique_keys_mk]; exact ih2 _ hr hfresh) hu
            | none =>
              simp only
              have hnames := (find_sibling_none_iff _ _ _).mp hf
              obtain ⟨ih1, ih2⟩ := ih [] (List.drop (e1 + 1) ap)
                (List.drop (trans_end + 1) tp) k m (by rw [unique_sibling_keys])
              constructor
              · intro hnone
                have hr : (tree_insert_rec_fuel ext fuel [] (List.drop (e1 + 1) ap)
                    (List.drop (trans_end + 1) tp) k m).2 = none := by
                  simpa using hnone
                rw [unique_sibling_keys_append_single]
                exact ⟨hu, fun r hr2 => by simpa [Node.row_mk] using hnames r hr2,
                  by rw [Node.unique_keys_mk]; exact ih1 hr⟩
              · intro p hp hfresh
                cases hr : (tree_insert_rec_fuel ext fuel [] (List.drop (e1 + 1) ap)
                    (List.drop (trans_end + 1) tp) k m).2 with
                | none => simp [hr] at hp
                | some p2 =>
                  simp only [hr, Option.map_some', Option.some.injEq] at hp
                  subst hp
                  obtain ⟨hne, _⟩ := tree_insert_rec_leaf_row ext _ _ _ _ _ _ p2 hr
                  cases p2 with
                  | nil => exact absurd rfl hne
                  | cons j2 rest =>
                    simp only [leaf_is_fresh, List.getElem?_concat_length, Node.children_mk]
                      at hfresh
                    rw [unique_sibling_keys_append_single]
                    exact ⟨hu, fun r hr2 => by simpa [Node.row_mk] using hnames r hr2,
                      by rw [Node.unique_keys_mk]; exact ih2 _ hr hfresh⟩

/-- C14 (the claim refuted): the paths `<Darktable>/a/b/c` and `<Darktable>/a/b`
are different, and the tree built from them has, below the row `a`, the branch
row `b` and the leaf row `b`. -/
theorem unique_sibling_keys_broken_by_leaf :
    ([acc_abc, acc_ab].map (·.path)).Nodup ∧
      build_accel_tree sample_ext [] [acc_abc, acc_ab] []
        = [.mk ⟨"a".toList, [], "a".toList⟩
            [.mk ⟨"b".toList, [], "b".toList⟩ [.mk ⟨"c".toList, [], "c".toList⟩ []],
             .mk ⟨"b".toList, [], "b".toList⟩ []]] ∧
      unique_sibling_keys (build_accel_tree sample_ext [] [acc_abc, acc_ab] []) = false := by
  refine ⟨by decide, rfl, by decide⟩

/-- C14 (amended): only the appended leaf can repeat a name. After
`tree_insert_accel` on a store whose sibling names are pairwise different, the
sibling names are pairwise different again when no leaf row was inserted, and
otherwise exactly when the inserted leaf row has a name that none of its
siblings has: a branch row is only created when no sibling has its name, a
leaf row is appended without a search. -/
theorem unique_sibling_keys_insert (ext : Externals) (map : AccelMap) (model : GtkTreeStore)
    (accel : dt_accel_t) (hu : unique_sibling_keys model = true) :
    ((tree_insert_accel ext map model accel).2 = none →
      unique_sibling_keys (tree_insert_accel ext map model accel).1 = true) ∧
    (∀ p, (tree_insert_accel ext map model accel).2 = some p →
      (unique_sibling_keys (tree_insert_accel ext map model accel).1 = true ↔
        leaf_is_fresh (tree_insert_accel ext map model accel).1 p = true)) := by
  unfold tree_insert_accel tree_insert_rec
  simp only
  obtain ⟨h1, h2⟩ := tree_insert_rec_unique ext _ model _ _
    (lookup_key ext map accel.path).accel_key (lookup_key ext map accel.path).accel_mods hu
  refine ⟨h1, fun p hp => ⟨fun h => leaf_is_fresh_of_unique p _ h, h2 p hp⟩⟩

/-- C14 at the sample data: the sample tree has pairwise different sibling names
and keeps them when `<Darktable>/a/b/c` is inserted. -/
theorem unique_sibling_keys_insert_witness :
    unique_sibling_keys (tree_insert_accel sample_ext sample_map sample_model acc_abc).1
      = true :=
  ((unique_sibling_keys_insert sample_ext sample_map sample_model acc_abc (by decide)).2
    [3, 0, 0] (by decide)).mpr (by decide)

/-! ## Restoring the default shortcuts -/

/-- After `gtk_accel_map_load` a path the file defines has the binding of its last
entry, and every other path the binding it had. -/
theorem lookup_load (p : CStr) :
    ∀ (file : List (CStr × GtkAccelKey)) (map : AccelMap),
      gtk_accel_map_lookup_entry (gtk_accel_map_load map file) p =
        match default_binding file p with
        | some key => some key
        | none => gtk_accel_map_lookup_entry map p := by
  intro file
  induction file with
  | nil => intro map; rfl
  | cons e file ih =>
    intro map
    show gtk_accel_map_lookup_entry (gtk_accel_map_load
      (gtk_accel_map_change_entry map e.1 e.2.accel_key e.2.accel_mods true).1 file) p = _
    rw [ih, default_binding]
    cases hd : default_binding file p with
    | some key => rfl
    | none =>
      simp only [lookup_change]
      by_cases hp : p = e.1
      · subst hp; simp
      · have hp2 : ¬ e.1 = p := fun h => hp h.symm
        simp [hp, hp2]

/-- After the loop of `restore_defaults` over `darktable.iop` the path of every
module in the list is unbound, and every other path has the binding it had. -/
theorem lookup_clear_shows (p : CStr) :
    ∀ (iop : List dt_iop_module_so_t) (map : AccelMap),
      gtk_accel_map_lookup_entry
          (iop.foldl (fun m op =>
            (gtk_accel_map_change_entry m (show_accelpath 256 op.op) 0 0 true).1) map) p =
        if ∃ op ∈ iop, show_accelpath 256 op.op = p then some ⟨0, 0⟩
        else gtk_accel_map_lookup_entry map p := by
  intro iop
  induction iop with
  | nil => intro map; simp
  | cons op iop ih =>
    intro map
    rw [List.foldl_cons, ih, lookup_change]
    by_cases h1 : ∃ op2 ∈ iop, show_accelpath 256 op2.op = p
    · have h2 : ∃ op2 ∈ op :: iop, show_accelpath 256 op2.op = p := by
        obtain ⟨o, ho, hp⟩ := h1
        exact ⟨o, List.mem_cons_of_mem _ ho, hp⟩
      simp only [h1, h2, if_true]
    · by_cases h3 : p = show_accelpath 256 op.op
      · have h2 : ∃ op2 ∈ op :: iop, show_accelpath 256 op2.op = p :=
          ⟨op, List.mem_cons_self _ _, h3.symm⟩
        rw [if_neg h1, if_pos h3, if_pos h2]
      · have h2 : ¬ ∃ op2 ∈ op :: iop, show_accelpath 256 op2.op = p := by
          rintro ⟨o, ho, hp⟩
          rcases List.mem_cons.mp ho with e | e
          · subst e; exact h3 hp.symm
          · exact h1 ⟨o, e, hp⟩
        simp only [h1, h2, h3, if_false]

/-- C21 (the claim refuted): the file of default bindings gives the key `e` to
the path that shows the module `exposure`, the user has remapped that path to
`s`, and `exposure` is in `darktable.iop`. After the restore is confirmed the
path is unbound (key 0, modifiers 0): it does not have its default binding. -/
theorem restore_defaults_clears_default_show :
    default_binding show_keyboardrc_default "<Darktable>/darkroom/modules/exposure/show".toList
        = some ⟨101, 0⟩ ∧
      gtk_accel_map_lookup_entry remapped_state.accel_map
        "<Darktable>/darkroom/modules/exposure/show".toList = some ⟨115, 0⟩ ∧
      gtk_accel_map_lookup_entry
        (restore_defaults show_keyboardrc_default sample_iop GTK_RESPONSE_OK
          remapped_state).accel_map
        "<Darktable>/darkroom/modules/exposure/show".toList = some ⟨0, 0⟩ := by
  decide

/-- C21 (amended): restoring the defaults. When the dialog is answered OK, the
path `<Darktable>/darkroom/modules/<op>/show` of every module `op` of
`darktable.iop` whose name leaves the path within the buffer of 256 bytes is
unbound (key 0, modifiers 0), every path the file of default bindings defines
that is not the path of such a module has the binding the file gives it, and
every path that is neither has the binding it had; the saved bindings of the
user are deleted. When the dialog is answered otherwise the state is as it
was. -/
theorem restore_defaults_bindings (keyboardrc_default : List (CStr × GtkAccelKey))
    (iop : List dt_iop_module_so_t) (res : Int) (s : State) :
    (res ≠ GTK_RESPONSE_OK → restore_defaults keyboardrc_default iop res s = s) ∧
    (res = GTK_RESPONSE_OK →
      (∀ op ∈ iop, op.op.length ≤ 221 →
        gtk_accel_map_lookup_entry (restore_defaults keyboardrc_default iop res s).accel_map
          ("<Darktable>/darkroom/modules/".toList ++ op.op ++ "/show".toList) = some ⟨0, 0⟩) ∧
      (∀ p key, (∀ op ∈ iop, show_accelpath 256 op.op ≠ p) →
        default_binding keyboardrc_default p = some key →
        gtk_accel_map_lookup_entry (restore_defaults keyboardrc_default iop res s).accel_map p
          = some key) ∧
      (∀ p, (∀ op ∈ iop, show_accelpath 256 op.op ≠ p) →
        default_binding keyboardrc_default p = none →
        gtk_accel_map_lookup_entry (restore_defaults keyboardrc_default iop res s).accel_map p
          = gtk_accel_map_lookup_entry s.accel_map p) ∧
      (restore_defaults keyboardrc_default iop res s).keyboardrc = none) := by
  constructor
  · intro h
    simp [restore_defaults, h]
  · intro h
    have hmap : (restore_defaults keyboardrc_default iop res s).accel_map =
        iop.foldl (fun m op =>
          (gtk_accel_map_change_entry m (show_accelpath 256 op.op) 0 0 true).1)
          (gtk_accel_map_load s.accel_map keyboardrc_default) := by
      simp [restore_defaults, h]
    refine ⟨?_, ?_, ?_, ?_⟩
    · intro op hop hlen
      have hpath : show_accelpath 256 op.op
          = "<Darktable>/darkroom/modules/".toList ++ op.op ++ "/show".toList := by
        unfold show_accelpath
        apply List.take_of_length_le
        simp only [List.length_append]
        have h1 : "<Darktable>/darkroom/modules/".toList.length = 29 := by decide
        have h2 : "/show".toList.length = 5 := by decide
        omega
      rw [hmap, lookup_clear_shows, if_pos ⟨op, hop, hpath⟩]
    · intro p key hp hkey
      have hno : ¬ ∃ op ∈ iop, show_accelpath 256 op.op = p := by
        rintro ⟨op, hop, e⟩
        exact hp op hop e
      rw [hmap, lookup_clear_shows, if_neg hno, lookup_load, hkey]
    · intro p hp hkey
      have hno : ¬ ∃ op ∈ iop, show_accelpath 256 op.op = p := by
        rintro ⟨op, hop, e⟩
        exact hp op hop e
      rw [hmap, lookup_clear_shows, if_neg hno, lookup_load, hkey]
    · simp [restore_defaults, h]

/-- C21 at the sample data: `export` was remapped to `x`; after the restore is
confirmed it is on `Ctrl+e` again, as the file of default bindings says. -/
theorem restore_defaults_bindings_witness :
    gtk_accel_map_lookup_entry remapped_state.accel_map acc_export.path = some ⟨120, 0⟩ ∧
      gtk_accel_map_lookup_entry
        (restore_defaults sample_keyboardrc_default sample_iop GTK_RESPONSE_OK
          remapped_state).accel_map acc_export.path = some ⟨101, 4⟩ :=
  ⟨by decide,
    ((restore_defaults_bindings sample_keyboardrc_default sample_iop GTK_RESPONSE_OK
      remapped_state).2 rfl).2.1 acc_export.path ⟨101, 4⟩ (by decide) (by decide)⟩

/-! ## No colliding pair is created -/

theorem colliding_pair_iff (map : AccelMap) (a b : dt_accel_t) :
    colliding_pair map a b = true ↔
      ∃ key, gtk_accel_map_lookup_entry map a.path = some key ∧
        gtk_accel_map_lookup_entry map b.path = some key ∧
        ¬(key.accel_key = 0 ∧ key.accel_mods = 0) ∧
        ¬(a.local_ = true ∧ b.local_ = true ∧ a.module ≠ b.module) ∧
        a.views &&& b.views ≠ 0 := by
  unfold colliding_pair
  cases ha : gtk_accel_map_lookup_entry map a.path with
  | none => simp
  | some ka =>
    cases hb : gtk_accel_map_lookup_entry map b.path with
    | none => simp
    | some kb =>
      simp only [Bool.and_eq_true, decide_eq_true_eq, Bool.not_eq_true', Option.some.injEq,
        Bool.and_eq_false_iff, decide_eq_false_iff_not]
      constructor
      · rintro ⟨⟨⟨h1, h2⟩, h3⟩, h4⟩
        refine ⟨ka, rfl, h1.symm, ?_, ?_, h4⟩
        · rintro ⟨x, y⟩
          rcases h2 with h2 | h2
          · exact h2 x
          · exact h2 y
        · rintro ⟨x, y, z⟩
          rcases h3 with (h3 | h3) | h3
          · rw [x] at h3; cases h3
          · rw [y] at h3; cases h3
          · exact h3 z
      · rintro ⟨key, h1, h2, h3, h4, h5⟩
        subst h1
        refine ⟨⟨⟨h2.symm, ?_⟩, ?_⟩, h5⟩
        · by_contra hcon
          simp only [not_or, not_not] at hcon
          exact h3 hcon
        · by_contra hcon
          simp only [not_or, Bool.not_eq_false, not_not] at hcon
          exact h4 ⟨hcon.1.1, hcon.1.2, hcon.2⟩

theorem delete_all_either (ext : Externals) (cur : dt_accel_t) (q : CStr) :
    ∀ (l : List dt_accel_t) (map : AccelMap),
      gtk_accel_map_lookup_entry (delete_all_matching ext cur l map) q
          = gtk_accel_map_lookup_entry map q ∨
        gtk_accel_map_lookup_entry (delete_all_matching ext cur l map) q = some ⟨0, 0⟩ := by
  intro l
  induction l with
  | nil => intro map; exact Or.inl rfl
  | cons x l ih =>
    intro map
    simp only [delete_all_matching]
    have hstep : gtk_accel_map_lookup_entry (delete_matching_accels ext map x cur) q
          = gtk_accel_map_lookup_entry map q ∨
        gtk_accel_map_lookup_entry (delete_matching_accels ext map x cur) q = some ⟨0, 0⟩ := by
      rw [lookup_delete_matching]
      split
      · exact Or.inr rfl
      · exact Or.inl rfl
    rcases hstep with h1 | h1
    · rcases ih (delete_matching_accels ext map x cur) with h2 | h2
      · left; rw [h2, h1]
      · right; exact h2
    · right; exact delete_all_keeps_unbound ext cur q l _ h1

/-- A change of the map that leaves every entry of the list bound as before or
unbound creates no colliding pair. -/
theorem no_colliding_pair_of_unbound (map map2 : AccelMap) (l : List dt_accel_t)
    (hbefore : no_colliding_pair map l)
    (h : ∀ a ∈ l, gtk_accel_map_lookup_entry map2 a.path = gtk_accel_map_lookup_entry map a.path ∨
      gtk_accel_map_lookup_entry map2 a.path = some ⟨0, 0⟩) :
    no_colliding_pair map2 l := by
  intro i hi j hj hij
  cases hc : colliding_pair map2 l[i] l[j] with
  | false => rfl
  | true =>
    exfalso
    obtain ⟨key, h1, h2, h3, h4, h5⟩ := (colliding_pair_iff _ _ _).mp hc
    have hb := hbefore i hi j hj hij
    have h1b : gtk_accel_map_lookup_entry map l[i].path = some key := by
      rcases h l[i] (List.getElem_mem _) with e | e
      · rw [← e]; exact h1
      · rw [e] at h1
        cases h1
        exact absurd ⟨rfl, rfl⟩ h3
    have h2b : gtk_accel_map_lookup_entry map l[j].path = some key := by
      rcases h l[j] (List.getElem_mem _) with e | e
      · rw [← e]; exact h2
      · rw [e] at h2
        cases h2
        exact absurd ⟨rfl, rfl⟩ h3
    have : colliding_pair map l[i] l[j] = true :=
      (colliding_pair_iff _ _ _).mpr ⟨key, h1b, h2b, h3, h4, h5⟩
    rw [hb] at this
    cases this

/-- A change of the map that binds the entry `cur` to `km`, leaves every other
entry bound as before or unbound, and unbinds the entries that were bound to
`km` and collide with `cur`, creates no colliding pair. -/
theorem no_colliding_pair_remap (map map2 : AccelMap) (l : List dt_accel_t) (cur : dt_accel_t)
    (cp : Nat) (km : GtkAccelKey)
    (hnodup : (l.map (fun a => a.path)).Nodup) (hcp : l[cp]? = some cur)
    (hbefore : no_colliding_pair map l)
    (hcur2 : gtk_accel_map_lookup_entry map2 cur.path = some km)
    (hothers : ∀ a ∈ l, a.path ≠ cur.path →
      gtk_accel_map_lookup_entry map2 a.path = gtk_accel_map_lookup_entry map a.path ∨
      gtk_accel_map_lookup_entry map2 a.path = some ⟨0, 0⟩)
    (hclear : ∀ a ∈ l, a.path ≠ cur.path → gtk_accel_map_lookup_entry map a.path = some km →
      ¬(a.local_ = true ∧ cur.local_ = true ∧ a.module ≠ cur.module) →
      a.views &&& cur.views ≠ 0 → gtk_accel_map_lookup_entry map2 a.path = some ⟨0, 0⟩) :
    no_colliding_pair map2 l := by
  have hcpl : cp < l.length := (List.getElem?_eq_some_iff.mp hcp).1
  have hcpe : l[cp] = cur := (List.getElem?_eq_some_iff.mp hcp).2
  have hpos : ∀ i (hi : i < l.length), l[i].path = cur.path → i = cp := by
    intro i hi hp
    have hi2 : i < (l.map (fun a => a.path)).length := by simpa using hi
    have hcp2 : cp < (l.map (fun a => a.path)).length := by simpa using hcpl
    have h1 : (l.map (fun a => a.path))[i] = (l.map (fun a => a.path))[cp] := by
      simp only [List.getElem_map]
      rw [hp, hcpe]
    exact (List.Nodup.getElem_inj_iff hnodup).mp h1
  have hkey : ∀ j (hj : j < l.length), j ≠ cp →
      gtk_accel_map_lookup_entry map2 l[j].path = some km →
      ¬(km.accel_key = 0 ∧ km.accel_mods = 0) →
      ¬(l[j].local_ = true ∧ cur.local_ = true ∧ l[j].module ≠ cur.module) →
      l[j].views &&& cur.views ≠ 0 → False := by
    intro j hj hne h2 h3 h4 h5
    have hpj : l[j].path ≠ cur.path := fun hp => hne (hpos j hj hp)
    have hmem : l[j] ∈ l := List.getElem_mem _
    have hjb : gtk_accel_map_lookup_entry map l[j].path = some km := by
      rcases hothers l[j] hmem hpj with e | e
      · rw [← e]; exact h2
      · rw [e] at h2
        cases h2
        exact absurd ⟨rfl, rfl⟩ h3
    have := hclear l[j] hmem hpj hjb h4 h5
    rw [this] at h2
    cases h2
    exact h3 ⟨rfl, rfl⟩
  intro i hi j hj hij
  cases hc : colliding_pair map2 l[i] l[j] with
  | false => rfl
  | true =>
    exfalso
    obtain ⟨key, h1, h2, h3, h4, h5⟩ := (colliding_pair_iff _ _ _).mp hc
    by_cases hpi : l[i].path = cur.path
    · have hicp := hpos i hi hpi
      subst hicp
      rw [hpi, hcur2] at h1
      cases h1
      rw [hcpe] at h4 h5
      apply hkey j hj (fun e => hij e.symm) h2 h3
      · rintro ⟨x, y, z⟩; exact h4 ⟨y, x, fun e => z e.symm⟩
      · rw [Nat.land_comm]; exact h5
    · by_cases hpj : l[j].path = cur.path
      · have hjcp := hpos j hj hpj
        subst hjcp
        rw [hpj, hcur2] at h2
        cases h2
        rw [hcpe] at h4 h5
        exact hkey i hi hij h1 h3 h4 h5
      · have hb := hbefore i hi j hj hij
        have h1b : gtk_accel_map_lookup_entry map l[i].path = some key := by
          rcases hothers l[i] (List.getElem_mem _) hpi with e | e
          · rw [← e]; exact h1
          · rw [e] at h1
            cases h1
            exact absurd ⟨rfl, rfl⟩ h3
        have h2b : gtk_accel_map_lookup_entry map l[j].path = some key := by
          rcases hothers l[j] (List.getElem_mem _) hpj with e | e
          · rw [← e]; exact h2
          · rw [e] at h2
            cases h2
            exact absurd ⟨rfl, rfl⟩ h3
        have : colliding_pair map l[i] l[j] = true :=
          (colliding_pair_iff _ _ _).mpr ⟨key, h1b, h2b, h3, h4, h5⟩
        rw [hb] at this
        cases this

/-- C22: no colliding pair is created. Two entries at different positions of
the accelerator list collide when they are bound to the same key and
modifiers, not both 0, are not both local with different modules, and share a
view. If the paths of the list are pairwise different, a remap string fits the
path buffer, and no two entries collide before `tree_key_press` handles a key
event, then no two entries collide in the state it returns, and the list is
the same: for a remap without a conflict, with a conflict that is confirmed or
declined, for Backspace on a selected row, and for every other event. The
handler does return a state for a key that is not a modifier when the remap
string names a list entry, and when Backspace is pressed on a selected row
without children whose path can be read, which is unbound afterwards. -/
theorem tree_key_press_keeps_no_colliding_pair (ext : Externals)
    (selection : Option GtkTreePath) (event : GdkEventKey) (res : Int) (s : State)
    (hnodup : (s.control.accelerator_list.map (fun a => a.path)).Nodup)
    (hlen : ∀ str, s.control.accel_remap_str = some str → str.length < ext.sizeof_path)
    (hbefore : no_colliding_pair s.accel_map s.control.accelerator_list) :
    (∀ b st, tree_key_press ext selection event res s = some (b, st) →
      st.control.accelerator_list = s.control.accelerator_list ∧
        no_colliding_pair st.accel_map st.control.accelerator_list) ∧
    (∀ str cp cur, event.is_modifier = false → s.control.accel_remap_str = some str →
      g_list_find_custom (g_strlcpy str ext.sizeof_path) s.control.accelerator_list 0
        = some (cp, cur) →
      ∃ st, tree_key_press ext selection event res s = some (true, st)) ∧
    (∀ path iter accel, event.is_modifier = false → s.control.accel_remap_str = none →
      event.keyval = GDK_KEY_BackSpace → selection = some path →
      gtk_tree_model_get_iter s.model path = some iter →
      gtk_tree_model_iter_has_child iter = false → path_to_accel s.model path 256 = some accel →
      ∃ st, tree_key_press ext selection event res s = some (true, st) ∧
        gtk_accel_map_lookup_entry st.accel_map accel = some ⟨0, 0⟩) := by
  refine ⟨?_, ?_, ?_⟩
  · intro b st h
    cases hmod : event.is_modifier with
    | true =>
      unfold tree_key_press at h
      simp only [hmod, if_true, Option.some.injEq, Prod.mk.injEq] at h
      rw [← h.2]
      exact ⟨rfl, hbefore⟩
    | false =>
      cases hstr : s.control.accel_remap_str with
      | some str =>
        cases hfind : g_list_find_custom (g_strlcpy str ext.sizeof_path)
            s.control.accelerator_list 0 with
        | none =>
          unfold tree_key_press at h
          simp [hmod, hstr, hfind] at h
        | some found =>
          obtain ⟨cp, cur⟩ := found
          rw [tree_key_press_remap ext selection event res s str cp cur hmod hstr hfind] at h
          simp only [Option.some.injEq, Prod.mk.injEq] at h
          rw [← h.2]
          refine ⟨rfl, ?_⟩
          show no_colliding_pair (remap_resolve ext s.accel_map s.control.accelerator_list str
            (ext.gdk_keyval_to_lower event.keyval) (ext.dt_gui_translated_key_state event) cur
            (conflict_scan s.accel_map (ext.gdk_keyval_to_lower event.keyval)
              (ext.dt_gui_translated_key_state event) cur cp s.control.accelerator_list 0) res)
            s.control.accelerator_list
          obtain ⟨n, hn, hcp, hp⟩ := g_list_find_custom_some _ _ _ _ _ hfind
          have hncp : n = cp := by omega
          subst hncp
          have hpath : cur.path = str := by
            rw [hp, g_strlcpy]
            exact List.take_of_length_le (by have := hlen str hstr; omega)
          unfold remap_resolve
          cases hscan : conflict_scan s.accel_map (ext.gdk_keyval_to_lower event.keyval)
              (ext.dt_gui_translated_key_state event) cur n s.control.accelerator_list 0 with
          | none =>
            simp only
            apply no_colliding_pair_remap s.accel_map _ s.control.accelerator_list cur n
              ⟨ext.gdk_keyval_to_lower event.keyval, ext.dt_gui_translated_key_state event⟩
              hnodup hcp hbefore
            · rw [lookup_change, hpath]; simp
            · intro a _ hne
              left
              rw [lookup_change, ← hpath]
              simp [hne]
            · intro a ha hne hk hrule hviews
              exfalso
              obtain ⟨i, hi, hia⟩ := List.getElem_of_mem ha
              have hget : s.control.accelerator_list[i]? = some a := by
                rw [List.getElem?_eq_getElem hi, hia]
              rcases (conflict_scan_none _ _ _ _ _ _ _).mp hscan i a hget with h1 | h1
              · have hin : i = n := by omega
                subst hin
                rw [hcp] at hget
                cases hget
                exact hne rfl
              · have : conflict_test s.accel_map (ext.gdk_keyval_to_lower event.keyval)
                    (ext.dt_gui_translated_key_state event) cur a = true :=
                  (conflict_test_iff _ _ _ _ _).mpr ⟨hk, hrule, hviews⟩
                rw [h1] at this
                cases this
          | some c =>
            simp only
            by_cases hres : res = GTK_RESPONSE_YES
            · simp only [hres, if_true]
              cases hch : (gtk_accel_map_change_entry s.accel_map str
                  (ext.gdk_keyval_to_lower event.keyval)
                  (ext.dt_gui_translated_key_state event) true).2 with
              | false =>
                simp only [Bool.false_eq_true, if_false]
                rw [change_entry_false _ _ _ _ _ hch]
                exact hbefore
              | true =>
                simp only [if_true]
                apply no_colliding_pair_remap s.accel_map _ s.control.accelerator_list cur n
                  ⟨ext.gdk_keyval_to_lower event.keyval, ext.dt_gui_translated_key_state event⟩
                  hnodup hcp hbefore
                · rw [delete_all_keeps ext cur cur.path _ _ (fun a _ hap hne => absurd hap hne),
                    lookup_change, hpath]
                  simp
                · intro a _ hne
                  rcases delete_all_either ext cur a.path s.control.accelerator_list
                    (gtk_accel_map_change_entry s.accel_map str
                      (ext.gdk_keyval_to_lower event.keyval)
                      (ext.dt_gui_translated_key_state event) true).1 with e | e
                  · left
                    rw [e, lookup_change, ← hpath]
                    simp [hne]
                  · right; exact e
                · intro a ha hne hk hrule hviews
                  apply delete_all_clears ext cur a
                    ⟨ext.gdk_keyval_to_lower event.keyval, ext.dt_gui_translated_key_state event⟩
                    hne hrule hviews _ _ ha
                  · rw [lookup_change, hpath]; simp
                  · rw [lookup_change, ← hpath]; simp [hne, hk]
            · simp only [hres, if_false]
              exact hbefore
      | none =>
        unfold tree_key_press at h
        simp only [hmod, hstr, Bool.false_eq_true, if_false] at h
        split at h
        · split at h
          · simp only [Option.some.injEq, Prod.mk.injEq] at h
            rw [← h.2]; exact ⟨rfl, hbefore⟩
          · split at h
            · cases h
            · split at h
              · simp only [Option.some.injEq, Prod.mk.injEq] at h
                rw [← h.2]; exact ⟨rfl, hbefore⟩
              · split at h
                · cases h
                · rename_i accel _
                  simp only [Option.some.injEq, Prod.mk.injEq] at h
                  rw [← h.2]
                  refine ⟨rfl, ?_⟩
                  apply no_colliding_pair_of_unbound s.accel_map _ _ hbefore
                  intro a _
                  rw [lookup_change]
                  by_cases hp : a.path = accel
                  · right; simp [hp]
                  · left; simp [hp]
        · simp only [Option.some.injEq, Prod.mk.injEq] at h
          rw [← h.2]; exact ⟨rfl, hbefore⟩
  · intro str cp cur hmod hstr hfind
    rw [tree_key_press_remap ext selection event res s str cp cur hmod hstr hfind]
    exact ⟨_, rfl⟩
  · intro path iter accel hmod hstr hkey hsel hiter hchild hacc
    unfold tree_key_press
    simp only [hmod, hstr, hkey, hsel, hiter, hchild, hacc, Bool.false_eq_true, if_false, if_true]
    refine ⟨_, rfl, ?_⟩
    simp [lookup_change]

/-- C22 at the sample data: `Ctrl+E` pressed while the `crop` shortcut waits for
its key, and the replacement confirmed. No two entries of the sample registry
collide before, the handler returns a state, and none collide in it. -/
theorem tree_key_press_keeps_no_colliding_pair_witness :
    no_colliding_pair sample_map sample_list ∧
      ∃ st, tree_key_press sample_ext none event_ctrl_E GTK_RESPONSE_YES
          (sample_state acc_crop [1, 0, 0]) = some (true, st) ∧
        no_colliding_pair st.accel_map st.control.accelerator_list :=
  have hbefore : no_colliding_pair sample_map sample_list := by
    unfold no_colliding_pair; decide
  have hall := tree_key_press_keeps_no_colliding_pair sample_ext none event_ctrl_E
    GTK_RESPONSE_YES (sample_state acc_crop [1, 0, 0]) (by decide)
    (by intro str h; cases h; decide) hbefore
  ⟨hbefore,
    match hall.2.1 acc_crop.path 1 acc_crop rfl rfl (by decide) with
    | ⟨st, h⟩ => ⟨st, h, (hall.1 true st h).2⟩⟩

/-! ## The remap state machine -/

/-- A tree path that names a row can be read back as an accelerator path:
`path_to_accel` has a result for it. -/
theorem path_to_accel_loop_of_get_iter (str_len : Nat) :
    ∀ (path : GtkTreePath) (rows : List Node) (n : Node) (str : CStr),
      gtk_tree_model_get_iter rows path = some n →
      ∃ accel_path, path_to_accel_loop rows path str str_len = some accel_path := by
  intro path
  induction path with
  | nil => intro rows n str h; simp [gtk_tree_model_get_iter] at h
  | cons i rest ih =>
    intro rows n str h
    cases rest with
    | nil =>
      simp only [gtk_tree_model_get_iter] at h
      simp only [path_to_accel_loop, h]
      exact ⟨_, rfl⟩
    | cons j rest =>
      simp only [gtk_tree_model_get_iter] at h
      cases hi : rows[i]? with
      | none => simp [hi] at h
      | some c =>
        simp only [hi] at h
        rw [path_to_accel_loop]
        simp only [hi]
        exact ih c.children n _ h

/-- C23: the remap state machine. While a remap waits for its key (the remap
string is set), `tree_key_press` answers a modifier key event with FALSE and
leaves the whole state, markers and bindings, as it was. A key event that is
not a modifier it answers with TRUE, both remap markers cleared, whatever the
scan found and the dialog answered, when the remap string names an entry of
the accelerator list; when it names none the handler has no result, because
`remapped` is NULL where `remapped->data` is read. In any state, activating a
row with children leaves the state as it was, and activating a row without
children, be it the leaf of an accelerator or a branch row that was left
without children, sets the remap string to the path of the row and the remap
path to the row and leaves the list, the map and the saved file alone. A call
of `tree_row_activated_accels` that changes the remap string was made on a row
without children, `tree_key_press` either leaves the control record as it was
or leaves the remap string cleared, and `tree_selection_changed` leaves the
remap string cleared. -/
theorem remap_state_machine (ext : Externals) (selection : Option GtkTreePath)
    (event : GdkEventKey) (res : Int) (s : State) (str : CStr)
    (hstr : s.control.accel_remap_str = some str) :
    (event.is_modifier = true → tree_key_press ext selection event res s = some (false, s)) ∧
    (event.is_modifier = false →
      (∀ (cp : Nat) (cur : dt_accel_t),
        g_list_find_custom (g_strlcpy str ext.sizeof_path) s.control.accelerator_list 0
          = some (cp, cur) →
        ∃ st, tree_key_press ext selection event res s = some (true, st) ∧
          st.control.accel_remap_str = none ∧ st.control.accel_remap_path = none) ∧
      (g_list_find_custom (g_strlcpy str ext.sizeof_path) s.control.accelerator_list 0 = none →
        tree_key_press ext selection event res s = none)) ∧
    (∀ (s0 : State) (path : GtkTreePath) (iter : Node),
      gtk_tree_model_get_iter s0.model path = some iter →
      (gtk_tree_model_iter_has_child iter = true →
        tree_row_activated_accels ext path s0 = some s0) ∧
      (gtk_tree_model_iter_has_child iter = false →
        ∃ accel_path st, path_to_accel s0.model path 256 = some accel_path ∧
          tree_row_activated_accels ext path s0 = some st ∧
          st.control.accel_remap_str = some accel_path ∧
          st.control.accel_remap_path = some path ∧
          st.control.accelerator_list = s0.control.accelerator_list ∧
          st.accel_map = s0.accel_map ∧ st.keyboardrc = s0.keyboardrc) ∧
      (∀ st, tree_row_activated_accels ext path s0 = some st →
        st.control.accel_remap_str ≠ s0.control.accel_remap_str →
        gtk_tree_model_iter_has_child iter = false ∧
          st.control.accel_remap_str = path_to_accel s0.model path 256 ∧
          st.control.accel_remap_path = some path)) ∧
    (∀ (s0 : State) (sel : Option GtkTreePath) (ev : GdkEventKey) (r0 : Int) (b : Bool)
      (st : State), tree_key_press ext sel ev r0 s0 = some (b, st) →
      st.control = s0.control ∨ st.control.accel_remap_str = none) ∧
    (∀ s0 : State, (tree_selection_changed ext s0).control.accel_remap_str = none) := by
  refine ⟨?_, ?_, ?_, ?_, ?_⟩
  · intro hmod
    unfold tree_key_press
    simp [hmod]
  · intro hmod
    constructor
    · intro cp cur hcur
      rw [tree_key_press_remap ext selection event res s str cp cur hmod hstr hcur]
      exact ⟨_, rfl, rfl, rfl⟩
    · intro hcur
      unfold tree_key_press
      simp only [hmod, hstr, hcur, Bool.false_eq_true, if_false]
  · intro s0 path iter hiter
    refine ⟨?_, ?_, ?_⟩
    · intro hchild
      unfold tree_row_activated_accels
      simp [hiter, hchild]
    · intro hchild
      obtain ⟨accel_path, hp⟩ := path_to_accel_loop_of_get_iter 256 path s0.model iter
        (g_strlcpy darktable_base 256) hiter
      refine ⟨accel_path,
        { s0 with
          model := gtk_tree_store_set_binding ext.remap_prompt s0.model path
          control := { s0.control with
            accel_remap_str := some accel_path, accel_remap_path := some path } },
        hp, ?_, rfl, rfl, rfl, rfl, rfl⟩
      unfold tree_row_activated_accels
      simp only [hiter, hchild, Bool.false_eq_true, if_false]
      unfold path_to_accel
      simp only [hp]
    · intro st hst hne
      unfold tree_row_activated_accels at hst
      simp only [hiter] at hst
      cases hchild : gtk_tree_model_iter_has_child iter with
      | true =>
        simp only [hchild, if_true, Option.some.injEq] at hst
        subst hst
        exact absurd rfl hne
      | false =>
        simp only [hchild, Bool.false_eq_true, if_false] at hst
        cases hp : path_to_accel s0.model path 256 with
        | none => simp [hp] at hst
        | some accel_path =>
          simp only [hp, Option.some.injEq] at hst
          subst hst
          exact ⟨rfl, rfl, rfl⟩
  · intro s0 sel ev r0 b st h
    unfold tree_key_press at h
    split at h
    · simp only [Option.some.injEq, Prod.mk.injEq] at h
      left; rw [← h.2]
    · split at h
      · split at h
        · cases h
        · simp only [Option.some.injEq, Prod.mk.injEq] at h
          right; rw [← h.2]
      · split at h
        · split at h
          · simp only [Option.some.injEq, Prod.mk.injEq] at h
            left; rw [← h.2]
          · split at h
            · cases h
            · split at h
              · simp only [Option.some.injEq, Prod.mk.injEq] at h
                left; rw [← h.2]
              · split at h
                · cases h
                · simp only [Option.some.injEq, Prod.mk.injEq] at h
                  left; rw [← h.2]
        · simp only [Option.some.injEq, Prod.mk.injEq] at h
          left; rw [← h.2]
  · intro s0
    unfold tree_selection_changed
    split
    · rename_i h; exact h
    · rfl

/-- C23 at the sample data. The tree built from `broken_list` has the row `a`
without children; activating it sets the remap string to `<Darktable>/a`, which
names no accelerator, and the key `c` then finds `tree_key_press` without a
result. With the `crop` shortcut waiting for its key, `c` ends the remap and is
answered with TRUE. -/
theorem remap_state_machine_witness :
    gtk_tree_model_get_iter broken_idle_state.model [3]
        = some (.mk ⟨"a".toList, [], "x".toList⟩ []) ∧
      tree_row_activated_accels sample_ext [3] broken_idle_state = some broken_remap_state ∧
      broken_remap_state.control.accel_remap_str = some "<Darktable>/a".toList ∧
      tree_key_press sample_ext none event_c 0 broken_remap_state = none ∧
      (∃ st, tree_key_press sample_ext none event_c 0 (sample_state acc_crop [1, 0, 0])
          = some (true, st) ∧
        st.control.accel_remap_str = none ∧ st.control.accel_remap_path = none) :=
  ⟨rfl, rfl, rfl,
    ((remap_state_machine sample_ext none event_c 0 broken_remap_state "<Darktable>/a".toList
      rfl).2.1 rfl).2 (by decide),
    ((remap_state_machine sample_ext none event_c 0 (sample_state acc_crop [1, 0, 0])
      acc_crop.path rfl).2.1 rfl).1 1 acc_crop (by decide)⟩

/-! ## Default entries and ties in the order of the rows -/

/-- C24: default entries sort first. For two rows with labels that are not
empty, the label of `a` ending with a space and the label of `b` not,
`compare_rows_accels(a, b)` is negative and `compare_rows_accels(b, a)` is
positive, whether the rows have children or not and whatever `strcoll` says. -/
theorem compare_rows_accels_default_first (strcoll : CStr → CStr → Int) (a b : Node)
    (a_last b_last : Char)
    (ha : a.row.trans.getLast? = some a_last) (hb : b.row.trans.getLast? = some b_last)
    (hla : a_last = ' ') (hlb : b_last ≠ ' ') :
    ∃ r1 r2, compare_rows_accels strcoll a b = some r1 ∧
      compare_rows_accels strcoll b a = some r2 ∧ r1 < 0 ∧ 0 < r2 := by
  unfold compare_rows_accels
  simp only [ha, hb, hla, hlb, if_true, if_false]
  refine ⟨_, _, rfl, rfl, ?_, ?_⟩
  · split <;> omega
  · split <;> split <;> split <;> omega

/-- C24 at the sample data: the leaf row `global `, marked as default by the
space, against the branch row `modules`. -/
theorem compare_rows_accels_default_first_witness :
    ∃ r1 r2, compare_rows_accels strcoll_C
        (.mk ⟨"global".toList, [], "global ".toList⟩ [])
        (.mk ⟨"modules".toList, [], "modules".toList⟩
          [.mk ⟨"show".toList, [], "show".toList⟩ []]) = some r1 ∧
      compare_rows_accels strcoll_C
        (.mk ⟨"modules".toList, [], "modules".toList⟩ [.mk ⟨"show".toList, [], "show".toList⟩ []])
        (.mk ⟨"global".toList, [], "global ".toList⟩ []) = some r2 ∧ r1 < 0 ∧ 0 < r2 :=
  compare_rows_accels_default_first strcoll_C
    (.mk ⟨"global".toList, [], "global ".toList⟩ [])
    (.mk ⟨"modules".toList, [], "modules".toList⟩ [.mk ⟨"show".toList, [], "show".toList⟩ []])
    ' ' 's' (by decide) (by decide) (by decide) (by decide)

/-- C28 (the code at the failing input): two rows with the same label, which is
not empty, and both with children or both without. When `strcoll` gives 0 for
the label against itself, the code adds 1 in both directions, so
`compare_rows_accels(a, b)` and `compare_rows_accels(b, a)` are both 1: the
signs are not opposite and neither result is 0. -/
theorem compare_rows_accels_equal_labels (strcoll : CStr → CStr → Int) (a b : Node)
    (last : Char) (hab : a.row.trans = b.row.trans) (hl : a.row.trans.getLast? = some last)
    (hc : gtk_tree_model_iter_has_child a = gtk_tree_model_iter_has_child b)
    (h0 : strcoll a.row.trans a.row.trans = 0) :
    compare_rows_accels strcoll a b = some 1 ∧ compare_rows_accels strcoll b a = some 1 := by
  have hl2 : b.row.trans.getLast? = some last := by rw [← hab]; exact hl
  unfold compare_rows_accels
  simp only [hl, hl2, ← hab, h0, ← hc, lt_irrefl, if_false]
  by_cases hs : last = ' '
  · simp [hs]
  · cases hh : gtk_tree_model_iter_has_child a <;> simp [hs]

/-- C28 at the failing input: two leaf rows with different names and the same
label `Copy`, under the collation of the C locale. -/
theorem compare_rows_accels_equal_labels_witness :
    compare_rows_accels strcoll_C (.mk ⟨"copy".toList, [], "Copy".toList⟩ [])
        (.mk ⟨"duplicate".toList, [], "Copy".toList⟩ []) = some 1 ∧
      compare_rows_accels strcoll_C (.mk ⟨"duplicate".toList, [], "Copy".toList⟩ [])
        (.mk ⟨"copy".toList, [], "Copy".toList⟩ []) = some 1 :=
  compare_rows_accels_equal_labels strcoll_C (.mk ⟨"copy".toList, [], "Copy".toList⟩ [])
    (.mk ⟨"duplicate".toList, [], "Copy".toList⟩ []) 'y' rfl (by decide) rfl (by decide)

/-! ## The groups of the presets tree -/

theorem preset_group_append_other (pe : PresetExternals) (rows : List preset_t) (r : preset_t)
    (op : CStr) (h : r.operation ≠ op) :
    preset_group pe (rows ++ [r]) op = preset_group pe rows op := by
  unfold preset_group
  simp [List.filter_append, List.filter_cons, h]

theorem preset_group_append_same (pe : PresetExternals) (rows : List preset_t) (r : preset_t) :
    preset_group pe (rows ++ [r]) r.operation
      = { preset_group pe rows r.operation with
          children := (preset_group pe rows r.operation).children ++ [preset_child_row pe r] } := by
  unfold preset_group
  simp [List.filter_append, List.filter_cons]

theorem preset_group_none (pe : PresetExternals) (rows : List preset_t) (op : CStr)
    (h : ∀ r ∈ rows, r.operation ≠ op) :
    preset_group pe rows op = ⟨preset_header_row pe op, []⟩ := by
  unfold preset_group
  have : rows.filter (fun r => decide (r.operation = op)) = [] := by
    rw [List.filter_eq_nil_iff]
    intro r hr
    simp [h r hr]
  rw [this]; rfl

theorem gtk_tree_store_sort_pos_le (func : PresetRow → PresetRow → Int) (row : PresetRow) :
    ∀ level : List PresetRow, gtk_tree_store_sort_pos func row level ≤ level.length := by
  intro level
  induction level with
  | nil => simp [gtk_tree_store_sort_pos]
  | cons n level ih =>
    unfold gtk_tree_store_sort_pos
    split
    · omega
    · simp only [List.length_cons]; omega

theorem gtk_tree_store_insert_pos_le (sort_func : Option (PresetRow → PresetRow → Int))
    (level : List PresetRow) (row : PresetRow) :
    gtk_tree_store_insert_pos sort_func level row ≤ level.length := by
  unfold gtk_tree_store_insert_pos
  cases sort_func with
  | none => simp
  | some func =>
    simp only
    cases level.getLast? with
    | none => simp
    | some prev =>
      simp only
      split
      · exact Nat.le_refl _
      · exact gtk_tree_store_sort_pos_le func row level

theorem gtk_tree_store_insert_none (level : List PresetRow) (row : PresetRow) :
    gtk_tree_store_insert none level row = level ++ [row] := by
  simp [gtk_tree_store_insert, gtk_tree_store_insert_pos]

theorem gtk_tree_store_insert_perm (sort_func : Option (PresetRow → PresetRow → Int))
    (level : List PresetRow) (row : PresetRow) :
    (gtk_tree_store_insert sort_func level row).Perm (level ++ [row]) := by
  unfold gtk_tree_store_insert
  have h1 : (level.take (gtk_tree_store_insert_pos sort_func level row)
      ++ row :: level.drop (gtk_tree_store_insert_pos sort_func level row)).Perm
      (row :: (level.take (gtk_tree_store_insert_pos sort_func level row)
        ++ level.drop (gtk_tree_store_insert_pos sort_func level row))) := List.perm_middle
  rw [List.take_append_drop] at h1
  exact h1.trans (List.perm_append_singleton row level).symm

theorem foldl_gtk_tree_store_insert_none :
    ∀ (xs level : List PresetRow), xs.foldl (gtk_tree_store_insert none) level = level ++ xs := by
  intro xs
  induction xs with
  | nil => intro level; simp
  | cons x xs ih =>
    intro level
    rw [List.foldl_cons, ih, gtk_tree_store_insert_none]
    simp

theorem foldl_gtk_tree_store_insert_perm (sort_func : Option (PresetRow → PresetRow → Int)) :
    ∀ (xs level : List PresetRow),
      (xs.foldl (gtk_tree_store_insert sort_func) level).Perm (level ++ xs) := by
  intro xs
  induction xs with
  | nil => intro level; simp
  | cons x xs ih =>
    intro level
    rw [List.foldl_cons]
    refine (ih _).trans ?_
    have h := (gtk_tree_store_insert_perm sort_func level x).append_right xs
    simpa using h

theorem preset_group_placed_none (pe : PresetExternals) (rows : List preset_t) (op : CStr) :
    preset_group_placed pe none rows op = preset_group pe rows op := by
  unfold preset_group_placed
  rw [foldl_gtk_tree_store_insert_none]
  rfl

theorem preset_group_placed_append_other (pe : PresetExternals)
    (sort_func : Option (PresetRow → PresetRow → Int)) (rows : List preset_t) (r : preset_t)
    (op : CStr) (h : r.operation ≠ op) :
    preset_group_placed pe sort_func (rows ++ [r]) op = preset_group_placed pe sort_func rows op := by
  unfold preset_group_placed
  rw [preset_group_append_other pe rows r op h]

theorem preset_group_placed_append_same (pe : PresetExternals)
    (sort_func : Option (PresetRow → PresetRow → Int)) (rows : List preset_t) (r : preset_t) :
    preset_group_placed pe sort_func (rows ++ [r]) r.operation
      = { preset_group_placed pe sort_func rows r.operation with
          children := gtk_tree_store_insert sort_func
            (preset_group_placed pe sort_func rows r.operation).children
            (preset_child_row pe r) } := by
  unfold preset_group_placed
  rw [preset_group_append_same pe rows r]
  simp [List.foldl_append]

theorem preset_group_placed_new (pe : PresetExternals)
    (sort_func : Option (PresetRow → PresetRow → Int)) (rows : List preset_t) (op : CStr)
    (h : ∀ r ∈ rows, r.operation ≠ op) :
    preset_group_placed pe sort_func rows op = ⟨preset_header_row pe op, []⟩ := by
  unfold preset_group_placed
  rw [preset_group_none pe rows op h]
  rfl

/-- The row of a preset goes below the header at `parent`: in a store of
groups, one for each operation of a list without repetition, inserting the row
of `r` below the group of its operation gives the groups of the rows with `r`
added. -/
theorem preset_insert_child_placed (pe : PresetExternals)
    (sort_func : Option (PresetRow → PresetRow → Int)) (rows : List preset_t) (r : preset_t) :
    ∀ (ops : List CStr) (parent : Nat), ops.Nodup → ops[parent]? = some r.operation →
      preset_insert_child sort_func (preset_child_row pe r)
          (ops.map (preset_group_placed pe sort_func rows)) parent
        = ops.map (preset_group_placed pe sort_func (rows ++ [r])) := by
  intro ops
  induction ops with
  | nil => intro parent _ h; simp at h
  | cons o ops ih =>
    intro parent hnd hp
    have hnd2 := List.nodup_cons.mp hnd
    cases parent with
    | zero =>
      simp only [List.getElem?_cons_zero, Option.some.injEq] at hp
      subst hp
      simp only [List.map_cons, preset_insert_child]
      rw [preset_group_placed_append_same]
      congr 1
      apply List.map_congr_left
      intro op hop
      refine (preset_group_placed_append_other pe sort_func rows r op ?_).symm
      intro e
      exact hnd2.1 (by rw [e]; exact hop)
    | succ parent =>
      simp only [List.getElem?_cons_succ] at hp
      simp only [List.map_cons, preset_insert_child]
      rw [ih parent hnd2.2 hp]
      congr 1
      refine (preset_group_placed_append_other pe sort_func rows r o ?_).symm
      intro e
      apply hnd2.1
      rw [← e]
      exact List.getElem?_mem hp

theorem getElem?_take_append_cons (x : CStr) (ops : List CStr) (pos : Nat)
    (h : pos ≤ ops.length) : (ops.take pos ++ x :: ops.drop pos)[pos]? = some x := by
  have h1 : (ops.take pos).length = pos := by simp [h]
  rw [List.getElem?_append_right (by omega), h1, Nat.sub_self]
  simp

theorem tree_insert_presets_row_same (pe : PresetExternals)
    (sort_func : Option (PresetRow → PresetRow → Int)) (rows : List preset_t) (r : preset_t)
    (ops : List CStr) (parent : Nat) (hnd : ops.Nodup) (hp : ops[parent]? = some r.operation) :
    tree_insert_presets_row pe sort_func
        ⟨ops.map (preset_group_placed pe sort_func rows), some r.operation, some parent⟩ r
      = some ⟨ops.map (preset_group_placed pe sort_func (rows ++ [r])), some r.operation,
          some parent⟩ := by
  have hlt : parent < ops.length := by
    rcases Nat.lt_or_ge parent ops.length with h | h
    · exact h
    · rw [List.getElem?_eq_none h] at hp; cases hp
  unfold tree_insert_presets_row
  simp only [ne_eq, not_true_eq_false, if_false, List.length_map, hlt, if_true]
  rw [preset_insert_child_placed pe sort_func rows r ops parent hnd hp]

theorem tree_insert_presets_row_new (pe : PresetExternals)
    (sort_func : Option (PresetRow → PresetRow → Int)) (rows : List preset_t) (r : preset_t)
    (ops : List CStr) (last_module : Option CStr) (parent : Option Nat)
    (hlast : last_module ≠ some r.operation) (hnd : ops.Nodup) (hnotin : r.operation ∉ ops)
    (hnew : ∀ x ∈ rows, x.operation ≠ r.operation) :
    ∃ iter, iter ≤ ops.length ∧
      tree_insert_presets_row pe sort_func
          ⟨ops.map (preset_group_placed pe sort_func rows), last_module, parent⟩ r
        = some ⟨(ops.take iter ++ r.operation :: ops.drop iter).map
              (preset_group_placed pe sort_func (rows ++ [r])),
            some r.operation, some iter⟩ := by
  have hle := gtk_tree_store_insert_pos_le sort_func
    ((ops.map (preset_group_placed pe sort_func rows)).map (fun n => n.row))
    (preset_header_row pe r.operation)
  simp only [List.length_map] at hle
  obtain ⟨iter, hiter⟩ : ∃ iter, iter = gtk_tree_store_insert_pos sort_func
    ((ops.map (preset_group_placed pe sort_func rows)).map (fun n => n.row))
    (preset_header_row pe r.operation) := ⟨_, rfl⟩
  rw [← hiter] at hle
  refine ⟨iter, hle, ?_⟩
  have hnd2 : (ops.take iter ++ r.operation :: ops.drop iter).Nodup := by
    have hperm : (ops.take iter ++ r.operation :: ops.drop iter).Perm (r.operation :: ops) := by
      have h1 : (ops.take iter ++ r.operation :: ops.drop iter).Perm
          (r.operation :: (ops.take iter ++ ops.drop iter)) := List.perm_middle
      rwa [List.take_append_drop] at h1
    exact hperm.nodup_iff.mpr (List.nodup_cons.mpr ⟨hnotin, hnd⟩)
  have hstore : (ops.map (preset_group_placed pe sort_func rows)).take iter
      ++ ⟨preset_header_row pe r.operation, []⟩
        :: (ops.map (preset_group_placed pe sort_func rows)).drop iter
      = (ops.take iter ++ r.operation :: ops.drop iter).map
          (preset_group_placed pe sort_func rows) := by
    rw [List.map_append, List.map_cons, List.map_take, List.map_drop,
      preset_group_placed_new pe sort_func rows r.operation hnew]
  have hlen : iter < ((ops.take iter ++ r.operation :: ops.drop iter).map
      (preset_group_placed pe sort_func rows)).length := by
    simp only [List.length_map, List.length_append, List.length_take, List.length_cons,
      List.length_drop]
    omega
  unfold tree_insert_presets_row
  simp only [ne_eq, hlast, not_false_eq_true, if_true, ← hiter, hstore, hlen]
  rw [preset_insert_child_placed pe sort_func rows r _ iter hnd2
    (getElem?_take_append_cons r.operation ops iter hle)]

/-- The state of the loop of `tree_insert_presets` after rows that are ordered
by operation: one group for each operation met, no two for the same operation,
`last_module` the operation of the last row, and `parent` the place of the
group of that operation. -/
theorem tree_insert_presets_loop_inv (pe : PresetExternals)
    (sort_func : Option (PresetRow → PresetRow → Int)) (le : CStr → CStr → Prop)
    (hanti : ∀ a b, le a b → le b a → a = b) :
    ∀ rows : List preset_t, rows.Pairwise (fun a b => le a.operation b.operation) →
      ∃ (ops : List CStr) (parent : Option Nat), ops.Nodup ∧
        (∀ op, op ∈ ops ↔ ∃ r ∈ rows, r.operation = op) ∧
        (∀ r, rows.getLast? = some r → ∃ p, parent = some p ∧ ops[p]? = some r.operation) ∧
        rows.foldlM (tree_insert_presets_row pe sort_func) ⟨[], none, none⟩
          = some ⟨ops.map (preset_group_placed pe sort_func rows),
              rows.getLast?.map (fun r => r.operation), parent⟩ := by
  intro rows
  induction rows using List.reverseRecOn with
  | nil =>
    intro _
    exact ⟨[], none, List.nodup_nil, by simp, by simp, rfl⟩
  | append_singleton init r ih =>
    intro hs
    have hs2 := List.pairwise_append.mp hs
    obtain ⟨ops, parent, hnd, hmem, hpar, hfold⟩ := ih hs2.1
    have hle : ∀ x ∈ init, le x.operation r.operation := fun x hx =>
      hs2.2.2 x hx r (List.mem_singleton_self r)
    rw [List.foldlM_append, hfold]
    simp only [List.foldlM_cons, List.foldlM_nil, Option.some_bind, Option.bind_eq_bind,
      List.getLast?_concat, Option.map_some']
    by_cases hsame : init.getLast?.map (fun r => r.operation) = some r.operation
    · obtain ⟨l, hl, hlop⟩ := Option.map_eq_some'.mp hsame
      obtain ⟨p, hp1, hp2⟩ := hpar l hl
      rw [hlop] at hp2
      subst hp1
      refine ⟨ops, some p, hnd, ?_, ?_, ?_⟩
      · intro op
        rw [hmem op]
        constructor
        · rintro ⟨x, hx, e⟩
          exact ⟨x, List.mem_append_left _ hx, e⟩
        · rintro ⟨x, hx, e⟩
          rcases List.mem_append.mp hx with h1 | h1
          · exact ⟨x, h1, e⟩
          · rw [List.mem_singleton.mp h1] at e
            exact ⟨l, List.mem_of_getLast?_eq_some hl, by rw [hlop, e]⟩
      · intro r2 hr2
        simp only [Option.some.injEq] at hr2
        subst hr2
        exact ⟨p, rfl, hp2⟩
      · rw [hsame, tree_insert_presets_row_same pe sort_func init r ops p hnd hp2]
        rfl
    · have hnew : ∀ x ∈ init, x.operation ≠ r.operation := by
        intro x hx e
        rcases List.eq_nil_or_concat init with hnil | ⟨init0, l, hcat⟩
        · rw [hnil] at hx; cases hx
        · rw [List.concat_eq_append] at hcat
          subst hcat
          rw [List.getLast?_concat, Option.map_some'] at hsame
          have hl : l.operation ≠ r.operation := by
            intro e2
            apply hsame
            rw [e2]
          have h1 : le l.operation r.operation := hle l (by simp)
          rcases List.mem_append.mp hx with h2 | h2
          · have h3 : le x.operation l.operation :=
              (List.pairwise_append.mp hs2.1).2.2 x h2 l (List.mem_singleton_self l)
            rw [e] at h3
            exact hl (hanti _ _ h1 h3)
          · rw [List.mem_singleton.mp h2] at e
            exact hl e
      have hnotin : r.operation ∉ ops := by
        intro hin
        obtain ⟨x, hx, e⟩ := (hmem _).mp hin
        exact hnew x hx e
      obtain ⟨iter, hiter, hrow⟩ := tree_insert_presets_row_new pe sort_func init r ops
        (init.getLast?.map (fun r => r.operation)) parent hsame hnd hnotin hnew
      have hperm : (ops.take iter ++ r.operation :: ops.drop iter).Perm (r.operation :: ops) := by
        have h1 : (ops.take iter ++ r.operation :: ops.drop iter).Perm
            (r.operation :: (ops.take iter ++ ops.drop iter)) := List.perm_middle
        rwa [List.take_append_drop] at h1
      refine ⟨ops.take iter ++ r.operation :: ops.drop iter, some iter, ?_, ?_, ?_, ?_⟩
      · exact hperm.nodup_iff.mpr (List.nodup_cons.mpr ⟨hnotin, hnd⟩)
      · intro op
        rw [hperm.mem_iff, List.mem_cons, hmem op]
        constructor
        · rintro (h1 | ⟨x, hx, e⟩)
          · exact ⟨r, by simp, h1.symm⟩
          · exact ⟨x, List.mem_append_left _ hx, e⟩
        · rintro ⟨x, hx, e⟩
          rcases List.mem_append.mp hx with h1 | h1
          · exact Or.inr ⟨x, h1, e⟩
          · rw [List.mem_singleton.mp h1] at e
            exact Or.inl e.symm
      · intro r2 hr2
        simp only [Option.some.injEq] at hr2
        subst hr2
        exact ⟨iter, rfl, getElem?_take_append_cons _ ops iter hiter⟩
      · rw [hrow]
        rfl

/-- A level that is in order stays in order when GTK inserts a row into it,
for a sort function that is total and transitive on the rows at hand. -/
theorem gtk_tree_store_sort_pos_pairwise (func : PresetRow → PresetRow → Int) (row : PresetRow)
    (s : List PresetRow) (hrow : row ∈ s)
    (htot : ∀ a ∈ s, ∀ b ∈ s, func a b ≤ 0 ∨ func b a ≤ 0)
    (htrans : ∀ a ∈ s, ∀ b ∈ s, ∀ c ∈ s, func a b ≤ 0 → func b c ≤ 0 → func a c ≤ 0) :
    ∀ level : List PresetRow, (∀ n ∈ level, n ∈ s) →
      level.Pairwise (fun a b => func a b ≤ 0) →
      (level.take (gtk_tree_store_sort_pos func row level)
        ++ row :: level.drop (gtk_tree_store_sort_pos func row level)).Pairwise
          (fun a b => func a b ≤ 0) := by
  intro level
  induction level with
  | nil => intro _ _; simp [gtk_tree_store_sort_pos]
  | cons n level ih =>
    intro hsub hp
    have hp2 := List.pairwise_cons.mp hp
    have hn : n ∈ s := hsub n (List.mem_cons_self _ _)
    have hsub2 : ∀ m ∈ level, m ∈ s := fun m hm => hsub m (List.mem_cons_of_mem _ hm)
    unfold gtk_tree_store_sort_pos
    by_cases h : func row n ≤ 0
    · simp only [h, if_true, List.take_zero, List.drop_zero, List.nil_append]
      refine List.pairwise_cons.mpr ⟨?_, hp⟩
      intro b hb
      rcases List.mem_cons.mp hb with e | hb2
      · rw [e]; exact h
      · exact htrans row hrow n hn b (hsub2 b hb2) h (hp2.1 b hb2)
    · simp only [h, if_false, List.take_succ_cons, List.drop_succ_cons, List.cons_append]
      refine List.pairwise_cons.mpr ⟨?_, ih hsub2 hp2.2⟩
      intro b hb
      rcases List.mem_append.mp hb with hb1 | hb1
      · exact hp2.1 b (List.mem_of_mem_take hb1)
      · rcases List.mem_cons.mp hb1 with e | hb2
        · rw [e]
          rcases htot row hrow n hn with h1 | h1
          · exact absurd h1 h
          · exact h1
        · exact hp2.1 b (List.mem_of_mem_drop hb2)

theorem gtk_tree_store_insert_pairwise (func : PresetRow → PresetRow → Int) (row : PresetRow)
    (s : List PresetRow) (hrow : row ∈ s)
    (htot : ∀ a ∈ s, ∀ b ∈ s, func a b ≤ 0 ∨ func b a ≤ 0)
    (htrans : ∀ a ∈ s, ∀ b ∈ s, ∀ c ∈ s, func a b ≤ 0 → func b c ≤ 0 → func a c ≤ 0)
    (level : List PresetRow) (hsub : ∀ n ∈ level, n ∈ s)
    (hp : level.Pairwise (fun a b => func a b ≤ 0)) :
    (gtk_tree_store_insert (some func) level row).Pairwise (fun a b => func a b ≤ 0) := by
  unfold gtk_tree_store_insert gtk_tree_store_insert_pos
  simp only
  rcases List.eq_nil_or_concat level with hnil | ⟨init, prev, hcat⟩
  · subst hnil
    simp
  · rw [List.concat_eq_append] at hcat
    subst hcat
    simp only [List.getLast?_concat]
    by_cases h : func prev row ≤ 0
    · simp only [h, if_true, List.take_length, List.drop_length]
      have hp2 := List.pairwise_append.mp hp
      refine List.pairwise_append.mpr ⟨hp, List.pairwise_singleton _ _, ?_⟩
      intro a ha b hb
      rw [List.mem_singleton.mp hb]
      have hprev : prev ∈ s := hsub prev (by simp)
      rcases List.mem_append.mp ha with h1 | h1
      · exact htrans a (hsub a ha) prev hprev row hrow
          (hp2.2.2 a h1 prev (List.mem_singleton_self _)) h
      · rw [List.mem_singleton.mp h1]; exact h
    · simp only [h, if_false]
      exact gtk_tree_store_sort_pos_pairwise func row s hrow htot htrans _ hsub hp

theorem foldl_gtk_tree_store_insert_pairwise (func : PresetRow → PresetRow → Int)
    (s : List PresetRow)
    (htot : ∀ a ∈ s, ∀ b ∈ s, func a b ≤ 0 ∨ func b a ≤ 0)
    (htrans : ∀ a ∈ s, ∀ b ∈ s, ∀ c ∈ s, func a b ≤ 0 → func b c ≤ 0 → func a c ≤ 0) :
    ∀ (xs level : List PresetRow), (∀ n ∈ xs, n ∈ s) → (∀ n ∈ level, n ∈ s) →
      level.Pairwise (fun a b => func a b ≤ 0) →
      (xs.foldl (gtk_tree_store_insert (some func)) level).Pairwise
        (fun a b => func a b ≤ 0) := by
  intro xs
  induction xs with
  | nil => intro level _ _ hp; exact hp
  | cons x xs ih =>
    intro level hxs hsub hp
    rw [List.foldl_cons]
    have hx : x ∈ s := hxs x (List.mem_cons_self _ _)
    refine ih _ (fun n hn => hxs n (List.mem_cons_of_mem _ hn)) ?_
      (gtk_tree_store_insert_pairwise func x s hx htot htrans level hsub hp)
    intro n hn
    rcases List.mem_append.mp ((gtk_tree_store_insert_perm (some func) level x).mem_iff.mp hn)
      with h1 | h1
    · exact hsub n h1
    · rw [List.mem_singleton.mp h1]; exact hx

theorem compare_rows_presets_child (pe : PresetExternals) (strcoll : CStr → CStr → Int)
    (a b : preset_t) :
    compare_rows_presets strcoll (preset_child_row pe a) (preset_child_row pe b)
      = strcoll a.name b.name := by
  simp [compare_rows_presets, preset_child_row]

/-- C25 (the claim refuted): on a store that has `compare_rows_presets` as its
sort function, as at the calls after `gtk_tree_store_clear`, two presets of
`crop` that come in the order `Wide`, `square` (the order of the code points)
are below their header in the order `square`, `Wide` for a collation that does
not tell capitals from small letters: not in the order of the input rows, as
they are on a store without sort function. -/
theorem tree_insert_presets_refill_order :
    mixed_case_presets.map (fun r => (r.operation, r.name))
        = [("crop".toList, "Wide".toList), ("crop".toList, "square".toList)] ∧
      (tree_insert_presets sample_pe (some (compare_rows_presets strcoll_nocase)) []
          mixed_case_presets).map
          (fun store => store.map (fun n => (n.row.module, n.children.map (fun c => c.name))))
        = some [("crop".toList, ["square".toList, "Wide".toList])] ∧
      tree_insert_presets sample_pe (some (compare_rows_presets strcoll_nocase)) []
          mixed_case_presets
        ≠ some [preset_group sample_pe mixed_case_presets "crop".toList] ∧
      tree_insert_presets sample_pe none [] mixed_case_presets
        = some [preset_group sample_pe mixed_case_presets "crop".toList] := by
  refine ⟨by decide, by decide, by decide, by decide⟩

/-- C25 (amended): the groups of the presets tree. When the rows of the query
are ordered by operation (for some order `le` on the operations in which two
operations that are below each other are the same), `tree_insert_presets` on
an empty store returns a store with one top-level header row for each
operation that occurs, no two for the same operation, so there are as many as
there are distinct operations; below the header of an operation are the rows
of exactly the presets of that operation, each put where GTK puts a row
inserted at position `-1`, one after the other in the order of the input rows.
On a store without sort function that is the order of the input rows. On a
store with the sort function `compare_rows_presets` the rows below a header
are in the order of `strcoll` on their names, when `strcoll` is total and
transitive on the names of the input rows. -/
theorem tree_insert_presets_groups (pe : PresetExternals)
    (sort_func : Option (PresetRow → PresetRow → Int)) (le : CStr → CStr → Prop)
    (rows : List preset_t) (hanti : ∀ a b, le a b → le b a → a = b)
    (hsorted : rows.Pairwise (fun a b => le a.operation b.operation)) :
    ∃ (ops : List CStr) (store : PresetStore),
      tree_insert_presets pe sort_func [] rows = some store ∧
      ops.Nodup ∧ (∀ op, op ∈ ops ↔ ∃ r ∈ rows, r.operation = op) ∧
      ops.length = ((rows.map (fun r => r.operation)).dedup).length ∧
      List.Forall₂ (fun op node =>
          node.row = preset_header_row pe op ∧
          node.children.Perm (preset_group pe rows op).children ∧
          node.children
            = (preset_group pe rows op).children.foldl (gtk_tree_store_insert sort_func) [])
        ops store ∧
      (sort_func = none → store = ops.map (preset_group pe rows)) ∧
      (∀ strcoll : CStr → CStr → Int, sort_func = some (compare_rows_presets strcoll) →
        (∀ a ∈ rows, ∀ b ∈ rows, strcoll a.name b.name ≤ 0 ∨ strcoll b.name a.name ≤ 0) →
        (∀ a ∈ rows, ∀ b ∈ rows, ∀ c ∈ rows, strcoll a.name b.name ≤ 0 →
          strcoll b.name c.name ≤ 0 → strcoll a.name c.name ≤ 0) →
        ∀ node ∈ store, node.children.Pairwise (fun a b => strcoll a.name b.name ≤ 0)) := by
  obtain ⟨ops, parent, hnd, hmem, _, hfold⟩ :=
    tree_insert_presets_loop_inv pe sort_func le hanti rows hsorted
  refine ⟨ops, ops.map (preset_group_placed pe sort_func rows), ?_, hnd, hmem, ?_, ?_, ?_, ?_⟩
  · unfold tree_insert_presets
    rw [hfold]
    rfl
  · apply List.Perm.length_eq
    rw [List.perm_ext_iff_of_nodup hnd (List.nodup_dedup _)]
    intro op
    rw [hmem op, List.mem_dedup, List.mem_map]
  · rw [List.forall₂_map_right_iff, List.forall₂_same]
    intro op _
    refine ⟨rfl, ?_, rfl⟩
    have h := foldl_gtk_tree_store_insert_perm sort_func (preset_group pe rows op).children []
    simpa [preset_group_placed] using h
  · intro hnone
    subst hnone
    apply List.map_congr_left
    intro op _
    exact preset_group_placed_none pe rows op
  · intro strcoll hsf htot htrans node hnode
    subst hsf
    obtain ⟨op, _, rfl⟩ := List.mem_map.mp hnode
    have hsub : ∀ n ∈ (preset_group pe rows op).children, n ∈ rows.map (preset_child_row pe) := by
      intro n hn
      obtain ⟨x, hx, rfl⟩ := List.mem_map.mp hn
      exact List.mem_map.mpr ⟨x, (List.mem_filter.mp hx).1, rfl⟩
    have hp := foldl_gtk_tree_store_insert_pairwise (compare_rows_presets strcoll)
      (rows.map (preset_child_row pe))
      (by
        intro a ha b hb
        obtain ⟨x, hx, rfl⟩ := List.mem_map.mp ha
        obtain ⟨y, hy, rfl⟩ := List.mem_map.mp hb
        rw [compare_rows_presets_child, compare_rows_presets_child]
        exact htot x hx y hy)
      (by
        intro a ha b hb c hc
        obtain ⟨x, hx, rfl⟩ := List.mem_map.mp ha
        obtain ⟨y, hy, rfl⟩ := List.mem_map.mp hb
        obtain ⟨z, hz, rfl⟩ := List.mem_map.mp hc
        rw [compare_rows_presets_child, compare_rows_presets_child, compare_rows_presets_child]
        exact htrans x hx y hy z hz)
      (preset_group pe rows op).children [] hsub (by simp) List.Pairwise.nil
    have hall : ∀ n ∈ (preset_group_placed pe (some (compare_rows_presets strcoll)) rows op).children,
        n ∈ rows.map (preset_child_row pe) := by
      intro n hn
      have h := (foldl_gtk_tree_store_insert_perm (some (compare_rows_presets strcoll))
        (preset_group pe rows op).children []).mem_iff.mp hn
      exact hsub n (by simpa using h)
    refine List.Pairwise.imp_of_mem ?_ hp
    intro a b ha hb hab
    obtain ⟨x, _, rfl⟩ := List.mem_map.mp (hall a ha)
    obtain ⟨y, _, rfl⟩ := List.mem_map.mp (hall b hb)
    rw [compare_rows_presets_child] at hab
    simpa [preset_child_row] using hab

/-- C25 at the sample data: two presets of `crop` on a store with the sort
function, and the three sample presets on a store without. -/
theorem tree_insert_presets_groups_witness :
    (∃ (ops : List CStr) (store : PresetStore),
      tree_insert_presets sample_pe (some (compare_rows_presets strcoll_nocase)) []
        mixed_case_presets = some store ∧
      ops.Nodup ∧ (∀ op, op ∈ ops ↔ ∃ r ∈ mixed_case_presets, r.operation = op) ∧
      List.Forall₂ (fun op node =>
          node.row = preset_header_row sample_pe op ∧
          node.children.Perm (preset_group sample_pe mixed_case_presets op).children)
        ops store ∧
      ∀ node ∈ store, node.children.Pairwise (fun a b => strcoll_nocase a.name b.name ≤ 0)) ∧
    (∃ ops : List CStr, ops.Nodup ∧
      (∀ op, op ∈ ops ↔ ∃ r ∈ sample_presets, r.operation = op) ∧
      ops.length = ((sample_presets.map (fun r => r.operation)).dedup).length ∧
      tree_insert_presets sample_pe none [] sample_presets
        = some (ops.map (preset_group sample_pe sample_presets))) :=
  have hanti : ∀ a b : CStr, (a.length < b.length ∨ a = b) → (b.length < a.length ∨ b = a) →
      a = b := by
    intro a b h1 h2
    rcases h1 with h1 | h1
    · rcases h2 with h2 | h2
      · omega
      · exact h2.symm
    · exact h1
  ⟨match tree_insert_presets_groups sample_pe (some (compare_rows_presets strcoll_nocase))
      (fun a b => a.length < b.length ∨ a = b) mixed_case_presets hanti (by decide) with
    | ⟨ops, store, h1, h2, h3, _, h5, _, h7⟩ =>
      ⟨ops, store, h1, h2, h3, h5.imp (fun _ _ h => ⟨h.1, h.2.1⟩),
        h7 strcoll_nocase rfl (by decide) (by decide)⟩,
   match tree_insert_presets_groups sample_pe none
      (fun a b => a.length < b.length ∨ a = b) sample_presets hanti (by decide) with
    | ⟨ops, store, h1, h2, h3, h4, _, h6, _⟩ =>
      ⟨ops, h2, h3, h4, by rw [h1, h6 rfl]⟩⟩

/-- The presets tree of the sample data on a store without sort function: the
header `crop` with two rows below it, then the header `Exposure` with one. -/
theorem tree_insert_presets_sample :
    (tree_insert_presets sample_pe none [] sample_presets).map
        (fun store => store.map (fun n => (n.row.module, n.children.map (fun c => c.name))))
      = some [("crop".toList, ["square".toList, "wide".toList]),
          ("Exposure".toList, ["bright".toList])] := by
  decide

/-! ## The exposure and aperture columns of a preset -/

theorem CFloat.gt_iff (a b : CFloat) : a.gt b = true ↔ b.value < a.value := by
  unfold CFloat.gt CFloat.value
  rw [decide_eq_true_iff, div_lt_div_iff₀ (by positivity) (by positivity)]
  constructor
  · intro h
    have h2 : ((b.num * ((2 ^ a.exp2 : Nat) : Int) : Int) : ℚ)
        < ((a.num * ((2 ^ b.exp2 : Nat) : Int) : Int) : ℚ) := by exact_mod_cast h
    simpa using h2
  · intro h
    have h2 : ((b.num * ((2 ^ a.exp2 : Nat) : Int) : Int) : ℚ)
        < ((a.num * ((2 ^ b.exp2 : Nat) : Int) : Int) : ℚ) := by
      simpa using h
    exact_mod_cast h2

theorem CFloat.le_iff_not_gt (a b : CFloat) : a.le b = true ↔ a.gt b = false := by
  unfold CFloat.le CFloat.gt
  simp only [decide_eq_true_eq, decide_eq_false_iff_not, not_lt]

theorem CFloat.le_iff (a b : CFloat) : a.le b = true ↔ a.value ≤ b.value := by
  rw [CFloat.le_iff_not_gt, ← not_lt, ← CFloat.gt_iff]
  simp

theorem bucket_loop_add (bound : CFloat) :
    ∀ (values : List CFloat) (i : Nat),
      bucket_loop bound values i = i + bucket_loop bound values 0 := by
  intro values
  induction values with
  | nil => intro i; simp [bucket_loop]
  | cons v values ih =>
    intro i
    simp only [bucket_loop]
    split
    · rw [ih (i + 1), ih (0 + 1)]; omega
    · rfl

/-- The index after the loop is within the table or its length, the bound is
above every entry before the index, and not above the entry at the index. -/
theorem bucket_loop_spec (bound : CFloat) :
    ∀ (values : List CFloat),
      bucket_loop bound values 0 ≤ values.length ∧
      (∀ n v, n < bucket_loop bound values 0 → values[n]? = some v → bound.gt v = true) ∧
      (∀ v, values[bucket_loop bound values 0]? = some v → bound.gt v = false) := by
  intro values
  induction values with
  | nil => simp [bucket_loop]
  | cons x values ih =>
    obtain ⟨h1, h2, h3⟩ := ih
    simp only [bucket_loop]
    cases hx : bound.gt x with
    | true =>
      simp only [if_true]
      rw [bucket_loop_add]
      refine ⟨by simp only [List.length_cons]; omega, ?_, ?_⟩
      · intro n v hn hv
        cases n with
        | zero =>
          simp only [List.getElem?_cons_zero, Option.some.injEq] at hv
          rw [← hv]; exact hx
        | succ m =>
          simp only [List.getElem?_cons_succ] at hv
          exact h2 m v (by omega) hv
      · intro v hv
        rw [show 0 + 1 + bucket_loop bound values 0 = bucket_loop bound values 0 + 1 by omega,
          List.getElem?_cons_succ] at hv
        exact h3 v hv
    | false =>
      simp only [Bool.false_eq_true, if_false]
      refine ⟨Nat.zero_le _, ?_, ?_⟩
      · intro n v hn; omega
      · intro v hv
        simp only [List.getElem?_cons_zero, Option.some.injEq] at hv
        rw [← hv]; exact hx

/-- The loop stops at the latest at an entry the bound is not above. -/
theorem bucket_loop_le (bound : CFloat) (values : List CFloat) (n : Nat) (v : CFloat)
    (hv : values[n]? = some v) (hgt : bound.gt v = false) :
    bucket_loop bound values 0 ≤ n := by
  by_contra hcon
  have := (bucket_loop_spec bound values).2.1 n v (by omega) hv
  rw [hgt] at this
  cases this

theorem bucket_loop_mono (x y : CFloat) (values : List CFloat) (hxy : x.le y = true) :
    bucket_loop x values 0 ≤ bucket_loop y values 0 := by
  obtain ⟨h1, _, h3⟩ := bucket_loop_spec y values
  by_cases hlt : bucket_loop y values 0 < values.length
  · have hv : values[bucket_loop y values 0]? = some values[bucket_loop y values 0] :=
      List.getElem?_eq_getElem hlt
    apply bucket_loop_le x values _ _ hv
    have hy := h3 _ hv
    rw [← CFloat.le_iff_not_gt, CFloat.le_iff] at hy ⊢
    rw [CFloat.le_iff] at hxy
    exact le_trans hxy hy
  · have := (bucket_loop_spec x values).1
    omega

/-- The loop finds the first entry that is not below the bound, when there is
an entry at `n` the bound is not above. -/
theorem bucket_loop_first (bound : CFloat) (values : List CFloat) (n : Nat) (v : CFloat)
    (hv : values[n]? = some v) (hle : bound.le v = true) :
    first_entry_ge values bound (bucket_loop bound values 0) := by
  have hk := bucket_loop_le bound values n v hv ((CFloat.le_iff_not_gt _ _).mp hle)
  have hn : n < values.length := (List.getElem?_eq_some_iff.mp hv).1
  have hklt : bucket_loop bound values 0 < values.length := by omega
  obtain ⟨_, h2, h3⟩ := bucket_loop_spec bound values
  refine ⟨⟨values[bucket_loop bound values 0], List.getElem?_eq_getElem hklt, ?_⟩, ?_⟩
  · rw [CFloat.le_iff_not_gt]
    exact h3 _ (List.getElem?_eq_getElem hklt)
  · intro j w hj hw
    have := h2 j w hj hw
    cases hc : bound.le w with
    | false => rfl
    | true =>
      rw [CFloat.le_iff_not_gt] at hc
      rw [hc] at this
      cases this

/-- The text of a bucketed column for a table of `cnt` entries that starts with
0, ends with `FLT_MAX` after the entry `top`, and has no entry above `top`
before the last: `%` exactly for a lower bound of at most 0 and an upper bound
above `top` and at most `FLT_MAX`, which is exactly when the two indices are 0
and `cnt - 1`; otherwise, for bounds of at most `FLT_MAX`, the two labels at
the indices, joined by a dash. -/
theorem tree_insert_presets_range_spec (cnt : Nat) (value : List CFloat)
    (value_str : List CStr) (top lo hi : CFloat)
    (hcnt : 2 ≤ cnt) (hlen : value.length = cnt) (hstr : value_str.length = cnt)
    (h0 : value[0]? = some ⟨0, 0⟩) (hlast : value[cnt - 1]? = some FLT_MAX)
    (htop : value[cnt - 2]? = some top)
    (hall : ∀ n v, n < cnt - 1 → value[n]? = some v → v.le top = true) :
    ((bucket_index cnt value lo = 0 ∧ bucket_index cnt value hi = cnt - 1) ↔
      (lo.le ⟨0, 0⟩ = true ∧ hi.gt top = true ∧ hi.le FLT_MAX = true)) ∧
    (tree_insert_presets_range cnt value value_str true lo hi = some "%".toList ↔
      (lo.le ⟨0, 0⟩ = true ∧ hi.gt top = true ∧ hi.le FLT_MAX = true)) ∧
    (lo.le FLT_MAX = true → hi.le FLT_MAX = true →
      ¬(lo.le ⟨0, 0⟩ = true ∧ hi.gt top = true) →
      ∃ a b, value_str[bucket_index cnt value lo]? = some a ∧
        value_str[bucket_index cnt value hi]? = some b ∧
        tree_insert_presets_range cnt value value_str true lo hi
          = some (a ++ " – ".toList ++ b)) := by
  have htake : value.take cnt = value := by rw [← hlen]; exact List.take_length value
  have hidx : ∀ x, bucket_index cnt value x = bucket_loop x value 0 := by
    intro x; unfold bucket_index; rw [htake]
  have hmin : bucket_loop lo value 0 = 0 ↔ lo.le ⟨0, 0⟩ = true := by
    constructor
    · intro h
      have := (bucket_loop_spec lo value).2.2 ⟨0, 0⟩ (by rw [h]; exact h0)
      exact (CFloat.le_iff_not_gt _ _).mpr this
    · intro h
      have := bucket_loop_le lo value 0 ⟨0, 0⟩ h0 ((CFloat.le_iff_not_gt _ _).mp h)
      omega
  have hmax : bucket_loop hi value 0 = cnt - 1 ↔ (hi.gt top = true ∧ hi.le FLT_MAX = true) := by
    constructor
    · intro h
      obtain ⟨_, h2, h3⟩ := bucket_loop_spec hi value
      refine ⟨h2 (cnt - 2) top (by omega) htop, ?_⟩
      rw [CFloat.le_iff_not_gt]
      exact h3 FLT_MAX (by rw [h]; exact hlast)
    · rintro ⟨h1, h2⟩
      have hle := bucket_loop_le hi value (cnt - 1) FLT_MAX hlast
        ((CFloat.le_iff_not_gt _ _).mp h2)
      by_contra hne
      have hlt : bucket_loop hi value 0 < cnt - 1 := by omega
      have hlt2 : bucket_loop hi value 0 < value.length := by omega
      have hv := List.getElem?_eq_getElem hlt2
      have h3 := (bucket_loop_spec hi value).2.2 _ hv
      have h4 := hall _ _ hlt hv
      rw [← CFloat.le_iff_not_gt, CFloat.le_iff] at h3
      rw [CFloat.le_iff] at h4
      rw [CFloat.gt_iff] at h1
      exact absurd (lt_of_lt_of_le h1 (le_refl _)) (not_lt.mpr (le_trans h3 h4))
  have hidx2 : (bucket_index cnt value lo = 0 ∧ bucket_index cnt value hi = cnt - 1) ↔
      (lo.le ⟨0, 0⟩ = true ∧ hi.gt top = true ∧ hi.le FLT_MAX = true) := by
    rw [hidx, hidx, hmin, hmax]
  refine ⟨hidx2, ?_, ?_⟩
  · rw [← hidx2]
    unfold tree_insert_presets_range
    simp only [Bool.true_eq_false, if_false]
    constructor
    · intro h
      by_contra hc
      rw [if_neg hc] at h
      split at h
      · rename_i a b _ _
        have := congrArg List.length (Option.some.inj h)
        simp only [List.length_append] at this
        have h5 : " – ".toList.length = 3 := by decide
        have h6 : "%".toList.length = 1 := by decide
        omega
      · cases h
    · intro h
      rw [if_pos h]
  · intro hlo hhi hnot
    have hnot2 : ¬(bucket_index cnt value lo = 0 ∧ bucket_index cnt value hi = cnt - 1) := by
      rw [hidx2]
      rintro ⟨a, b, _⟩
      exact hnot ⟨a, b⟩
    have hlo2 : bucket_index cnt value lo < value_str.length := by
      rw [hidx, hstr]
      have := bucket_loop_le lo value (cnt - 1) FLT_MAX hlast ((CFloat.le_iff_not_gt _ _).mp hlo)
      omega
    have hhi2 : bucket_index cnt value hi < value_str.length := by
      rw [hidx, hstr]
      have := bucket_loop_le hi value (cnt - 1) FLT_MAX hlast ((CFloat.le_iff_not_gt _ _).mp hhi)
      omega
    refine ⟨value_str[bucket_index cnt value lo], value_str[bucket_index cnt value hi],
      List.getElem?_eq_getElem hlo2, List.getElem?_eq_getElem hhi2, ?_⟩
    unfold tree_insert_presets_range
    simp only [Bool.true_eq_false, if_false]
    rw [if_neg hnot2, List.getElem?_eq_getElem hlo2, List.getElem?_eq_getElem hhi2]

theorem all_take_getElem (value : List CFloat) (k : Nat) (P : CFloat → Bool)
    (h : (value.take k).all P = true) :
    ∀ n v, n < k → value[n]? = some v → P v = true := by
  intro n v hn hv
  have h2 : (value.take k)[n]? = some v := by
    rw [List.getElem?_take_of_lt hn]; exact hv
  exact List.all_eq_true.mp h v (List.getElem?_mem h2)

/-- C26: the exposure and aperture columns of a preset whose module takes
automatic presets, for bounds of at most `FLT_MAX`. Each bound is mapped to the
first table entry that is not below it. The exposure column is `%` exactly when
`exposure_min <= 0` and `60 < exposure_max <= FLT_MAX`, which is when the
indices are 0 and 23; the aperture column is `%` exactly when
`aperture_min <= 0` and `128 < aperture_max <= FLT_MAX`, which is when the
indices are 0 and 18; otherwise the column is the label at the index of the
lower bound, a dash, and the label at the index of the upper bound. The index
does not decrease when the bound grows. -/
theorem presets_bucketing (lo hi : CFloat) (hlo : lo.le FLT_MAX = true)
    (hhi : hi.le FLT_MAX = true) :
    first_entry_ge dt_gui_presets_exposure_value lo
      (bucket_index dt_gui_presets_exposure_value_cnt dt_gui_presets_exposure_value lo) ∧
    first_entry_ge dt_gui_presets_exposure_value hi
      (bucket_index dt_gui_presets_exposure_value_cnt dt_gui_presets_exposure_value hi) ∧
    first_entry_ge dt_gui_presets_aperture_value lo
      (bucket_index dt_gui_presets_aperture_value_cnt dt_gui_presets_aperture_value lo) ∧
    first_entry_ge dt_gui_presets_aperture_value hi
      (bucket_index dt_gui_presets_aperture_value_cnt dt_gui_presets_aperture_value hi) ∧
    ((bucket_index dt_gui_presets_exposure_value_cnt dt_gui_presets_exposure_value lo = 0 ∧
        bucket_index dt_gui_presets_exposure_value_cnt dt_gui_presets_exposure_value hi = 23) ↔
      (lo.le ⟨0, 0⟩ = true ∧ hi.gt ⟨60, 0⟩ = true ∧ hi.le FLT_MAX = true)) ∧
    (tree_insert_presets_exposure true lo hi = some "%".toList ↔
      (lo.le ⟨0, 0⟩ = true ∧ hi.gt ⟨60, 0⟩ = true ∧ hi.le FLT_MAX = true)) ∧
    (¬(lo.le ⟨0, 0⟩ = true ∧ hi.gt ⟨60, 0⟩ = true) →
      ∃ a b,
        dt_gui_presets_exposure_value_str[bucket_index dt_gui_presets_exposure_value_cnt
          dt_gui_presets_exposure_value lo]? = some a ∧
        dt_gui_presets_exposure_value_str[bucket_index dt_gui_presets_exposure_value_cnt
          dt_gui_presets_exposure_value hi]? = some b ∧
        tree_insert_presets_exposure true lo hi = some (a ++ " – ".toList ++ b)) ∧
    ((bucket_index dt_gui_presets_aperture_value_cnt dt_gui_presets_aperture_value lo = 0 ∧
        bucket_index dt_gui_presets_aperture_value_cnt dt_gui_presets_aperture_value hi = 18) ↔
      (lo.le ⟨0, 0⟩ = true ∧ hi.gt ⟨128, 0⟩ = true ∧ hi.le FLT_MAX = true)) ∧
    (tree_insert_presets_aperture true lo hi = some "%".toList ↔
      (lo.le ⟨0, 0⟩ = true ∧ hi.gt ⟨128, 0⟩ = true ∧ hi.le FLT_MAX = true)) ∧
    (¬(lo.le ⟨0, 0⟩ = true ∧ hi.gt ⟨128, 0⟩ = true) →
      ∃ a b,
        dt_gui_presets_aperture_value_str[bucket_index dt_gui_presets_aperture_value_cnt
          dt_gui_presets_aperture_value lo]? = some a ∧
        dt_gui_presets_aperture_value_str[bucket_index dt_gui_presets_aperture_value_cnt
          dt_gui_presets_aperture_value hi]? = some b ∧
        tree_insert_presets_aperture true lo hi = some (a ++ " – ".toList ++ b)) ∧
    (lo.le hi = true →
      bucket_index dt_gui_presets_exposure_value_cnt dt_gui_presets_exposure_value lo
        ≤ bucket_index dt_gui_presets_exposure_value_cnt dt_gui_presets_exposure_value hi ∧
      bucket_index dt_gui_presets_aperture_value_cnt dt_gui_presets_aperture_value lo
        ≤ bucket_index dt_gui_presets_aperture_value_cnt dt_gui_presets_aperture_value hi) := by
  have hE := tree_insert_presets_range_spec dt_gui_presets_exposure_value_cnt
    dt_gui_presets_exposure_value dt_gui_presets_exposure_value_str ⟨60, 0⟩ lo hi
    (by decide) (by decide) (by decide) (by decide) (by decide) (by decide)
    (all_take_getElem _ _ (fun v => v.le ⟨60, 0⟩) (by decide))
  have hA := tree_insert_presets_range_spec dt_gui_presets_aperture_value_cnt
    dt_gui_presets_aperture_value dt_gui_presets_aperture_value_str ⟨128, 0⟩ lo hi
    (by decide) (by decide) (by decide) (by decide) (by decide) (by decide)
    (all_take_getElem _ _ (fun v => v.le ⟨128, 0⟩) (by decide))
  have hEt : dt_gui_presets_exposure_value.take dt_gui_presets_exposure_value_cnt
      = dt_gui_presets_exposure_value := by decide
  have hAt : dt_gui_presets_aperture_value.take dt_gui_presets_aperture_value_cnt
      = dt_gui_presets_aperture_value := by decide
  have hEl : dt_gui_presets_exposure_value[23]? = some FLT_MAX := by decide
  have hAl : dt_gui_presets_aperture_value[18]? = some FLT_MAX := by decide
  refine ⟨?_, ?_, ?_, ?_, hE.1, hE.2.1, hE.2.2 hlo hhi, hA.1, hA.2.1, hA.2.2 hlo hhi, ?_⟩
  · unfold bucket_index; rw [hEt]
    exact bucket_loop_first lo _ 23 FLT_MAX hEl hlo
  · unfold bucket_index; rw [hEt]
    exact bucket_loop_first hi _ 23 FLT_MAX hEl hhi
  · unfold bucket_index; rw [hAt]
    exact bucket_loop_first lo _ 18 FLT_MAX hAl hlo
  · unfold bucket_index; rw [hAt]
    exact bucket_loop_first hi _ 18 FLT_MAX hAl hhi
  · intro hle
    unfold bucket_index
    exact ⟨bucket_loop_mono lo hi _ hle, bucket_loop_mono lo hi _ hle⟩

/-- C26 at sample bounds: an exposure from 1/128 s to 2 s is shown as
`1/125 – 2"`. -/
theorem presets_bucketing_witness :
    tree_insert_presets_exposure true ⟨1, 7⟩ ⟨2, 0⟩
        = some ("1/125 – 2".toList ++ [dquote]) ∧
      ∃ a b,
        dt_gui_presets_exposure_value_str[bucket_index dt_gui_presets_exposure_value_cnt
          dt_gui_presets_exposure_value ⟨1, 7⟩]? = some a ∧
        dt_gui_presets_exposure_value_str[bucket_index dt_gui_presets_exposure_value_cnt
          dt_gui_presets_exposure_value ⟨2, 0⟩]? = some b ∧
        tree_insert_presets_exposure true ⟨1, 7⟩ ⟨2, 0⟩ = some (a ++ " – ".toList ++ b) :=
  ⟨by decide,
    (presets_bucketing ⟨1, 7⟩ ⟨2, 0⟩ (by decide) (by decide)).2.2.2.2.2.2.1 (by decide)⟩

/-! ## The index loops stay within the tables -/

/-- C27: the bucket lookups stay in bounds. For a bound of at most `FLT_MAX` the
index loop over the exposure table stops at an index of at most 23 and the
loop over the aperture table at an index of at most 18, so the label tables
are read at an index below their length and the read gives a label. -/
theorem bucket_index_in_bounds (v : CFloat) (hv : v.le FLT_MAX = true) :
    bucket_index dt_gui_presets_exposure_value_cnt dt_gui_presets_exposure_value v ≤ 23 ∧
    bucket_index dt_gui_presets_aperture_value_cnt dt_gui_presets_aperture_value v ≤ 18 ∧
    (∃ label, dt_gui_presets_exposure_value_str[bucket_index dt_gui_presets_exposure_value_cnt
      dt_gui_presets_exposure_value v]? = some label) ∧
    (∃ label, dt_gui_presets_aperture_value_str[bucket_index dt_gui_presets_aperture_value_cnt
      dt_gui_presets_aperture_value v]? = some label) := by
  have hE : bucket_index dt_gui_presets_exposure_value_cnt dt_gui_presets_exposure_value v
      ≤ 23 :=
    bucket_loop_le v _ 23 FLT_MAX (by decide) ((CFloat.le_iff_not_gt _ _).mp hv)
  have hA : bucket_index dt_gui_presets_aperture_value_cnt dt_gui_presets_aperture_value v
      ≤ 18 :=
    bucket_loop_le v _ 18 FLT_MAX (by decide) ((CFloat.le_iff_not_gt _ _).mp hv)
  have hEs : dt_gui_presets_exposure_value_str.length = 24 := by decide
  have hAs : dt_gui_presets_aperture_value_str.length = 19 := by decide
  refine ⟨hE, hA, ⟨_, List.getElem?_eq_getElem (by omega)⟩,
    ⟨_, List.getElem?_eq_getElem (by omega)⟩⟩

/-- C27 at the largest bound: `FLT_MAX` itself stops the loops at the last
entries, 23 and 18. -/
theorem bucket_index_in_bounds_witness :
    bucket_index dt_gui_presets_exposure_value_cnt dt_gui_presets_exposure_value FLT_MAX ≤ 23 ∧
    bucket_index dt_gui_presets_aperture_value_cnt dt_gui_presets_aperture_value FLT_MAX ≤ 18 ∧
    (∃ label, dt_gui_presets_exposure_value_str[bucket_index dt_gui_presets_exposure_value_cnt
      dt_gui_presets_exposure_value FLT_MAX]? = some label) ∧
    (∃ label, dt_gui_presets_aperture_value_str[bucket_index dt_gui_presets_aperture_value_cnt
      dt_gui_presets_aperture_value FLT_MAX]? = some label) :=
  bucket_index_in_bounds FLT_MAX (by decide)

/-! ## The entries the exposure table holds twice -/

/-- C30: the exposure table holds the value of `1. / 1000` at the indices 4 and
5 and the value of `1. / 15` at the indices 11 and 12, and the index loop over
the table never stops at 5 or at 12, whatever the bound. -/
theorem bucket_index_skips_duplicates (bound : CFloat) :
    dt_gui_presets_exposure_value[4]? = dt_gui_presets_exposure_value[5]? ∧
    dt_gui_presets_exposure_value[11]? = dt_gui_presets_exposure_value[12]? ∧
    bucket_index dt_gui_presets_exposure_value_cnt dt_gui_presets_exposure_value bound ≠ 5 ∧
    bucket_index dt_gui_presets_exposure_value_cnt dt_gui_presets_exposure_value bound ≠ 12 := by
  have hEt : dt_gui_presets_exposure_value.take dt_gui_presets_exposure_value_cnt
      = dt_gui_presets_exposure_value := by decide
  obtain ⟨_, h2, h3⟩ := bucket_loop_spec bound dt_gui_presets_exposure_value
  refine ⟨by decide, by decide, ?_, ?_⟩
  · unfold bucket_index
    rw [hEt]
    intro h
    rw [h] at h2 h3
    have a := h2 4 ⟨8589935, 33⟩ (by omega) (by decide)
    have b := h3 ⟨8589935, 33⟩ (by decide)
    rw [a] at b
    cases b
  · unfold bucket_index
    rw [hEt]
    intro h
    rw [h] at h2 h3
    have a := h2 11 ⟨8947849, 27⟩ (by omega) (by decide)
    have b := h3 ⟨8947849, 27⟩ (by decide)
    rw [a] at b
    cases b

/-! ## The options of an enum preference -/

/-- C29 (the code at the failing input): the values text `[v]` of a single item
`v`, which is the configured value, split into the one item `[v]`. The item
starts with `[`, so the code steps over that character and, in the `else`
branch it skips, leaves the `]` in place: the store receives `v]`, not `v`, and
the active position is -1, not 0. -/
theorem dt_gui_preferences_enum_single_item (split : CStr → CStr → List CStr)
    (g : CStr → CStr) (v : CStr)
    (hsplit : split "][".toList (enum_values [v]) = [enum_values [v]]) :
    dt_gui_preferences_enum split g (some v) (enum_values [v])
      = some ([(v ++ [']'], g (v ++ [']']))], -1) := by
  unfold dt_gui_preferences_enum
  rw [hsplit]
  have hne : ¬ (some v = some (v ++ [']'])) := by
    intro e
    have := congrArg List.length (Option.some.inj e)
    simp at this
  simp [enum_values, dt_gui_preferences_enum_loop, enum_strip_item, hne]

/-- C29 at the failing input: the values text `[a]` and the configured value
`a`; the store receives `a]` and the active position is -1. -/
theorem dt_gui_preferences_enum_single_item_witness :
    dt_gui_preferences_enum dt_util_str_to_glist (fun item => item) (some "a".toList)
        "[a]".toList = some ([("a]".toList, "a]".toList)], -1) :=
  dt_gui_preferences_enum_single_item dt_util_str_to_glist (fun item => item) "a".toList
    (by decide)

/-- With three items the store receives `a`, `b`, `c`, and the position of the
configured value `b` is 1. -/
theorem dt_gui_preferences_enum_three_items :
    dt_gui_preferences_enum dt_util_str_to_glist (fun item => item) (some "b".toList)
        "[a][b][c]".toList
      = some ([("a".toList, "a".toList), ("b".toList, "b".toList), ("c".toList, "c".toList)],
          1) := by
  decide

theorem str_to_glist_loop_item (w : CStr) (hw : ']' ∉ w) :
    ∀ (item rest : CStr),
      str_to_glist_loop "][".toList (w ++ rest) 0 item
        = str_to_glist_loop "][".toList rest 0 (item ++ w) := by
  induction w with
  | nil => intro item rest; simp
  | cons c w ih =>
    intro item rest
    have hc : ¬ (']' = c) := fun e => hw (by rw [e]; exact List.mem_cons_self _ _)
    have hw2 : ']' ∉ w := fun h => hw (List.mem_cons_of_mem _ h)
    have hpre : List.isPrefixOf "][".toList (c :: (w ++ rest)) = false := by
      show List.isPrefixOf [']', '['] (c :: (w ++ rest)) = false
      simp [List.isPrefixOf, hc]
    show str_to_glist_loop "][".toList (c :: (w ++ rest)) 0 item = _
    rw [str_to_glist_loop]
    simp only [hpre, Bool.false_eq_true, and_false, if_false]
    rw [ih hw2]
    simp

theorem str_to_glist_loop_separator (item rest : CStr) :
    str_to_glist_loop "][".toList (']' :: '[' :: rest) 0 item
      = item :: str_to_glist_loop "][".toList rest 0 [] := by
  have hpre : List.isPrefixOf "][".toList (']' :: '[' :: rest) = true := by
    show List.isPrefixOf [']', '['] (']' :: '[' :: rest) = true
    simp [List.isPrefixOf]
  have hne : "][".toList ≠ [] := by decide
  rw [str_to_glist_loop]
  simp only [hpre, hne, ne_eq, not_false_eq_true, and_self, if_true]
  show item :: str_to_glist_loop "][".toList ('[' :: rest) (0 + 1) [] = _
  rw [str_to_glist_loop]

/-- The split of the values text of items without a closing bracket. -/
theorem str_to_glist_loop_values :
    ∀ (vs : List CStr) (item v : CStr), ']' ∉ v → (∀ x ∈ vs, ']' ∉ x) →
      str_to_glist_loop "][".toList (v ++ ']' :: enum_values vs) 0 item
        = enum_split_items item v vs := by
  intro vs
  induction vs with
  | nil =>
    intro item v hv _
    rw [str_to_glist_loop_item v hv]
    simp only [enum_values, enum_split_items]
    have hpre : List.isPrefixOf "][".toList [']'] = false := by decide
    rw [str_to_glist_loop]
    simp only [hpre, Bool.false_eq_true, and_false, if_false]
    rw [str_to_glist_loop]
  | cons w ws ih =>
    intro item v hv hvs
    rw [str_to_glist_loop_item v hv]
    simp only [enum_values, enum_split_items]
    rw [str_to_glist_loop_separator,
      ih [] w (hvs w (List.mem_cons_self _ _)) (fun x hx => hvs x (List.mem_cons_of_mem _ hx))]

theorem dt_util_str_to_glist_values (v : CStr) (vs : List CStr) (hv : ']' ∉ v)
    (hvs : ∀ x ∈ vs, ']' ∉ x) :
    dt_util_str_to_glist "][".toList (enum_values (v :: vs)) = enum_split_items ['['] v vs := by
  unfold dt_util_str_to_glist
  simp only [enum_values]
  have hpre : List.isPrefixOf "][".toList ('[' :: (v ++ ']' :: enum_values vs)) = false := by
    show List.isPrefixOf [']', '['] ('[' :: (v ++ ']' :: enum_values vs)) = false
    simp [List.isPrefixOf]
  rw [if_neg (by simp), str_to_glist_loop]
  simp only [hpre, Bool.false_eq_true, and_false, if_false]
  rw [str_to_glist_loop_values vs _ v hv hvs]
  rfl

theorem dt_gui_preferences_enum_loop_set (g : CStr → CStr) (str : Option CStr) :
    ∀ (vals items : List CStr) (store : List (CStr × CStr)) (i pos : Int),
      List.Forall₂ (fun val item => enum_strip_item val = some item) vals items → pos ≠ -1 →
      dt_gui_preferences_enum_loop g str vals store i pos
        = some (store ++ items.map (fun x => (x, g x)), pos) := by
  intro vals items store i pos h
  induction h generalizing store i with
  | nil => intro _; simp [dt_gui_preferences_enum_loop]
  | cons hval _ ih =>
    intro hpos
    rw [dt_gui_preferences_enum_loop]
    simp only [hval, hpos, false_and, if_false]
    rw [ih _ _ hpos]
    simp

/-- The loop of `dt_gui_preferences_enum` over values that the bracket removal
turns into `items`, entered with a count `i` that is not negative and with
`pos` still -1. -/
theorem dt_gui_preferences_enum_loop_spec (g : CStr → CStr) (str : Option CStr) :
    ∀ (vals items : List CStr) (store : List (CStr × CStr)) (i : Int),
      List.Forall₂ (fun val item => enum_strip_item val = some item) vals items → 0 ≤ i →
      dt_gui_preferences_enum_loop g str vals store i (-1)
        = some (store ++ items.map (fun x => (x, g x)),
            match enum_first_pos str items with
            | some k => i + (k : Int)
            | none => -1) := by
  intro vals items store i h
  induction h generalizing store i with
  | nil =>
    intro _
    simp [dt_gui_preferences_enum_loop, enum_first_pos]
  | @cons val item vals items hval hrest ih =>
    intro hi
    rw [dt_gui_preferences_enum_loop]
    simp only [hval, true_and, enum_first_pos]
    by_cases hs : str = some item
    · have hne : i ≠ -1 := by omega
      rw [if_pos hs, if_pos hs, dt_gui_preferences_enum_loop_set g _ _ _ _ _ _ hrest hne]
      simp
    · rw [if_neg hs, if_neg hs, ih _ _ (by omega)]
      cases hk : enum_first_pos str items with
      | none => simp
      | some k =>
        simp only [Option.map_some', List.map_cons, List.append_assoc, List.singleton_append,
          Option.some.injEq, Prod.mk.injEq, true_and]
        push_cast
        ring

theorem enum_strip_split_items :
    ∀ (ws : List CStr) (w : CStr), (∀ x ∈ w :: ws, x ≠ [] ∧ '[' ∉ x ∧ ']' ∉ x) →
      List.Forall₂ (fun val item => enum_strip_item val = some item)
        (enum_split_items [] w ws) (w :: ws) := by
  intro ws
  induction ws with
  | nil =>
    intro w h
    obtain ⟨hne, hl, _⟩ := h w (List.mem_cons_self _ _)
    refine List.Forall₂.cons ?_ List.Forall₂.nil
    cases w with
    | nil => exact absurd rfl hne
    | cons c w2 =>
      have hc : c ≠ '[' := fun e => hl (by rw [e]; exact List.mem_cons_self _ _)
      show enum_strip_item (c :: (w2 ++ [']'])) = some (c :: w2)
      unfold enum_strip_item
      simp only [hc, if_false]
      have h1 : (c :: (w2 ++ [']'])).getLast? = some ']' := by
        rw [← List.cons_append, List.getLast?_concat]
      have h2 : (c :: (w2 ++ [']'])).dropLast = c :: w2 := by
        rw [← List.cons_append, List.dropLast_concat]
      rw [if_pos h1, h2]
  | cons x xs ih =>
    intro w h
    obtain ⟨hne, hl, hr⟩ := h w (List.mem_cons_self _ _)
    refine List.Forall₂.cons ?_ (ih x (fun y hy => h y (List.mem_cons_of_mem _ hy)))
    cases w with
    | nil => exact absurd rfl hne
    | cons c w2 =>
      have hc : c ≠ '[' := fun e => hl (by rw [e]; exact List.mem_cons_self _ _)
      show enum_strip_item (c :: w2) = some (c :: w2)
      unfold enum_strip_item
      simp only [hc, if_false]
      have h1 : ¬ ((c :: w2).getLast? = some ']') := by
        intro e
        exact hr (List.mem_of_getLast?_eq_some e)
      rw [if_neg h1]

/-- The claim of C29 for two items or more: for the values text
`[v1][v2]...[vn]` of `n >= 2` items that are not empty and hold no bracket, the
store receives the items `v1`, ..., `vn` in this order, each with its
translation, and the active position is that of the first item equal to the
configured value, or -1 when none is. -/
theorem dt_gui_preferences_enum_items (g : CStr → CStr) (str : Option CStr) (v w : CStr)
    (vs : List CStr) (hitems : ∀ x ∈ v :: w :: vs, x ≠ [] ∧ '[' ∉ x ∧ ']' ∉ x) :
    dt_gui_preferences_enum dt_util_str_to_glist g str (enum_values (v :: w :: vs))
      = some ((v :: w :: vs).map (fun x => (x, g x)), enum_active_pos str (v :: w :: vs)) := by
  unfold dt_gui_preferences_enum
  rw [dt_util_str_to_glist_values v (w :: vs) (hitems v (List.mem_cons_self _ _)).2.2
    (fun x hx => (hitems x (List.mem_cons_of_mem _ hx)).2.2)]
  have hall : List.Forall₂ (fun val item => enum_strip_item val = some item)
      (enum_split_items ['['] v (w :: vs)) (v :: w :: vs) := by
    refine List.Forall₂.cons ?_
      (enum_strip_split_items vs w (fun x hx => hitems x (List.mem_cons_of_mem _ hx)))
    show enum_strip_item ('[' :: v) = some v
    simp [enum_strip_item]
  rw [dt_gui_preferences_enum_loop_spec g str _ _ [] 0 hall (le_refl _)]
  unfold enum_active_pos
  cases enum_first_pos str (v :: w :: vs) <;> simp

/-- The code for a single item: for the values text `[v]` of one item without a
closing bracket the store receives `v]`, and the active position is 0 only
when the configured value is `v]`. -/
theorem dt_gui_preferences_enum_one (g : CStr → CStr) (str : Option CStr) (v : CStr)
    (hv : ']' ∉ v) :
    dt_gui_preferences_enum dt_util_str_to_glist g str (enum_values [v])
      = some ([(v ++ [']'], g (v ++ [']']))], enum_active_pos str [v ++ [']']]) := by
  unfold dt_gui_preferences_enum
  rw [dt_util_str_to_glist_values v [] hv (fun x hx => by cases hx)]
  have hall : List.Forall₂ (fun val item => enum_strip_item val = some item)
      (enum_split_items ['['] v []) [v ++ [']']] := by
    refine List.Forall₂.cons ?_ List.Forall₂.nil
    show enum_strip_item ('[' :: (v ++ [']'])) = some (v ++ [']'])
    simp [enum_strip_item]
  rw [dt_gui_preferences_enum_loop_spec g str _ _ [] 0 hall (le_refl _)]
  unfold enum_active_pos
  cases enum_first_pos str [v ++ [']']] <;> simp

end Preferences
